import Mathlib

/-!
# apiv1: response classification and value normalisation

A shallow embedding of `src/apiv1/apiv1.go` (`Request`, `fixTypesToStruct`, `Check`,
`GetBalance`, `SetBalance`, `UpdateBalance`, `Leaderboard`) together with the parts of the Go
standard library these functions call (`strconv.ParseInt`, `encoding/json`,
`strings.Contains`, the verb `%v` of `fmt`).

Conventions of the embedding.

* A Go `string` / `[]byte` holding text is a Lean `String`; the loops of the library that
  walk bytes walk characters here, which gives the same result on UTF-8 text (every byte of
  a multi-byte character is `≥ 0x80` and is treated like the character itself).
* Go `int`, `int64` and `time.Duration` are `Int`; every value stored in one is range-checked
  by the code that produces it (`ParseInt` with bit size 64).
* A Go `error` is a value of `GoError`; `nil` is `none`.
* A `panic` is the constructor `Result.panic`.
* The HTTP round trip and the clock are inputs of the functions that use them.
* The library is the one of Go 1.13 and later: `ParseInt` in base 0 reads the prefixes `0b`,
  `0o`, `0x` and underscores, `json.Marshal` and `fmt` write a `float64` with the shortest
  decimal digits that round to it, and `fmt` prints the keys of a map in sorted order.
-/

namespace Apiv1

/-! ## strconv -/

/-- The `Err` field of a `strconv.NumError`. -/
inductive NumError where
  | ErrSyntax
  | ErrRange
  | ErrBase
  | ErrBitSize
  deriving DecidableEq, Repr

/-- `lower(c)` of strconv: `c | ('x' - 'X')`. -/
def lower (c : Nat) : Nat := c ||| 0x20

/-- The digit loop of `ParseUint`. The result is `.inl (value, err)` for an early `return`
inside the loop and `.inr (n, underscores)` when the loop runs to the end of the input.
`n` is a `uint64`: the products and sums wrap at `2^64`. -/
def parseUintLoop (base : Nat) (base0 : Bool) (cutoff maxVal : Nat) :
    List Char → Nat → Bool → (Nat × NumError) ⊕ (Nat × Bool)
  | [], n, underscores => .inr (n, underscores)
  | ch :: rest, n, underscores =>
    let c := ch.toNat
    if c = 95 ∧ base0 = true then
      parseUintLoop base base0 cutoff maxVal rest n true
    else
      let digit : Option Nat :=
        if 48 ≤ c ∧ c ≤ 57 then some (c - 48)
        else if 97 ≤ lower c ∧ lower c ≤ 122 then some (lower c - 97 + 10)
        else none
      match digit with
      | none => .inl (0, NumError.ErrSyntax)
      | some d =>
        if d ≥ base then .inl (0, NumError.ErrSyntax)
        else if n ≥ cutoff then .inl (maxVal, NumError.ErrRange)
        else
          let n0 := (n * base) % 2 ^ 64
          let n1 := (n0 + d) % 2 ^ 64
          if n1 < n0 ∨ n1 > maxVal then .inl (maxVal, NumError.ErrRange)
          else parseUintLoop base base0 cutoff maxVal rest n1 underscores

/-- The loop of `underscoreOK` over the number proper; `saw` is `'^'`, `'0'`, `'_'` or `'!'`. -/
def underscoreLoop (hex : Bool) : List Char → Char → Bool
  | [], saw => saw != '_'
  | ch :: rest, saw =>
    let c := ch.toNat
    if (48 ≤ c ∧ c ≤ 57) ∨ (hex = true ∧ 97 ≤ lower c ∧ lower c ≤ 102) then
      underscoreLoop hex rest '0'
    else if c = 95 then
      if saw != '0' then false else underscoreLoop hex rest '_'
    else if saw == '_' then false
    else underscoreLoop hex rest '!'

/-- `underscoreOK` of strconv: underscores only between digits or between a base prefix and
a digit. -/
def underscoreOK (s : List Char) : Bool :=
  let s1 := match s with
    | '-' :: t => t
    | '+' :: t => t
    | _ => s
  match s1 with
  | '0' :: p :: t =>
    if lower p.toNat = 98 ∨ lower p.toNat = 111 ∨ lower p.toNat = 120 then
      underscoreLoop (lower p.toNat == 120) t '0'
    else underscoreLoop false s1 '^'
  | _ => underscoreLoop false s1 '^'

/-- The base and the digits `ParseUint` works on: a base in `2..36` is taken as given, base 0
reads the prefix (`0b`, `0o`, `0x`, or a leading `0` for octal); `none` is an invalid base. -/
def uintBase (s : List Char) (base : Nat) : Option (Nat × List Char) :=
  if 2 ≤ base ∧ base ≤ 36 then some (base, s)
  else if base = 0 then
    match s with
    | '0' :: t =>
      match t with
      | p :: _ :: _ =>
        if lower p.toNat = 98 then some (2, t.tail)
        else if lower p.toNat = 111 then some (8, t.tail)
        else if lower p.toNat = 120 then some (16, t.tail)
        else some (8, t)
      | _ => some (8, t)
    | _ => some (10, s)
  else none

/-- `strconv.ParseUint(s, base, bitSize)`, with the value it returns next to each error. -/
def ParseUint (s : List Char) (base bitSize : Nat) : Nat × Option NumError :=
  if s = [] then (0, some NumError.ErrSyntax)
  else
    match uintBase s base with
    | none => (0, some NumError.ErrBase)
    | some (b, digits) =>
      if bitSize > 64 then (0, some NumError.ErrBitSize)
      else
        let bits := if bitSize = 0 then 64 else bitSize
        let cutoff := (2 ^ 64 - 1) / b + 1
        let maxVal := (2 ^ bits - 1) % 2 ^ 64
        match parseUintLoop b (base == 0) cutoff maxVal digits 0 false with
        | .inl (v, e) => (v, some e)
        | .inr (n, underscores) =>
          if underscores = true ∧ underscoreOK s = false then (0, some NumError.ErrSyntax)
          else (n, none)

/-- `strconv.ParseInt(s, base, bitSize)`, with the value it returns next to each error: 0
for a syntax error, the nearest bound for a value out of range. -/
def ParseInt (s : String) (base bitSize : Nat) : Int × Option NumError :=
  match s.data with
  | [] => (0, some NumError.ErrSyntax)
  | c :: t =>
    let neg := c == '-'
    let u := if c == '+' ∨ c == '-' then t else c :: t
    let (un, err) := ParseUint u base bitSize
    if err ≠ none ∧ err ≠ some NumError.ErrRange then (0, err)
    else
      let bits := if bitSize = 0 then 64 else bitSize
      let cutoff := 2 ^ (bits - 1)
      if neg = false ∧ un ≥ cutoff then (((cutoff - 1 : Nat) : Int), some NumError.ErrRange)
      else if neg = true ∧ un > cutoff then (-(cutoff : Int), some NumError.ErrRange)
      else (if neg then -(un : Int) else (un : Int), none)

/-! ## encoding/json: syntax -/

/-- A JSON document as the scanner of encoding/json reads it. A number keeps the text of its
literal, which the decoder converts according to the Go type it decodes into. -/
inductive JSON where
  | null
  | bool (b : Bool)
  | num (lit : String)
  | str (s : String)
  | arr (elems : List JSON)
  | obj (members : List (String × JSON))
  deriving Repr

/-- The nesting limit of the scanner (`maxNestingDepth`). -/
def maxNestingDepth : Nat := 10000

/-- The scanner's `isSpace`. -/
def isSpace (c : Char) : Bool :=
  c == ' ' || c == '\t' || c == '\r' || c == '\n'

/-- Skips the white space in front of the next token. -/
def skipSpace : List Char → List Char
  | [] => []
  | c :: t => if isSpace c then skipSpace t else c :: t

/-- The value of a hexadecimal digit. -/
def hexVal (c : Char) : Option Nat :=
  let n := c.toNat
  if 48 ≤ n ∧ n ≤ 57 then some (n - 48)
  else if 97 ≤ n ∧ n ≤ 102 then some (n - 97 + 10)
  else if 65 ≤ n ∧ n ≤ 70 then some (n - 65 + 10)
  else none

/-- The decoder's `getu4` on the four characters after a backslash and `u`. -/
def getu4 (a b c d : Char) : Option Nat :=
  match hexVal a, hexVal b, hexVal c, hexVal d with
  | some x, some y, some z, some w => some (((x * 16 + y) * 16 + z) * 16 + w)
  | _, _, _, _ => none

/-- The replacement character U+FFFD. -/
def runeError : Char := Char.ofNat 0xFFFD

/-- What stands at the front of the inside of a string literal. -/
inductive StringItem where
  /-- The closing quote. -/
  | close
  /-- One character of the unquoted text, written as a plain character (`extra = 0`) or as
  an escape that takes `extra` more characters of the input. -/
  | char (c : Char) (extra : Nat)
  /-- A control character, an unknown or unfinished escape, or the end of the input. -/
  | bad
  deriving Repr

/-- Reads one item of the inside of a string literal (the scanner's string states and one
round of the decoder's `unquote`). An escaped surrogate half that is not followed by its
escaped partner becomes U+FFFD, and the escape after it is read as the next item. -/
def stringItem : List Char → StringItem
  | [] => StringItem.bad
  | c :: r =>
    if c = '"' then StringItem.close
    else if c = '\\' then
      match r with
      | [] => StringItem.bad
      | e :: r1 =>
        if e = '"' ∨ e = '\\' ∨ e = '/' then StringItem.char e 1
        else if e = 'b' then StringItem.char (Char.ofNat 8) 1
        else if e = 'f' then StringItem.char (Char.ofNat 12) 1
        else if e = 'n' then StringItem.char '\n' 1
        else if e = 'r' then StringItem.char '\r' 1
        else if e = 't' then StringItem.char '\t' 1
        else if e = 'u' then
          match r1 with
          | a :: b :: c1 :: d :: r2 =>
            match getu4 a b c1 d with
            | none => StringItem.bad
            | some rr =>
              if 0xD800 ≤ rr ∧ rr < 0xE000 then
                match r2 with
                | b1 :: u1 :: e1 :: f1 :: g1 :: h1 :: _ =>
                  match getu4 e1 f1 g1 h1 with
                  | some rr1 =>
                    if b1 = '\\' ∧ u1 = 'u' ∧ rr < 0xDC00 ∧ 0xDC00 ≤ rr1 ∧ rr1 < 0xE000 then
                      StringItem.char
                        (Char.ofNat ((rr - 0xD800) * 1024 + (rr1 - 0xDC00) + 0x10000)) 11
                    else StringItem.char runeError 5
                  | none => StringItem.char runeError 5
                | _ => StringItem.char runeError 5
              else StringItem.char (Char.ofNat rr) 5
          | _ => StringItem.bad
        else StringItem.bad
    else if c.toNat < 0x20 then StringItem.bad
    else StringItem.char c 0

/-- Reads a string literal after its opening quote and unquotes it: the result is the
unquoted text and the input after the closing quote, `none` is a syntax error. `fuel` bounds
the recursion; every item takes at least one character, so the length of the input plus one
is enough. -/
def scanStringAux : Nat → List Char → Option (List Char × List Char)
  | 0, _ => none
  | fuel + 1, s =>
    match stringItem s with
    | StringItem.close => some ([], s.tail)
    | StringItem.bad => none
    | StringItem.char c extra =>
      (scanStringAux fuel (s.drop (extra + 1))).map fun p => (c :: p.1, p.2)

/-- Reads and unquotes a string literal after its opening quote. -/
def scanString (s : List Char) : Option (List Char × List Char) :=
  scanStringAux (s.length + 1) s

/-- Splits off the leading decimal digits. -/
def spanDigits : List Char → List Char × List Char
  | [] => ([], [])
  | c :: t =>
    if 48 ≤ c.toNat ∧ c.toNat ≤ 57 then
      let p := spanDigits t
      (c :: p.1, p.2)
    else ([], c :: t)

/-- Splits off a leading character that is one of the two given. -/
def scanOneOf (c1 c2 : Char) (s : List Char) : List Char × List Char :=
  match s with
  | c :: t => if c = c1 ∨ c = c2 then ([c], t) else ([], s)
  | [] => ([], [])

/-- The exponent part of a number literal, if there is one: `e` or `E`, an optional sign,
and at least one digit. `none` is a syntax error. -/
def scanExp (s : List Char) : Option (List Char × List Char) :=
  match s with
  | e :: t =>
    if e = 'e' ∨ e = 'E' then
      match spanDigits (scanOneOf '+' '-' t).2 with
      | ([], _) => none
      | (ds, rest) => some (e :: (scanOneOf '+' '-' t).1 ++ ds, rest)
    else some ([], s)
  | [] => some ([], [])

/-- The fraction part of a number literal, if there is one: a dot and at least one digit. -/
def scanFrac (s : List Char) : Option (List Char × List Char) :=
  match s with
  | '.' :: t =>
    match spanDigits t with
    | ([], _) => none
    | (ds, rest) => some ('.' :: ds, rest)
  | _ => some ([], s)

/-- The integer part of a number literal, sign apart: `0`, or a digit `1..9` and more
digits. -/
def scanIntPart (s : List Char) : Option (List Char × List Char) :=
  match s with
  | '0' :: t => some (['0'], t)
  | c :: t =>
    if 49 ≤ c.toNat ∧ c.toNat ≤ 57 then
      let p := spanDigits t
      some (c :: p.1, p.2)
    else none
  | [] => none

/-- Reads a number literal (the scanner's number states): the text of the literal and the
input after it. -/
def scanNumber (s : List Char) : Option (List Char × List Char) :=
  match scanIntPart (scanOneOf '-' '-' s).2 with
  | none => none
  | some (ip, s2) =>
    match scanFrac s2 with
    | none => none
    | some (fp, s3) =>
      match scanExp s3 with
      | none => none
      | some (ep, s4) => some ((scanOneOf '-' '-' s).1 ++ ip ++ fp ++ ep, s4)

mutual
/-- Reads one JSON value at the front of the input (white space already skipped). `depth` is
the number of arrays and objects the value is nested in. `fuel` bounds the recursion: a value
is read with fuel at least twice the length of the input plus one, members and elements with
one more, and every call passes this on to the calls it makes, which are made with one unit
less on an input at least one character shorter (a value inside an array or object) or on
the same input (the first element) with the spare unit. -/
def parseValue : Nat → Nat → List Char → Option (JSON × List Char)
  | 0, _, _ => none
  | fuel + 1, depth, s =>
    match s with
    | [] => none
    | c :: r =>
      if c = '{' then
        if depth ≥ maxNestingDepth then none
        else
          match skipSpace r with
          | '}' :: r1 => some (JSON.obj [], r1)
          | r1 => (parseMembers fuel (depth + 1) r1).map fun p => (JSON.obj p.1, p.2)
      else if c = '[' then
        if depth ≥ maxNestingDepth then none
        else
          match skipSpace r with
          | ']' :: r1 => some (JSON.arr [], r1)
          | r1 => (parseElems fuel (depth + 1) r1).map fun p => (JSON.arr p.1, p.2)
      else if c = '"' then (scanString r).map fun p => (JSON.str (String.mk p.1), p.2)
      else if "true".data.isPrefixOf s then some (JSON.bool true, s.drop 4)
      else if "false".data.isPrefixOf s then some (JSON.bool false, s.drop 5)
      else if "null".data.isPrefixOf s then some (JSON.null, s.drop 4)
      else (scanNumber s).map fun p => (JSON.num (String.mk p.1), p.2)
/-- Reads the members of an object from the first key to the closing brace. -/
def parseMembers : Nat → Nat → List Char → Option (List (String × JSON) × List Char)
  | 0, _, _ => none
  | fuel + 1, depth, s =>
    match s with
    | '"' :: r =>
      match scanString r with
      | none => none
      | some (k, r1) =>
        match skipSpace r1 with
        | ':' :: r2 =>
          match parseValue fuel depth (skipSpace r2) with
          | none => none
          | some (v, r3) =>
            match skipSpace r3 with
            | ',' :: r4 =>
              (parseMembers fuel depth (skipSpace r4)).map fun p =>
                ((String.mk k, v) :: p.1, p.2)
            | '}' :: r4 => some ([(String.mk k, v)], r4)
            | _ => none
        | _ => none
    | _ => none
/-- Reads the elements of an array from the first element to the closing bracket. -/
def parseElems : Nat → Nat → List Char → Option (List JSON × List Char)
  | 0, _, _ => none
  | fuel + 1, depth, s =>
    match parseValue fuel depth s with
    | none => none
    | some (v, r1) =>
      match skipSpace r1 with
      | ',' :: r2 => (parseElems fuel depth (skipSpace r2)).map fun p => (v :: p.1, p.2)
      | ']' :: r2 => some ([v], r2)
      | _ => none
end

/-- The document a body holds: one JSON value with white space around it; `none` is a
`SyntaxError` (what `checkValid` reports before anything is decoded). -/
def parseJSON (data : String) : Option JSON :=
  match parseValue (2 * data.length + 2) 0 (skipSpace data.data) with
  | none => none
  | some (v, rest) => if skipSpace rest = [] then some v else none

/-! ## float64 values in decoded documents -/

/-- A finite `float64`: the value is `mant * 2 ^ exp`, negated when `neg` is set. Values made
by `ParseFloat` are normalised as in IEEE 754: `2^52 ≤ mant < 2^53` with `-1074 ≤ exp ≤ 971`,
or `mant < 2^52` with `exp = -1074`. -/
structure F64 where
  neg : Bool
  mant : Nat
  exp : Int
  deriving DecidableEq, Repr

/-- The number a string of decimal digits denotes. -/
def digitsVal (ds : List Char) : Nat :=
  ds.foldl (fun a c => 10 * a + (c.toNat - 48)) 0

/-- The value of the exponent part of a number literal (empty, or `e`, a sign, digits). -/
def expVal (ep : List Char) : Int :=
  match ep with
  | _ :: '-' :: ds => -(digitsVal ds : Int)
  | _ :: '+' :: ds => (digitsVal ds : Int)
  | _ :: ds => (digitsVal ds : Int)
  | [] => 0

/-- Reads a JSON number literal as sign, decimal mantissa `m` and decimal exponent `e`: the
literal denotes `m * 10 ^ e`. `none` when the text is not a JSON number literal. -/
def decimalOfLit (lit : List Char) : Option (Bool × Nat × Int) :=
  match scanIntPart (scanOneOf '-' '-' lit).2 with
  | none => none
  | some (ip, s2) =>
    match scanFrac s2 with
    | none => none
    | some (fp, s3) =>
      match scanExp s3 with
      | some (ep, []) =>
        some ((scanOneOf '-' '-' lit).1 == ['-'], digitsVal (ip ++ fp.tail),
          expVal ep - (fp.tail.length : Int))
      | _ => none

/-- The position of the highest set bit, by halving: `log2Aux fuel n` is the integer part of
the binary logarithm of `n` when `fuel ≥ n` (0 for `n = 0`). -/
def log2Aux : Nat → Nat → Nat
  | 0, _ => 0
  | fuel + 1, n => if n < 2 then 0 else log2Aux fuel (n / 2) + 1

/-- The integer part of the binary logarithm of a positive number. -/
def log2 (n : Nat) : Nat := log2Aux n n

/-- Rounds the positive rational `num / den` to the nearest `float64`, ties to even:
mantissa and binary exponent, or `none` when the value is out of range (it rounds to
infinity). A value that underflows rounds to a subnormal or to zero. -/
def roundFloat64 (num den : Nat) : Option (Nat × Int) :=
  let l : Int := (log2 num : Int) - (log2 den : Int)
  let above : Bool := if 0 ≤ l then den * 2 ^ l.toNat ≤ num else den ≤ num * 2 ^ (-l).toNat
  let fl : Int := if above then l else l - 1
  let e : Int := max (fl - 52) (-1074)
  let n := if 0 ≤ e then num else num * 2 ^ (-e).toNat
  let d := if 0 ≤ e then den * 2 ^ e.toNat else den
  let q := n / d
  let r := n % d
  let q1 := if 2 * r > d ∨ (2 * r = d ∧ q % 2 = 1) then q + 1 else q
  let m := if q1 = 2 ^ 53 then 2 ^ 52 else q1
  let e1 := if q1 = 2 ^ 53 then e + 1 else e
  if e1 > 971 then none else some (m, e1)

/-- `strconv.ParseFloat(lit, 64)` on the text of a JSON number literal: the nearest
`float64`, or `none` for a range error. -/
def ParseFloat (lit : String) : Option F64 :=
  match decimalOfLit lit.data with
  | none => none
  | some (neg, m, e) =>
    if m = 0 then some ⟨neg, 0, 0⟩
    else
      match (if 0 ≤ e then roundFloat64 (m * 10 ^ e.toNat) 1
             else roundFloat64 m (10 ^ (-e).toNat)) with
      | none => none
      | some (mant, exp) => some ⟨neg, mant, if mant = 0 then 0 else exp⟩

/-- One step of the search for the shortest decimal of a `float64`, at the digit position
`10 ^ k`. The value `v`, the lower bound `lo` and the upper bound `hi` of the interval of
reals that round to the float are given in units of `1 / s`; `incl` says that the bounds
belong to the interval (even mantissa). The value rounded down and rounded up to a multiple
of `10 ^ k` are the candidates: the result is the one inside the interval, the nearer one
when both are (the even one on a tie), as an integer. -/
def intCandidate (v lo hi s : Nat) (incl : Bool) (k : Nat) : Option Nat :=
  let u := 10 ^ k * s
  let down := v / u * u
  let up := if v % u = 0 then down else down + u
  let inside : Nat → Bool := fun x =>
    if incl then decide (lo ≤ x ∧ x ≤ hi) else decide (lo < x ∧ x < hi)
  match inside down, inside up with
  | true, true =>
    if v - down < up - v then some (down / s)
    else if up - v < v - down then some (up / s)
    else if (v / u) % 2 = 0 then some (down / s) else some (up / s)
  | true, false => some (down / s)
  | false, true => some (up / s)
  | false, false => none

/-- The shortest decimal that rounds to the float, searched from the digit position `10 ^ k`
down to the units; `none` when the shortest decimal has digits after the decimal point. -/
def shortestInt (v lo hi s : Nat) (incl : Bool) : Nat → Option Nat
  | 0 => intCandidate v lo hi s incl 0
  | k + 1 =>
    match intCandidate v lo hi s incl (k + 1) with
    | some c => some c
    | none => shortestInt v lo hi s incl k

/-- The integer that the literal `json.Marshal` writes for a `float64` denotes, when that
literal is an integer numeral. Marshal writes the shortest decimal that rounds to the float
(`strconv.AppendFloat` with precision -1), in format `f` when the magnitude is below `1e21`
and at least `1e-6` and in format `e` otherwise; zero is written `0` or `-0`. The result is
`none` when the literal has a fraction or an exponent. -/
def float64AsInt (f : F64) : Option Int :=
  if f.mant = 0 then some 0
  else
    let p := 2 ^ f.exp.toNat
    let s := 4 * 2 ^ (-f.exp).toNat
    let v := 4 * f.mant * p
    let half := 2 * p
    let lowHalf := if f.mant = 2 ^ 52 ∧ f.exp > -1074 then p else half
    if v ≥ 10 ^ 21 * s then none
    else
      match shortestInt v (v - lowHalf) (v + half) s (f.mant % 2 == 0) 20 with
      | none => none
      | some c => some (if f.neg then -(c : Int) else (c : Int))

/-! ## encoding/json: values of type `interface{}` -/

/-- The Go values an `interface{}` holds in this program: what `json.Unmarshal` stores
(`nil`, `bool`, `float64`, `string`, `[]interface{}`, `map[string]interface{}`) and the
integers (`int`, `int64`) that `fixTypesToStruct` stores. A map is a list of entries with
distinct keys. -/
inductive JVal where
  | null
  | bool (b : Bool)
  | float64 (f : F64)
  | str (s : String)
  | int (i : Int)
  | arr (elems : List JVal)
  | obj (entries : List (String × JVal))
  deriving Repr

/-- A `map[string]interface{}`. -/
abbrev ObjMap := List (String × JVal)

/-- The map lookup `m[k]`; `none` when the key is absent. -/
def mapGet (m : ObjMap) (k : String) : Option JVal :=
  (m.find? fun kv => kv.1 == k).map fun kv => kv.2

/-- The map assignment `m[k] = v`. -/
def mapSet (m : ObjMap) (k : String) (v : JVal) : ObjMap :=
  (m.filter fun kv => kv.1 != k) ++ [(k, v)]

/-- The map with the given entries assigned in order (a later duplicate key overwrites). -/
def mapOfEntries (es : List (String × JVal)) : ObjMap :=
  es.foldl (fun m kv => mapSet m kv.1 kv.2) []

mutual
/-- Decoding a document into an `interface{}`: a number becomes a `float64`. `none` when a
number literal is out of the range of `float64`, for which `Unmarshal` returns an
`UnmarshalTypeError`. -/
def toInterface : JSON → Option JVal
  | JSON.null => some JVal.null
  | JSON.bool b => some (JVal.bool b)
  | JSON.num lit => (ParseFloat lit).map JVal.float64
  | JSON.str s => some (JVal.str s)
  | JSON.arr elems => (toInterfaceList elems).map JVal.arr
  | JSON.obj members => (toInterfaceMembers members).map fun es => JVal.obj (mapOfEntries es)
/-- Decodes the elements of an array. -/
def toInterfaceList : List JSON → Option (List JVal)
  | [] => some []
  | x :: xs =>
    match toInterface x, toInterfaceList xs with
    | some v, some vs => some (v :: vs)
    | _, _ => none
/-- Decodes the members of an object, in the order of the document. -/
def toInterfaceMembers : List (String × JSON) → Option (List (String × JVal))
  | [] => some []
  | (k, x) :: xs =>
    match toInterface x, toInterfaceMembers xs with
    | some v, some vs => some ((k, v) :: vs)
    | _, _ => none
end

/-- The errors of `json.Unmarshal`. -/
inductive JsonError where
  | SyntaxError
  | UnmarshalTypeError
  deriving DecidableEq, Repr

/-- `json.Unmarshal(data, &objmap)` for `objmap` a nil `map[string]interface{}`: the map
after the call, or the error. The document `null` leaves the map nil, which reads like the
empty map; a document that is not an object is an `UnmarshalTypeError`. -/
def unmarshalObjmap (data : String) : Except JsonError ObjMap :=
  match parseJSON data with
  | none => .error JsonError.SyntaxError
  | some JSON.null => .ok []
  | some (JSON.obj members) =>
    match toInterfaceMembers members with
    | none => .error JsonError.UnmarshalTypeError
    | some es => .ok (mapOfEntries es)
  | some _ => .error JsonError.UnmarshalTypeError

/-! ## encoding/json: decoding into the structs of the program -/

/-- The folding of a character in the comparison of an object key with a field name: ASCII
letters are compared without case, and U+017F and U+212A fold onto `S` and `K`. The field
names of this program are ASCII, and no other character folds onto an ASCII letter. -/
def foldRune (c : Char) : Char :=
  if 97 ≤ c.toNat ∧ c.toNat ≤ 122 then Char.ofNat (c.toNat - 32)
  else if c.toNat = 0x17F then 'S'
  else if c.toNat = 0x212A then 'K'
  else c

/-- The case-insensitive comparison of an object key with a field name. -/
def equalFold (a b : String) : Bool :=
  a.data.map foldRune == b.data.map foldRune

/-- The field an object key selects among the JSON names of a struct: the field with exactly
this name if there is one, else the first field whose name matches without case. -/
def findField {α : Type} (name : α → String) (fields : List α) (key : String) : Option α :=
  match fields.find? fun f => name f == key with
  | some f => some f
  | none => fields.find? fun f => equalFold (name f) key

/-- The `UserObj` of the source (lines 35-47). -/
structure UserObj where
  Rank : Int := 0
  UserID : String := ""
  Cash : Int := 0
  CashInfinite : Bool := false
  CashNinfinite : Bool := false
  Bank : Int := 0
  BankInfinite : Bool := false
  BankNinfinite : Bool := false
  Total : Int := 0
  Infinite : Bool := false
  Ninfinite : Bool := false
  deriving DecidableEq, Repr

/-- The fields of `UserObj`, in the order of the declaration. -/
inductive UserObjField where
  | Rank
  | UserID
  | Cash
  | CashInfinite
  | CashNinfinite
  | Bank
  | BankInfinite
  | BankNinfinite
  | Total
  | Infinite
  | Ninfinite
  deriving DecidableEq, Repr

/-- The JSON name in the tag of each field of `UserObj`. -/
def UserObjField.jsonName : UserObjField → String
  | .Rank => "rank"
  | .UserID => "user_id"
  | .Cash => "cash"
  | .CashInfinite => "infinite_cash"
  | .CashNinfinite => "n-infinite_cash"
  | .Bank => "bank"
  | .BankInfinite => "infinite_bank"
  | .BankNinfinite => "n-infinite_bank"
  | .Total => "total"
  | .Infinite => "infinite_total"
  | .Ninfinite => "n-infinite_total"

/-- The fields of `UserObj` as the decoder lists them. -/
def userObjFields : List UserObjField :=
  [.Rank, .UserID, .Cash, .CashInfinite, .CashNinfinite, .Bank, .BankInfinite,
   .BankNinfinite, .Total, .Infinite, .Ninfinite]

/-- Whether an integer is in the range of `int64`. -/
def inInt64 (i : Int) : Bool :=
  decide (-(2 : Int) ^ 63 ≤ i ∧ i < (2 : Int) ^ 63)

/-- A marshalled value decoded into an `int` field: `ok none` leaves the field as it is
(`null`), a number must be written as an integer numeral in the range of `int64`, anything
else is an `UnmarshalTypeError`. -/
def intOfJVal : JVal → Except JsonError (Option Int)
  | JVal.null => .ok none
  | JVal.int i => if inInt64 i then .ok (some i) else .error JsonError.UnmarshalTypeError
  | JVal.float64 f =>
    match float64AsInt f with
    | some i => if inInt64 i then .ok (some i) else .error JsonError.UnmarshalTypeError
    | none => .error JsonError.UnmarshalTypeError
  | _ => .error JsonError.UnmarshalTypeError

/-- A marshalled value decoded into a `string` field. -/
def stringOfJVal : JVal → Except JsonError (Option String)
  | JVal.null => .ok none
  | JVal.str s => .ok (some s)
  | _ => .error JsonError.UnmarshalTypeError

/-- A marshalled value decoded into a `bool` field. -/
def boolOfJVal : JVal → Except JsonError (Option Bool)
  | JVal.null => .ok none
  | JVal.bool b => .ok (some b)
  | _ => .error JsonError.UnmarshalTypeError

/-- Decodes one value into one field of a `UserObj`. -/
def setUserObjField (r : UserObj) (f : UserObjField) (v : JVal) : Except JsonError UserObj :=
  match f with
  | .Rank => (intOfJVal v).map fun o => { r with Rank := o.getD r.Rank }
  | .UserID => (stringOfJVal v).map fun o => { r with UserID := o.getD r.UserID }
  | .Cash => (intOfJVal v).map fun o => { r with Cash := o.getD r.Cash }
  | .CashInfinite => (boolOfJVal v).map fun o => { r with CashInfinite := o.getD r.CashInfinite }
  | .CashNinfinite =>
    (boolOfJVal v).map fun o => { r with CashNinfinite := o.getD r.CashNinfinite }
  | .Bank => (intOfJVal v).map fun o => { r with Bank := o.getD r.Bank }
  | .BankInfinite => (boolOfJVal v).map fun o => { r with BankInfinite := o.getD r.BankInfinite }
  | .BankNinfinite =>
    (boolOfJVal v).map fun o => { r with BankNinfinite := o.getD r.BankNinfinite }
  | .Total => (intOfJVal v).map fun o => { r with Total := o.getD r.Total }
  | .Infinite => (boolOfJVal v).map fun o => { r with Infinite := o.getD r.Infinite }
  | .Ninfinite => (boolOfJVal v).map fun o => { r with Ninfinite := o.getD r.Ninfinite }

/-- Decodes the entries of an object into a `UserObj`, one after the other; a key that
selects no field is skipped. The first value that does not fit its field is the error that
`Unmarshal` returns. -/
def decodeUserObj : List (String × JVal) → UserObj → Except JsonError UserObj
  | [], r => .ok r
  | (k, v) :: rest, r =>
    match findField UserObjField.jsonName userObjFields k with
    | none => decodeUserObj rest r
    | some f =>
      match setUserObjField r f v with
      | .error e => .error e
      | .ok r1 => decodeUserObj rest r1

/-- The order of two keys as byte strings (the order of the code points of UTF-8 text). -/
def keyLe : List Char → List Char → Bool
  | [], _ => true
  | _ :: _, [] => false
  | a :: as, b :: bs => a.toNat < b.toNat || (a.toNat == b.toNat && keyLe as bs)

/-- Inserts an entry into a list sorted by key. -/
def insertByKey (e : String × JVal) : List (String × JVal) → List (String × JVal)
  | [] => [e]
  | x :: xs => if keyLe e.1.data x.1.data then e :: x :: xs else x :: insertByKey e xs

/-- The entries of a map in the order `json.Marshal` writes them: sorted by key. -/
def sortByKey : List (String × JVal) → List (String × JVal)
  | [] => []
  | x :: xs => insertByKey x (sortByKey xs)

/-- `json.Marshal(objmap)` followed by `json.Unmarshal(b, &balUser)` with `balUser` the zero
`UserObj` (lines 164-172): the marshalled object holds the entries of the map sorted by key
and is decoded entry by entry. Marshalling does not fail on the values a decoded map holds,
so line 166 is not reached. -/
def marshalUnmarshalUserObj (objmap : ObjMap) : Except JsonError UserObj :=
  decodeUserObj (sortByKey objmap) {}

/-- The `timeoutResponse` of the source (lines 25-28); `RetryAfter` is a `time.Duration`, a
count of nanoseconds. -/
structure timeoutResponse where
  Message : String := ""
  RetryAfter : Int := 0
  deriving DecidableEq, Repr

/-- The `errorResponse` of the source (lines 20-23). -/
structure errorResponse where
  Error : String := ""
  Message : String := ""
  deriving DecidableEq, Repr

/-- A document value decoded into a `string` field. -/
def stringOfJSON : JSON → Except JsonError (Option String)
  | JSON.null => .ok none
  | JSON.str s => .ok (some s)
  | _ => .error JsonError.UnmarshalTypeError

/-- A document value decoded into an `int64` field: the literal must be accepted by
`ParseInt(lit, 10, 64)`. -/
def int64OfJSON : JSON → Except JsonError (Option Int)
  | JSON.null => .ok none
  | JSON.num lit =>
    match ParseInt lit 10 64 with
    | (i, none) => .ok (some i)
    | (_, some _) => .error JsonError.UnmarshalTypeError
  | _ => .error JsonError.UnmarshalTypeError

/-- Decodes the members of an object into a `timeoutResponse`, in the order of the document. -/
def decodeTimeout : List (String × JSON) → timeoutResponse → Except JsonError timeoutResponse
  | [], r => .ok r
  | (k, v) :: rest, r =>
    match findField id ["message", "retry_after"] k with
    | none => decodeTimeout rest r
    | some f =>
      if f = "message" then
        match stringOfJSON v with
        | .error e => .error e
        | .ok o => decodeTimeout rest { r with Message := o.getD r.Message }
      else
        match int64OfJSON v with
        | .error e => .error e
        | .ok o => decodeTimeout rest { r with RetryAfter := o.getD r.RetryAfter }

/-- `json.Unmarshal(respo, &err)` for `err` the zero `timeoutResponse` (line 92). -/
def unmarshalTimeoutResponse (respo : String) : Except JsonError timeoutResponse :=
  match parseJSON respo with
  | none => .error JsonError.SyntaxError
  | some JSON.null => .ok {}
  | some (JSON.obj members) => decodeTimeout members {}
  | some _ => .error JsonError.UnmarshalTypeError

/-- Decodes the members of an object into an `errorResponse`, in the order of the document. -/
def decodeErrorResponse : List (String × JSON) → errorResponse → Except JsonError errorResponse
  | [], r => .ok r
  | (k, v) :: rest, r =>
    match findField id ["error", "message"] k with
    | none => decodeErrorResponse rest r
    | some f =>
      match stringOfJSON v with
      | .error e => .error e
      | .ok o =>
        if f = "error" then decodeErrorResponse rest { r with Error := o.getD r.Error }
        else decodeErrorResponse rest { r with Message := o.getD r.Message }

/-- `json.Unmarshal(respo, &err)` for `err` the zero `errorResponse` (line 102). -/
def unmarshalErrorResponse (respo : String) : Except JsonError errorResponse :=
  match parseJSON respo with
  | none => .error JsonError.SyntaxError
  | some JSON.null => .ok {}
  | some (JSON.obj members) => decodeErrorResponse members {}
  | some _ => .error JsonError.UnmarshalTypeError

/-! ## The program -/

/-- The Go errors of the program, by the place that makes them. -/
inductive GoError where
  /-- An error of `http.NewRequest`, `client.Do` or `ioutil.ReadAll`. -/
  | transport (cause : String)
  /-- An error of `json.Unmarshal`. -/
  | json (e : JsonError)
  /-- `fmt.Errorf("%v Retry after: %s", err.Message, err.RetryAfter)` (line 97). -/
  | rateLimited (message : String) (retryAfter : Int)
  /-- `fmt.Errorf("%v (%v)", err.Error, err.Message)` (line 107). -/
  | api (error message : String)
  /-- `errors.New(text)`. -/
  | new (text : String)
  deriving DecidableEq, Repr

/-- What a call returns: its results, or a panic. -/
inductive Result (α : Type) where
  | ret (a : α)
  | panic
  deriving DecidableEq, Repr

/-- `strings.Contains(s, substr)` on the characters of the two strings. -/
def containsChars : List Char → List Char → Bool
  | [], sub => sub.isEmpty
  | c :: t, sub => sub.isPrefixOf (c :: t) || containsChars t sub

/-- `strings.Contains(s, substr)`. -/
def Contains (s substr : String) : Bool :=
  containsChars s.data substr.data

/-- A response that was received and read: the status code and the body. -/
structure Response where
  StatusCode : Int
  Body : String
  deriving DecidableEq, Repr

/-- The `UserData` of the source (lines 15-18). The client is the function that sends a
request with the given method, URL, `Authorization` header and payload and reads the body of
the response, or fails (lines 75-89: `http.NewRequest`, `client.Do`, `ioutil.ReadAll`). -/
structure UserData where
  token : String
  client : String → String → String → String → Except GoError Response

/-- `Request` (lines 74-110): the body and the error it returns, or a panic. A nil body is
the empty string. -/
def Request (u : UserData) (protocol url payload : String) : Result (String × Option GoError) :=
  match u.client protocol ("https://unbelievable.pizza/api/v1" ++ url) u.token payload with
  | .error err => .ret ("", some err)
  | .ok resp =>
    let respo := resp.Body
    if resp.StatusCode = 429 then
      match unmarshalTimeoutResponse respo with
      | .error _ => .panic
      | .ok err => .ret (respo, some (GoError.rateLimited err.Message err.RetryAfter))
    else if Contains respo "error" then
      match unmarshalErrorResponse respo with
      | .error _ => .panic
      | .ok err => .ret (respo, some (GoError.api err.Error err.Message))
    else .ret (respo, none)

/-- One of the blocks of lines 119-158 of `fixTypesToStruct`, which differ in the key and in
the two flag keys only: when the value at `key` is a string, `"Infinity"` and `"-Infinity"`
store 0 (`-0` is the integer 0) and set a flag, and any other string stores the value that
`ParseInt` returns, whose error is dropped. -/
def fixInfinity (objmap : ObjMap) (key posFlag negFlag : String) : ObjMap :=
  match mapGet objmap key with
  | some (JVal.str x) =>
    if x = "Infinity" then mapSet (mapSet objmap key (JVal.int 0)) posFlag (JVal.bool true)
    else if x = "-Infinity" then
      mapSet (mapSet objmap key (JVal.int (-0))) negFlag (JVal.bool true)
    else mapSet objmap key (JVal.int (ParseInt x 0 64).1)
  | _ => objmap

/-- Lines 159-162 of `fixTypesToStruct`: a rank that is a string is replaced by the value
that `ParseInt` returns for it. -/
def fixRank (objmap : ObjMap) : ObjMap :=
  match mapGet objmap "rank" with
  | some (JVal.str x) => mapSet objmap "rank" (JVal.int (ParseInt x 0 64).1)
  | _ => objmap

/-- `fixTypesToStruct` (lines 112-175): the record and the error it returns. Both error
returns give the zero `UserObj`. -/
def fixTypesToStruct (data : String) : UserObj × Option JsonError :=
  match unmarshalObjmap data with
  | .error err => ({}, some err)
  | .ok objmap =>
    let objmap := fixInfinity objmap "total" "infinite_total" "n-infinite_total"
    let objmap := fixInfinity objmap "cash" "infinite_cash" "n-infinite_cash"
    let objmap := fixInfinity objmap "bank" "infinite_bank" "n-infinite_bank"
    let objmap := fixRank objmap
    match marshalUnmarshalUserObj objmap with
    | .error err => ({}, some err)
    | .ok balUser => (balUser, none)

/-- The `check` of the source (lines 30-33); `Ping` is a `time.Duration`. -/
structure check where
  Ping : Int
  Up : Bool
  deriving DecidableEq, Repr

/-- `Check` (lines 188-209). `elapsed` is the reading `time.Since(start)` of line 191 and
`sinceNow` the reading `time.Since(time.Now())` of the return that is taken. -/
def Check (u : UserData) (elapsed sinceNow : Int) : Result (check × Option GoError) :=
  match Request u "GET" "" "" with
  | .panic => .panic
  | .ret (data, err) =>
    if err ≠ none then
      if Contains data "\x7b\"message\":\"You are being rate limited.\",\"retry_after\"" then
        .ret (⟨sinceNow, true⟩, err)
      else if data = "\x7b\"error\":\"404: Not found\"\x7d" then
        .ret (⟨elapsed, true⟩, none)
      else if data = "\x7b\"error\":\"401: Unauthorized\"\x7d" then
        .ret (⟨elapsed, true⟩, some (GoError.new "401 Unauthorized (Check your token)"))
      else .ret (⟨sinceNow, false⟩, err)
    else .ret (⟨sinceNow, false⟩, some (GoError.new "Cannot connect to API url"))

/-! ## Notions of the specification -/

/-- The canonical decimal numeral of an integer: a minus sign for a negative number, then
the decimal digits without leading zeros. -/
def decimalNumeral (n : Int) : String :=
  if n < 0 then String.mk ('-' :: Nat.toDigits 10 n.natAbs)
  else String.mk (Nat.toDigits 10 n.toNat)

/-- The invariant of a balance record: for each of cash, bank and total at most one of the
two infinite flags is set, and the number is 0 when a flag is set. -/
def BalanceInvariant (r : UserObj) : Prop :=
  (¬(r.CashInfinite = true ∧ r.CashNinfinite = true) ∧
    ((r.CashInfinite = true ∨ r.CashNinfinite = true) → r.Cash = 0)) ∧
  (¬(r.BankInfinite = true ∧ r.BankNinfinite = true) ∧
    ((r.BankInfinite = true ∨ r.BankNinfinite = true) → r.Bank = 0)) ∧
  (¬(r.Infinite = true ∧ r.Ninfinite = true) ∧
    ((r.Infinite = true ∨ r.Ninfinite = true) → r.Total = 0))

/-- A balance object as the service sends it, with infinite cash and negative infinite
bank. -/
def sampleBody : String :=
  "\x7b\"rank\":\"3\",\"user_id\":\"77\",\"cash\":\"Infinity\"," ++
    "\"bank\":\"-Infinity\",\"total\":12\x7d"

/-- The map that `sampleBody` decodes to. -/
def sampleObjmap : ObjMap :=
  [("rank", JVal.str "3"), ("user_id", JVal.str "77"), ("cash", JVal.str "Infinity"),
   ("bank", JVal.str "-Infinity"), ("total", JVal.float64 ⟨false, 6755399441055744, -49⟩)]

/-- The record that `sampleBody` is normalised to. -/
def sampleRecord : UserObj :=
  { Rank := 3, UserID := "77", Cash := 0, CashInfinite := true,
    Bank := 0, BankNinfinite := true, Total := 12 }

/-- A session whose client answers every request with the same response. -/
def fixedResponse (status : Int) (body : String) : UserData :=
  ⟨"token", fun _ _ _ _ => .ok ⟨status, body⟩⟩

/-! ## strconv: formatting -/

/-- `strconv.FormatInt(i, 10)`: a minus sign for a negative number, then the decimal digits. -/
def FormatInt (i : Int) : String :=
  if i < 0 then String.mk ('-' :: Nat.toDigits 10 i.natAbs)
  else String.mk (Nat.toDigits 10 i.toNat)

/-- The `decimalSlice` of strconv: the digits `d` of a decimal and the position `dp` of its
decimal point, for the value `0.d * 10 ^ dp`. The field `nd` of the source is the length of
`d`. -/
structure decimalSlice where
  d : List Char
  dp : Int
  deriving DecidableEq, Repr

/-- Removes the zeros at the end of a string of digits. -/
def trimZeros (ds : List Char) : List Char :=
  (ds.reverse.dropWhile fun c => c == '0').reverse

/-- The digits of the shortest decimal that rounds to the float (precision -1 of
`FormatFloat`): among the decimals with the fewest digits inside the rounding interval of the
float, the one nearest to it. The value, its interval and the candidates are scaled by
`10 ^ n` with `n` the number of decimal places that write the float exactly, so that the
search of `shortestInt`, which starts above the first digit of the upper bound, ends at the
exact decimal at the latest. Zero has no digits. -/
def shortestDigits (f : F64) : decimalSlice :=
  if f.mant = 0 then ⟨[], 0⟩
  else
    let n := (-f.exp).toNat
    let p := 2 ^ f.exp.toNat
    let s := 4 * 2 ^ (-f.exp).toNat
    let v := 4 * f.mant * p * 10 ^ n
    let half := 2 * p * 10 ^ n
    let lowHalf := if f.mant = 2 ^ 52 ∧ f.exp > -1074 then p * 10 ^ n else half
    let top := (Nat.toDigits 10 ((v + half) / s)).length
    match shortestInt v (v - lowHalf) (v + half) s (f.mant % 2 == 0) top with
    | none => ⟨[], 0⟩
    | some c => ⟨trimZeros (Nat.toDigits 10 c), ((Nat.toDigits 10 c).length : Int) - (n : Int)⟩

/-- The exponent of `%e`: a sign and at least two digits. -/
def fmtExp (exp : Int) : List Char :=
  let sign := if exp < 0 then '-' else '+'
  let e := exp.natAbs
  if e < 10 then [sign, '0', Nat.digitChar e]
  else if e < 100 then [sign, Nat.digitChar (e / 10), Nat.digitChar (e % 10)]
  else [sign, Nat.digitChar (e / 100), Nat.digitChar (e / 10 % 10), Nat.digitChar (e % 10)]

/-- `fmtE` of strconv (`%e`): the first digit, a point and `prec` more digits when `prec` is
positive, and the exponent. -/
def fmtE (neg : Bool) (d : decimalSlice) (prec : Int) : List Char :=
  let more := (d.d.drop 1).take prec.toNat
  (if neg then ['-'] else []) ++ [d.d.headD '0'] ++
    (if prec > 0 then '.' :: (more ++ List.replicate (prec.toNat - more.length) '0') else []) ++
    'e' :: fmtExp (if d.d = [] then 0 else d.dp - 1)

/-- `fmtF` of strconv (`%f`): the integer part, padded with zeros up to the decimal point,
a point and `prec` digits of the fraction when `prec` is positive. -/
def fmtF (neg : Bool) (d : decimalSlice) (prec : Int) : List Char :=
  (if neg then ['-'] else []) ++
    (if d.dp > 0 then
      d.d.take d.dp.toNat ++ List.replicate (d.dp.toNat - d.d.length) '0'
    else ['0']) ++
    (if prec > 0 then
      '.' :: (List.range prec.toNat).map fun i =>
        if 0 ≤ d.dp + (i : Int) ∧ d.dp + (i : Int) < (d.d.length : Int)
        then d.d.getD (d.dp + (i : Int)).toNat '0' else '0'
    else [])

/-- `strconv.FormatFloat(f, fmt, -1, 64)` for `fmt` one of `'e'`, `'f'` and `'g'`: the
shortest digits, laid out by `fmtE` or `fmtF`. Format `'g'` is `%e` when the decimal exponent
is below -4 or at least 6 (the precision that stands for the shortest one in this test) and
`%f` otherwise. -/
def FormatFloat (f : F64) (fmt : Char) : List Char :=
  let digs := shortestDigits f
  let nd : Int := (digs.d.length : Int)
  if fmt = 'e' then fmtE f.neg digs (max (nd - 1) 0)
  else if fmt = 'f' then fmtF f.neg digs (max (nd - digs.dp) 0)
  else
    let exp := digs.dp - 1
    if exp < -4 ∨ exp ≥ 6 then fmtE f.neg digs (nd - 1)
    else fmtF f.neg digs (max (nd - digs.dp) 0)

/-! ## fmt -/

/-- The entries of a map sorted by key, for any kind of entry. -/
def insertKeyed {α : Type} (e : String × α) : List (String × α) → List (String × α)
  | [] => [e]
  | x :: xs => if keyLe e.1.data x.1.data then e :: x :: xs else x :: insertKeyed e xs

/-- Sorts entries by key. -/
def sortKeyed {α : Type} : List (String × α) → List (String × α)
  | [] => []
  | x :: xs => insertKeyed x (sortKeyed xs)

/-- Joins texts with a separator between them. -/
def joinWith (sep : List Char) : List (List Char) → List Char
  | [] => []
  | [x] => x
  | x :: y :: rest => x ++ sep ++ joinWith sep (y :: rest)

mutual
/-- The verb `%v` of `fmt` on the value an `interface{}` holds: `<nil>` for nil, a string
as it is, a `float64` as `%g` with the shortest digits, a slice as `[a b]` and a map as
`map[k:v k:v]` with the keys sorted. -/
def formatV : JVal → List Char
  | JVal.null => "<nil>".data
  | JVal.bool b => if b then "true".data else "false".data
  | JVal.float64 f => FormatFloat f 'g'
  | JVal.str s => s.data
  | JVal.int i => (FormatInt i).data
  | JVal.arr elems => '[' :: joinWith [' '] (formatVList elems) ++ [']']
  | JVal.obj entries =>
    "map[".data ++
      joinWith [' '] ((sortKeyed (formatVEntries entries)).map fun kv => kv.1.data ++ ':' :: kv.2)
      ++ [']']
/-- The elements of a slice under `%v`. -/
def formatVList : List JVal → List (List Char)
  | [] => []
  | x :: xs => formatV x :: formatVList xs
/-- The entries of a map under `%v`, each value formatted. -/
def formatVEntries : List (String × JVal) → List (String × List Char)
  | [] => []
  | (k, x) :: xs => (k, formatV x) :: formatVEntries xs
end

/-! ## encoding/json: Marshal -/

/-- The hexadecimal digit of a number below 16, in lower case. -/
def hexDigit (n : Nat) : Char :=
  if n < 10 then Char.ofNat (48 + n) else Char.ofNat (87 + n)

/-- One character of a string as `json.Marshal` writes it (with `escapeHTML`): a backslash
before `"` and `\`, the short escapes of line feed, carriage return and tab, `\u00XX` for
the other control characters and for `<`, `>` and `&`, `\u2028` and `\u2029` for these two,
and every other character as it is. (Go 1.22 and later write U+0008 and U+000C as `\b` and
`\f`, which the decoder reads as the same characters.) -/
def encodeChar (c : Char) : List Char :=
  if c = '\\' ∨ c = '"' then ['\\', c]
  else if c = '\n' then ['\\', 'n']
  else if c = '\r' then ['\\', 'r']
  else if c = '\t' then ['\\', 't']
  else if c.toNat < 0x20 ∨ c = '<' ∨ c = '>' ∨ c = '&' then
    ['\\', 'u', '0', '0', hexDigit (c.toNat / 16), hexDigit (c.toNat % 16)]
  else if c.toNat = 0x2028 ∨ c.toNat = 0x2029 then
    ['\\', 'u', '2', '0', '2', hexDigit (c.toNat % 16)]
  else [c]

/-- The characters of a string, each as `json.Marshal` writes it. -/
def encodeChars : List Char → List Char
  | [] => []
  | c :: t => encodeChar c ++ encodeChars t

/-- A string as `json.Marshal` writes it: quoted and escaped. -/
def encodeString (s : String) : List Char :=
  '"' :: (encodeChars s.data ++ ['"'])

/-- The comparison `|a| < |b|` of two floats. -/
def absLt (a b : F64) : Bool :=
  decide (a.mant * 2 ^ (a.exp - min a.exp b.exp).toNat
    < b.mant * 2 ^ (b.exp - min a.exp b.exp).toNat)

/-- The end of a `%e` text with `e-09` cleaned up to `e-9`, as `json.Marshal` does. -/
def cleanExp (b : List Char) : List Char :=
  match b.reverse with
  | d :: '0' :: '-' :: 'e' :: rest => (d :: '-' :: 'e' :: rest).reverse
  | _ => b

/-- A `float64` as `json.Marshal` writes it: the shortest digits, in format `f` unless the
magnitude is below `1e-6` or at least `1e21`, where it is format `e`. The two bounds are the
`float64` constants `1e-6`, which is `4722366482869645 * 2 ^ -72`, and `1e21`. -/
def marshalFloat (f : F64) : List Char :=
  if f.mant ≠ 0 ∧ (absLt f ⟨false, 4722366482869645, -72⟩ = true ∨
      absLt f ⟨false, 7629394531250000, 17⟩ = false) then
    cleanExp (FormatFloat f 'e')
  else FormatFloat f 'f'

mutual
/-- What `json.Marshal` writes for the value an `interface{}` holds; the entries of a map
are written sorted by key. -/
def marshalValue : JVal → List Char
  | JVal.null => "null".data
  | JVal.bool b => if b then "true".data else "false".data
  | JVal.float64 f => marshalFloat f
  | JVal.str s => encodeString s
  | JVal.int i => (FormatInt i).data
  | JVal.arr elems => '[' :: joinWith [','] (marshalList elems) ++ [']']
  | JVal.obj entries =>
    '{' :: joinWith [','] ((sortKeyed (marshalEntries entries)).map fun kv =>
      encodeString kv.1 ++ ':' :: kv.2) ++ ['}']
/-- The elements of a slice, each marshalled. -/
def marshalList : List JVal → List (List Char)
  | [] => []
  | x :: xs => marshalValue x :: marshalList xs
/-- The entries of a map, each value marshalled. -/
def marshalEntries : List (String × JVal) → List (String × List Char)
  | [] => []
  | (k, x) :: xs => (k, marshalValue x) :: marshalEntries xs
end

/-- `json.Marshal(m)` for a `map[string]interface{}` that is not nil. It does not fail on
the values of this program (strings, integers, and what `Unmarshal` stores). -/
def Marshal (m : ObjMap) : String :=
  String.mk (marshalValue (JVal.obj m))

/-! ## encoding/json: decoding into `[]userObjRaw` -/

/-- The `userObjRaw` of the source (lines 60-66): every field is an `interface{}`. -/
structure userObjRaw where
  Rank : JVal := JVal.null
  UserID : JVal := JVal.null
  Cash : JVal := JVal.null
  Bank : JVal := JVal.null
  Total : JVal := JVal.null
  deriving Repr

/-- Decodes the members of an object into a `userObjRaw`, in the order of the document: a
key selects a field by its JSON name, exactly or else without case, and the value is stored
as `Unmarshal` stores it in an `interface{}`. -/
def decodeUserObjRaw : List (String × JSON) → userObjRaw → Except JsonError userObjRaw
  | [], r => .ok r
  | (k, v) :: rest, r =>
    match findField id ["rank", "user_id", "cash", "bank", "total"] k with
    | none => decodeUserObjRaw rest r
    | some f =>
      match toInterface v with
      | none => .error JsonError.UnmarshalTypeError
      | some w =>
        if f = "rank" then decodeUserObjRaw rest { r with Rank := w }
        else if f = "user_id" then decodeUserObjRaw rest { r with UserID := w }
        else if f = "cash" then decodeUserObjRaw rest { r with Cash := w }
        else if f = "bank" then decodeUserObjRaw rest { r with Bank := w }
        else decodeUserObjRaw rest { r with Total := w }

/-- One element of the array decoded into a `userObjRaw`: `null` leaves the zero value, an
object is decoded member by member, anything else is an `UnmarshalTypeError`. -/
def rawOfJSON : JSON → Except JsonError userObjRaw
  | JSON.null => .ok {}
  | JSON.obj members => decodeUserObjRaw members {}
  | _ => .error JsonError.UnmarshalTypeError

/-- The elements of an array decoded one after the other; the first error is the error of
`Unmarshal`. -/
def rawsOfJSON : List JSON → Except JsonError (List userObjRaw)
  | [] => .ok []
  | x :: xs =>
    match rawOfJSON x with
    | .error e => .error e
    | .ok r =>
      match rawsOfJSON xs with
      | .error e => .error e
      | .ok rs => .ok (r :: rs)

/-- `json.Unmarshal(data, &leaderboardRaw)` for `leaderboardRaw` a nil `[]userObjRaw`
(line 304). The document `null` leaves the slice nil. -/
def unmarshalLeaderboardRaw (data : String) : Except JsonError (List userObjRaw) :=
  match parseJSON data with
  | none => .error JsonError.SyntaxError
  | some JSON.null => .ok []
  | some (JSON.arr elems) => rawsOfJSON elems
  | some _ => .error JsonError.UnmarshalTypeError

/-! ## The program: the balance operations -/

/-- The value passed for an `interface{}` parameter of `SetBalance` and `UpdateBalance`, by
its dynamic type: nil, a `string`, an `int`, or a value of another type (such as `int64`,
`float64` or `bool`), of which the program reads nothing but that its type is another one. -/
inductive Arg where
  | nil
  | string (s : String)
  | int (i : Int)
  | other (goType : String)
  deriving DecidableEq, Repr

/-- The path `fmt.Sprintf("/guilds/%v/users/%v", guild, user)`. -/
def userPath (guild user : String) : String :=
  "/guilds/" ++ guild ++ "/users/" ++ user

/-- Lines 216-220 of `GetBalance`, which `SetBalance` and `UpdateBalance` repeat: what is
returned after `Request`. -/
def balanceOf (res : Result (String × Option GoError)) : Result (UserObj × Option GoError) :=
  match res with
  | .panic => .panic
  | .ret (_, some err) => .ret ({}, some err)
  | .ret (data, none) =>
    match fixTypesToStruct data with
    | (_, some err) => .ret ({}, some (GoError.json err))
    | (userBal, none) => .ret (userBal, none)

/-- `GetBalance` (lines 211-221). -/
def GetBalance (u : UserData) (guild user : String) : Result (UserObj × Option GoError) :=
  balanceOf (Request u "GET" (userPath guild user) "")

/-- One of the blocks of lines 225-248 of `SetBalance`, which differ in the key only: the
argument is stored when it is an `int` or one of the two infinity strings. -/
def setAmount (payloadTypes : ObjMap) (key : String) (amount : Arg) : ObjMap :=
  match amount with
  | Arg.string x =>
    if x = "Infinity" then mapSet payloadTypes key (JVal.str "Infinity")
    else if x = "-Infinity" then mapSet payloadTypes key (JVal.str "-Infinity")
    else payloadTypes
  | Arg.int i => mapSet payloadTypes key (JVal.int i)
  | _ => payloadTypes

/-- The switch of lines 249-254 and 274-279: a reason that is a string is stored, nil
stores the default text, a value of another type stores nothing. -/
def setReason (payloadTypes : ObjMap) (reason : Arg) : ObjMap :=
  match reason with
  | Arg.string s => mapSet payloadTypes "reason" (JVal.str s)
  | Arg.nil => mapSet payloadTypes "reason" (JVal.str "No reason provided.")
  | _ => payloadTypes

/-- The map `payloadTypes` of `SetBalance` at line 255. -/
def setPayloadTypes (cash bank reason : Arg) : ObjMap :=
  setReason (setAmount (setAmount [] "cash" cash) "bank" bank) reason

/-- `SetBalance` (lines 223-268). `json.Marshal` does not fail on the map, so the return of
line 257 is not taken. -/
def SetBalance (u : UserData) (guild user : String) (cash bank reason : Arg) :
    Result (UserObj × Option GoError) :=
  balanceOf (Request u "PUT" (userPath guild user) (Marshal (setPayloadTypes cash bank reason)))

/-- The map `payloadTypes` of `UpdateBalance` at line 280. -/
def updatePayloadTypes (cash bank : Int) (reason : Arg) : ObjMap :=
  setReason (mapSet (mapSet [] "cash" (JVal.int cash)) "bank" (JVal.int bank)) reason

/-- `UpdateBalance` (lines 270-293). -/
def UpdateBalance (u : UserData) (guild user : String) (cash bank : Int) (reason : Arg) :
    Result (UserObj × Option GoError) :=
  balanceOf
    (Request u "PATCH" (userPath guild user) (Marshal (updatePayloadTypes cash bank reason)))

/-- The text `value` of line 308: the five fields of a raw record, each under `%v` between
quotes. -/
def rawValue (v : userObjRaw) : String :=
  String.mk ("\x7b\"rank\":\"".data ++ formatV v.Rank ++ "\",\"user_id\":\"".data ++
    formatV v.UserID ++ "\",\"cash\":\"".data ++ formatV v.Cash ++ "\",\"bank\":\"".data ++
    formatV v.Bank ++ "\",\"total\":\"".data ++ formatV v.Total ++ "\"\x7d".data)

/-- The loop of lines 307-314 of `Leaderboard` on the raw records that are left, with the
records appended so far: a record that `fixTypesToStruct` rejects ends the loop with the
empty list and the error. -/
def leaderboardLoop : List userObjRaw → List UserObj → List UserObj × Option GoError
  | [], leaderboard => (leaderboard, none)
  | v :: rest, leaderboard =>
    match fixTypesToStruct (rawValue v) with
    | (_, some err) => ([], some (GoError.json err))
    | (user, none) => leaderboardLoop rest (leaderboard ++ [user])

/-- `Leaderboard` (lines 295-320). -/
def Leaderboard (u : UserData) (guild : String) : Result (List UserObj × Option GoError) :=
  match Request u "GET" ("/guilds/" ++ guild ++ "/users") "" with
  | .panic => .panic
  | .ret (_, some err) => .ret ([], some err)
  | .ret (data, none) =>
    match unmarshalLeaderboardRaw data with
    | .error err => .ret ([], some (GoError.json err))
    | .ok leaderboardRaw => .ret (leaderboardLoop leaderboardRaw [])

/-! ## Notions of the specification: numerals -/

/-- The sign of a numeral and the text after it: the sign is an optional `+` or `-`. -/
def splitSign (s : List Char) : Bool × List Char :=
  match s with
  | [] => (false, [])
  | c :: t => if c = '-' then (true, t) else if c = '+' then (false, t) else (false, c :: t)

/-- Whether a character is a decimal digit. -/
def isDecimalDigit (c : Char) : Bool :=
  decide (48 ≤ c.toNat ∧ c.toNat ≤ 57)

/-- The value of a base-10 integer numeral, an optional sign followed by decimal digits (leading
zeros allowed); `none` when the string is not such a numeral. -/
def base10Value (s : String) : Option Int :=
  if (splitSign s.data).2 ≠ [] ∧ (splitSign s.data).2.all isDecimalDigit = true then
    some (if (splitSign s.data).1 then -(digitsVal (splitSign s.data).2 : Int)
      else (digitsVal (splitSign s.data).2 : Int))
  else none

/-- Whether the digits of a numeral start with a zero that is not the only digit. -/
def hasLeadingZero (s : String) : Bool :=
  match (splitSign s.data).2 with
  | c :: _ :: _ => c == '0'
  | _ => false

/-- The number a string of hexadecimal digits denotes. -/
def hexDigitsVal (ds : List Char) : Nat :=
  ds.foldl (fun a c => 16 * a + (hexVal c).getD 0) 0

/-- The value of a hexadecimal numeral with the prefix `0x` (or `0X`): an optional sign, the
prefix and at least one hexadecimal digit; `none` when the string is not such a numeral. -/
def base16Value (s : String) : Option Int :=
  match (splitSign s.data).2 with
  | z :: x :: ds =>
    if z = '0' ∧ (x = 'x' ∨ x = 'X') ∧ ds ≠ [] ∧ ds.all (fun c => (hexVal c).isSome) = true then
      some (if (splitSign s.data).1 then -(hexDigitsVal ds : Int) else (hexDigitsVal ds : Int))
    else none
  | _ => none

/-- Whether a character is an octal digit. -/
def isOctalDigit (c : Char) : Bool :=
  decide (48 ≤ c.toNat ∧ c.toNat ≤ 55)

/-- The number a string of octal digits denotes. -/
def octDigitsVal (ds : List Char) : Nat :=
  ds.foldl (fun a c => 8 * a + (c.toNat - 48)) 0

/-- The value in base 8 of a numeral with a leading zero: an optional sign, a zero and at least
one more digit, all of them below 8; `none` when the string is not such a numeral. -/
def base8Value (s : String) : Option Int :=
  match (splitSign s.data).2 with
  | z :: ds =>
    if z = '0' ∧ ds ≠ [] ∧ ds.all isOctalDigit = true then
      some (if (splitSign s.data).1 then -(octDigitsVal ds : Int) else (octDigitsVal ds : Int))
    else none
  | [] => none

/-! ## Notions of the specification: the payload of SetBalance -/

/-- What the payload holds for an amount argument according to the specification: an integer
or one of the two infinity strings is included with its value, anything else is omitted. -/
def amountOf : Arg → Option (String ⊕ Int)
  | Arg.int i => some (.inr i)
  | Arg.string s => if s = "Infinity" ∨ s = "-Infinity" then some (.inl s) else none
  | _ => none

/-- What the payload holds for the reason according to the specification: the given string,
or the default text for nil. The specification says nothing of a reason of another type,
which is omitted here as in the source. -/
def reasonOf : Arg → Option (String ⊕ Int)
  | Arg.string s => some (.inl s)
  | Arg.nil => some (.inl "No reason provided.")
  | _ => none

/-- A string or an integer as a JSON value. -/
def simpleJSON : String ⊕ Int → JSON
  | .inl s => JSON.str s
  | .inr i => JSON.num (decimalNumeral i)

/-- The member of an object for a key that is present with a value or absent. -/
def optEntry {α : Type} (k : String) : Option α → List (String × α)
  | some v => [(k, v)]
  | none => []

/-- The members of the payload of `SetBalance` according to the specification, in the order of
their keys. -/
def expectedPayload (cash bank reason : Arg) : List (String × JSON) :=
  (optEntry "bank" (amountOf bank) ++ optEntry "cash" (amountOf cash) ++
    optEntry "reason" (reasonOf reason)).map fun kv => (kv.1, simpleJSON kv.2)

/-! ## Sample documents -/

/-- A leaderboard of two records as the service sends it: numbers, decimal strings, a
hexadecimal string and infinity strings. -/
def leaderboardBody : String :=
  "[\x7b\"rank\":1,\"user_id\":\"77\",\"cash\":\"Infinity\",\"bank\":5," ++
    "\"total\":\"Infinity\"\x7d," ++
    "\x7b\"rank\":\"2\",\"user_id\":\"78\",\"cash\":\"0x10\",\"bank\":-3," ++
    "\"total\":13\x7d]"

/-- The document `leaderboardBody` holds. -/
def leaderboardElems : List JSON :=
  [JSON.obj [("rank", JSON.num "1"), ("user_id", JSON.str "77"), ("cash", JSON.str "Infinity"),
     ("bank", JSON.num "5"), ("total", JSON.str "Infinity")],
   JSON.obj [("rank", JSON.str "2"), ("user_id", JSON.str "78"), ("cash", JSON.str "0x10"),
     ("bank", JSON.num "-3"), ("total", JSON.num "13")]]

/-- The raw records that `leaderboardBody` decodes to. -/
def leaderboardRaws : List userObjRaw :=
  [{ Rank := JVal.float64 ⟨false, 4503599627370496, -52⟩, UserID := JVal.str "77",
     Cash := JVal.str "Infinity", Bank := JVal.float64 ⟨false, 5629499534213120, -50⟩,
     Total := JVal.str "Infinity" },
   { Rank := JVal.str "2", UserID := JVal.str "78", Cash := JVal.str "0x10",
     Bank := JVal.float64 ⟨true, 6755399441055744, -51⟩,
     Total := JVal.float64 ⟨false, 7318349394477056, -49⟩ }]

/-- A balance record whose cash and total are the JSON number 1000000. -/
def millionRecord : String :=
  "\x7b\"rank\":1,\"user_id\":\"77\",\"cash\":1000000,\"bank\":0,\"total\":1000000\x7d"

/-- The raw record that `millionRecord` decodes to: 1000000 is `7812500 * 2 ^ 33 * 2 ^ -33`. -/
def millionRaw : userObjRaw :=
  { Rank := JVal.float64 ⟨false, 4503599627370496, -52⟩, UserID := JVal.str "77",
    Cash := JVal.float64 ⟨false, 8589934592000000, -33⟩, Bank := JVal.float64 ⟨false, 0, 0⟩,
    Total := JVal.float64 ⟨false, 8589934592000000, -33⟩ }

/-- A balance record whose numbers are below a million, with an infinite total. -/
def smallRecord : String :=
  "\x7b\"rank\":3,\"user_id\":\"77\",\"cash\":999999,\"bank\":-250," ++
    "\"total\":\"Infinity\"\x7d"

/-- The map that `smallRecord` decodes to. -/
def smallObjmap : ObjMap :=
  [("rank", JVal.float64 ⟨false, 6755399441055744, -51⟩), ("user_id", JVal.str "77"),
   ("cash", JVal.float64 ⟨false, 8589926002065408, -33⟩),
   ("bank", JVal.float64 ⟨true, 8796093022208000, -45⟩), ("total", JVal.str "Infinity")]

/-- The raw record that `smallRecord` decodes to. -/
def smallRaw : userObjRaw :=
  { Rank := JVal.float64 ⟨false, 6755399441055744, -51⟩, UserID := JVal.str "77",
    Cash := JVal.float64 ⟨false, 8589926002065408, -33⟩,
    Bank := JVal.float64 ⟨true, 8796093022208000, -45⟩, Total := JVal.str "Infinity" }

/-- A balance object whose numbers are numerals in strings: a signed decimal, a hexadecimal
and a negative decimal one, with an infinite rank and an infinite total. -/
def numeralBody : String :=
  "\x7b\"rank\":\"Infinity\",\"user_id\":\"77\",\"cash\":\"0x1F\",\"bank\":\"-12\"," ++
    "\"total\":\"+7\"\x7d"

/-- The map that `numeralBody` decodes to. -/
def numeralObjmap : ObjMap :=
  [("rank", JVal.str "Infinity"), ("user_id", JVal.str "77"), ("cash", JVal.str "0x1F"),
   ("bank", JVal.str "-12"), ("total", JVal.str "+7")]

/-- A balance object whose numbers are numerals in strings that `ParseInt` does not read in
base 10 or does not hold: a leading zero with a digit 9, a leading zero with octal digits, a
decimal numeral above the range of `int64` and a hexadecimal numeral below it. -/
def octalBody : String :=
  "\x7b\"rank\":\"09\",\"user_id\":\"77\",\"cash\":\"010\"," ++
    "\"bank\":\"9223372036854775808\",\"total\":\"-0x8000000000000001\"\x7d"

/-- The map that `octalBody` decodes to. -/
def octalObjmap : ObjMap :=
  [("rank", JVal.str "09"), ("user_id", JVal.str "77"), ("cash", JVal.str "010"),
   ("bank", JVal.str "9223372036854775808"), ("total", JVal.str "-0x8000000000000001")]

/-- A session whose client fails every request and reports what it was asked to send: the
method, the URL and the payload. -/
def failingClient : UserData :=
  ⟨"token", fun method url _ payload =>
    .error (GoError.transport (method ++ " " ++ url ++ " " ++ payload))⟩

/-! ## Notions used in the proofs -/

/-- A list of decimal digit characters. -/
def AllDigits (ds : List Char) : Prop := ∀ c ∈ ds, 48 ≤ c.toNat ∧ c.toNat ≤ 57

/-- The flags of one balance are consistent in a map: a flag is present only with the value
true, with the number 0 and without the other flag. -/
def Flagged (m : ObjMap) (key pos neg : String) : Prop :=
  (∀ w, (pos, w) ∈ m → w = JVal.bool true ∧ (∀ x, (key, x) ∈ m → x = JVal.int 0) ∧
    ∀ x, (neg, x) ∉ m) ∧
  (∀ w, (neg, w) ∈ m → w = JVal.bool true ∧ (∀ x, (key, x) ∈ m → x = JVal.int 0) ∧
    ∀ x, (pos, x) ∉ m)

/-- The keys of a balance object on the wire. -/
def fiveKeys : List String := ["rank", "user_id", "cash", "bank", "total"]

/-- The JSON names of the fields of `UserObj`. -/
def allNames : List String := userObjFields.map UserObjField.jsonName

/-- The value of a boolean field of a record (false for the other fields). -/
def UserObj.boolAt (r : UserObj) : UserObjField → Bool
  | .CashInfinite => r.CashInfinite
  | .CashNinfinite => r.CashNinfinite
  | .BankInfinite => r.BankInfinite
  | .BankNinfinite => r.BankNinfinite
  | .Infinite => r.Infinite
  | .Ninfinite => r.Ninfinite
  | _ => false

/-- The value of an integer field of a record (0 for the other fields). -/
def UserObj.intAt (r : UserObj) : UserObjField → Int
  | .Rank => r.Rank
  | .Cash => r.Cash
  | .Bank => r.Bank
  | .Total => r.Total
  | _ => 0

/-- The map `fixTypesToStruct` marshals: the decoded map after lines 119-162. -/
def fixedMap (objmap : ObjMap) : ObjMap :=
  fixRank
    (fixInfinity
      (fixInfinity (fixInfinity objmap "total" "infinite_total" "n-infinite_total")
        "cash" "infinite_cash" "n-infinite_cash")
      "bank" "infinite_bank" "n-infinite_bank")

/-- The value of a character as a digit in the loop of `ParseUint`: a decimal digit, or a
letter counted from ten without case. -/
def loopDigit (c : Char) : Option Nat :=
  if 48 ≤ c.toNat ∧ c.toNat ≤ 57 then some (c.toNat - 48)
  else if 97 ≤ lower c.toNat ∧ lower c.toNat ≤ 122 then some (lower c.toNat - 97 + 10)
  else none

/-- The number that digits denote in a base, continued from the number read so far, without
the wrap at `2^64`. -/
def loopVal (b : Nat) (ds : List Char) (acc : Nat) : Nat :=
  ds.foldl (fun a c => b * a + (loopDigit c).getD 0) acc

/-- A string or an integer as the value an `interface{}` holds. -/
def simpleVal : String ⊕ Int → JVal
  | .inl s => JVal.str s
  | .inr i => JVal.int i

/-- The text of one member of a marshalled object. -/
def entryText (kv : String × (String ⊕ Int)) : List Char :=
  encodeString kv.1 ++ ':' :: marshalValue (simpleVal kv.2)

/-- The keys of a map are distinct: an entry is what the lookup of its key gives. -/
def Functional (m : ObjMap) : Prop := ∀ k v, (k, v) ∈ m → mapGet m k = some v

/-- A number that fits an `int` field: a `float64` that `json.Marshal` writes as an integer
numeral in the range of `int64`. -/
def GoodNumber (v : JVal) : Prop :=
  ∃ f n, v = JVal.float64 f ∧ float64AsInt f = some n ∧ inInt64 n = true

/-- A balance object with values of the kinds the service sends: the user id is a string and
rank, cash, bank and total are strings or numbers that fit an `int`. -/
def Typed (m : ObjMap) : Prop :=
  ∀ k v, (k, v) ∈ m →
    (k = "user_id" → ∃ s, v = JVal.str s) ∧
    (k = "rank" ∨ k = "cash" ∨ k = "bank" ∨ k = "total" → (∃ s, v = JVal.str s) ∨ GoodNumber v)

/-- A value fits a field when decoding it into the field succeeds on every record. -/
def Fits (g : UserObjField) (v : JVal) : Prop :=
  ∀ r : UserObj, ∃ r1, setUserObjField r g v = .ok r1

/-- The number and the two flags that `fixTypesToStruct` gives cash, bank or total for the
value of the key in the decoded object: the string Infinity or -Infinity is 0 with its flag,
any other string is the value `ParseInt` returns for it, a number is the integer its
marshalled literal denotes, and an absent key leaves zero. -/
def fieldsOfAmount : Option JVal → Int × Bool × Bool
  | some (JVal.str s) =>
    if s = "Infinity" then (0, true, false)
    else if s = "-Infinity" then (0, false, true)
    else ((ParseInt s 0 64).1, false, false)
  | some (JVal.float64 f) => ((float64AsInt f).getD 0, false, false)
  | _ => (0, false, false)

/-- The rank that `fixTypesToStruct` gives for the value of `rank` in the decoded object: a
string is the value `ParseInt` returns for it, a number is the integer its marshalled literal
denotes. -/
def fieldOfRank : Option JVal → Int
  | some (JVal.str s) => (ParseInt s 0 64).1
  | some (JVal.float64 f) => (float64AsInt f).getD 0
  | _ => 0

/-- The user id that `fixTypesToStruct` gives for the value of `user_id`. -/
def fieldOfUserID : Option JVal → String
  | some (JVal.str s) => s
  | _ => ""

/-- The record that `fixTypesToStruct` returns for a decoded balance object, field by field. -/
def recordOfObject (m : ObjMap) : UserObj :=
  { Rank := fieldOfRank (mapGet m "rank"),
    UserID := fieldOfUserID (mapGet m "user_id"),
    Cash := (fieldsOfAmount (mapGet m "cash")).1,
    CashInfinite := (fieldsOfAmount (mapGet m "cash")).2.1,
    CashNinfinite := (fieldsOfAmount (mapGet m "cash")).2.2,
    Bank := (fieldsOfAmount (mapGet m "bank")).1,
    BankInfinite := (fieldsOfAmount (mapGet m "bank")).2.1,
    BankNinfinite := (fieldsOfAmount (mapGet m "bank")).2.2,
    Total := (fieldsOfAmount (mapGet m "total")).1,
    Infinite := (fieldsOfAmount (mapGet m "total")).2.1,
    Ninfinite := (fieldsOfAmount (mapGet m "total")).2.2 }

/-- A field of a raw record that the leaderboard reads like `GetBalance`: a whole number below
a million in magnitude, written as its decimal numeral, or a string that `json.Marshal` would
write without an escape. -/
def Faithful (x : JVal) : Prop :=
  (∃ n f, (-(10 : Int) ^ 6 < n ∧ n < (10 : Int) ^ 6) ∧ ParseFloat (decimalNumeral n) = some f ∧
    x = JVal.float64 f) ∨
  (∃ s, x = JVal.str s ∧ encodeChars s.data = s.data)

/-! ## Lemmas: the fuel of the parser -/

/-- Skipping white space does not lengthen the input. -/
theorem skipSpace_length (s : List Char) : (skipSpace s).length ≤ s.length := by
  induction s with
  | nil => simp [skipSpace]
  | cons c t ih =>
    unfold skipSpace
    split
    · simp; omega
    · simp

/-- What is left after the leading digits is not longer than the input. -/
theorem spanDigits_length (s : List Char) : (spanDigits s).2.length ≤ s.length := by
  induction s with
  | nil => simp [spanDigits]
  | cons c t ih =>
    unfold spanDigits
    split
    · simp; omega
    · simp

/-- A string literal that was read took at least its closing quote from the input. -/
theorem scanStringAux_length (fuel : Nat) : ∀ (s v r : List Char),
    scanStringAux fuel s = some (v, r) → r.length < s.length := by
  induction fuel with
  | zero => intro s v r h; simp [scanStringAux] at h
  | succ fuel ih =>
    intro s v r h
    cases s with
    | nil => simp [scanStringAux, stringItem] at h
    | cons c t =>
      unfold scanStringAux at h
      split at h
      · simp at h
        rw [← h.2]
        simp
      · simp at h
      · rename_i x extra hi
        cases hrec : scanStringAux fuel ((c :: t).drop (extra + 1)) with
        | none => rw [hrec] at h; simp at h
        | some p =>
          obtain ⟨v1, r2⟩ := p
          rw [hrec] at h
          simp at h
          have h1 := ih _ v1 r2 hrec
          rw [← h.2]
          simp at h1 ⊢
          omega

/-- Above the length of the input plus one, more fuel does not change what the string scanner
returns. -/
theorem scanStringAux_fuel (fuel : Nat) : ∀ s : List Char, s.length + 1 ≤ fuel →
    scanStringAux (fuel + 1) s = scanStringAux fuel s := by
  induction fuel with
  | zero => intro s h; omega
  | succ fuel ih =>
    intro s h
    cases s with
    | nil => simp [scanStringAux, stringItem]
    | cons c t =>
      rw [scanStringAux, scanStringAux]
      split
      · rfl
      · rfl
      · rename_i x extra hi
        rw [ih _ (by simp at h ⊢; omega)]

/-- A string literal that was read leaves a shorter input. -/
theorem scanString_length (s v r : List Char) (h : scanString s = some (v, r)) :
    r.length < s.length :=
  scanStringAux_length _ s v r h

/-- Splitting off a leading character does not lengthen the input. -/
theorem scanOneOf_length (c1 c2 : Char) (s : List Char) :
    (scanOneOf c1 c2 s).2.length ≤ s.length := by
  unfold scanOneOf
  split
  · split <;> simp
  · simp

/-- The integer part of a number literal takes at least one character. -/
theorem scanIntPart_length (s ip r : List Char) (h : scanIntPart s = some (ip, r)) :
    r.length < s.length := by
  unfold scanIntPart at h
  split at h
  · simp at h; rw [← h.2]; simp
  · rename_i c t _
    split at h
    · simp at h
      rw [← h.2]
      have := spanDigits_length t
      simp; omega
    · simp at h
  · simp at h

/-- The fraction part of a number literal does not lengthen the input. -/
theorem scanFrac_length (s fp r : List Char) (h : scanFrac s = some (fp, r)) :
    r.length ≤ s.length := by
  unfold scanFrac at h
  split at h
  · rename_i t
    have := spanDigits_length t
    split at h
    · simp at h
    · rename_i ds rest _ hsp
      simp at h
      rw [hsp] at this
      rw [← h.2]
      simp at this ⊢
      omega
  · simp at h; rw [← h.2]

/-- The exponent part of a number literal does not lengthen the input. -/
theorem scanExp_length (s ep r : List Char) (h : scanExp s = some (ep, r)) :
    r.length ≤ s.length := by
  unfold scanExp at h
  split at h
  · rename_i e t
    split at h
    · have h1 := spanDigits_length (scanOneOf '+' '-' t).2
      have h2 := scanOneOf_length '+' '-' t
      split at h
      · simp at h
      · rename_i ds rest _ hsp
        simp at h
        rw [hsp] at h1
        rw [← h.2]
        simp at h1 ⊢
        omega
    · simp at h; rw [← h.2]
  · simp at h; rw [← h.2]

/-- A number literal that was read leaves a shorter input. -/
theorem scanNumber_length (s lit r : List Char) (h : scanNumber s = some (lit, r)) :
    r.length < s.length := by
  unfold scanNumber at h
  have h0 := scanOneOf_length '-' '-' s
  split at h
  · simp at h
  · rename_i ip s2 hip
    have h1 := scanIntPart_length _ ip s2 hip
    split at h
    · simp at h
    · rename_i fp s3 hfp
      have h2 := scanFrac_length _ fp s3 hfp
      split at h
      · simp at h
      · rename_i ep s4 hep
        have h3 := scanExp_length _ ep s4 hep
        simp at h
        rw [← h.2]
        omega

/-- A value, the members of an object and the elements of an array that were read leave a
shorter input. -/
theorem parse_length (fuel : Nat) :
    (∀ d s v r, parseValue fuel d s = some (v, r) → r.length < s.length) ∧
    (∀ d s ms r, parseMembers fuel d s = some (ms, r) → r.length < s.length) ∧
    (∀ d s xs r, parseElems fuel d s = some (xs, r) → r.length < s.length) := by
  induction fuel with
  | zero =>
    refine ⟨?_, ?_, ?_⟩ <;> intro d s v r h
    · simp [parseValue] at h
    · simp [parseMembers] at h
    · simp [parseElems] at h
  | succ fuel ih =>
    obtain ⟨ihv, ihm, ihe⟩ := ih
    refine ⟨?_, ?_, ?_⟩
    · intro d s v r h
      cases s with
      | nil => simp [parseValue] at h
      | cons c r0 =>
        rw [parseValue] at h
        have hsp := skipSpace_length r0
        split_ifs at h
        · split at h
          · rename_i r1 heq
            simp at h
            rw [← h.2]
            rw [heq] at hsp
            simp at hsp ⊢
            omega
          · cases hm : parseMembers fuel (d + 1) (skipSpace r0) with
            | none => rw [hm] at h; simp at h
            | some p =>
              rw [hm] at h
              simp at h
              have := ihm _ _ _ _ hm
              rw [← h.2]
              simp
              omega
        · split at h
          · rename_i r1 heq
            simp at h
            rw [← h.2]
            rw [heq] at hsp
            simp at hsp ⊢
            omega
          · cases hm : parseElems fuel (d + 1) (skipSpace r0) with
            | none => rw [hm] at h; simp at h
            | some p =>
              rw [hm] at h
              simp at h
              have := ihe _ _ _ _ hm
              rw [← h.2]
              simp
              omega
        · cases hs : scanString r0 with
          | none => rw [hs] at h; simp at h
          | some p =>
            rw [hs] at h
            simp at h
            have := scanString_length r0 p.1 p.2 hs
            rw [← h.2]
            simp
            omega
        · simp at h; rw [← h.2]; simp; omega
        · simp at h; rw [← h.2]; simp; omega
        · simp at h; rw [← h.2]; simp; omega
        · cases hs : scanNumber (c :: r0) with
          | none => rw [hs] at h; simp at h
          | some p =>
            rw [hs] at h
            simp at h
            have := scanNumber_length (c :: r0) p.1 p.2 hs
            rw [← h.2]
            exact this
    · intro d s ms r h
      unfold parseMembers at h
      split at h
      · rename_i r0
        split at h
        · simp at h
        · rename_i k r1 hk
          have h1 := scanString_length r0 k r1 hk
          have h2 := skipSpace_length r1
          split at h
          · rename_i r2 heq
            have h3 := skipSpace_length r2
            split at h
            · simp at h
            · rename_i v r3 hv
              have h4 := ihv _ _ _ _ hv
              have h5 := skipSpace_length r3
              rw [heq] at h2
              simp at h2
              split at h
              · rename_i r4 heq4
                have h6 := skipSpace_length r4
                rw [heq4] at h5
                simp at h5
                cases hm : parseMembers fuel d (skipSpace r4) with
                | none => rw [hm] at h; simp at h
                | some p =>
                  rw [hm] at h
                  simp at h
                  have := ihm _ _ _ _ hm
                  rw [← h.2]
                  simp
                  omega
              · rename_i r4 heq4
                rw [heq4] at h5
                simp at h5 h
                rw [← h.2]
                simp
                omega
              · simp at h
          · simp at h
      · simp at h
    · intro d s xs r h
      unfold parseElems at h
      split at h
      · simp at h
      · rename_i v r1 hv
        have h1 := ihv _ _ _ _ hv
        have h2 := skipSpace_length r1
        split at h
        · rename_i r2 heq
          have h3 := skipSpace_length r2
          rw [heq] at h2
          simp at h2
          cases hm : parseElems fuel d (skipSpace r2) with
          | none => rw [hm] at h; simp at h
          | some p =>
            rw [hm] at h
            simp at h
            have := ihe _ _ _ _ hm
            rw [← h.2]
            omega
        · rename_i r2 heq
          rw [heq] at h2
          simp at h2 h
          rw [← h.2]
          omega
        · simp at h

/-- The fuel of the parser is enough: with fuel at least twice the length of the input plus one
(plus two for members and elements), one more unit of fuel gives the same result. -/
theorem parse_fuel (fuel : Nat) :
    (∀ d s, 2 * s.length + 1 ≤ fuel → parseValue (fuel + 1) d s = parseValue fuel d s) ∧
    (∀ d s, 2 * s.length + 2 ≤ fuel → parseMembers (fuel + 1) d s = parseMembers fuel d s) ∧
    (∀ d s, 2 * s.length + 2 ≤ fuel → parseElems (fuel + 1) d s = parseElems fuel d s) := by
  induction fuel with
  | zero =>
    refine ⟨?_, ?_, ?_⟩ <;> intro d s h <;> omega
  | succ fuel ih =>
    obtain ⟨ihv, ihm, ihe⟩ := ih
    refine ⟨?_, ?_, ?_⟩
    · intro d s h
      cases s with
      | nil => simp [parseValue]
      | cons c r0 =>
        rw [parseValue, parseValue]
        have hsp := skipSpace_length r0
        simp only [List.length_cons] at h
        split_ifs
        all_goals first
          | rfl
          | (split <;> first
              | rfl
              | rw [ihm _ _ (by omega)]
              | rw [ihe _ _ (by omega)])
    · intro d s h
      unfold parseMembers
      split
      · rename_i r0
        simp only [List.length_cons] at h
        split
        · rfl
        · rename_i k r1 hk
          have h1 := scanString_length r0 k r1 hk
          have h2 := skipSpace_length r1
          split
          · rename_i r2 heq
            have h3 := skipSpace_length r2
            rw [heq] at h2
            simp only [List.length_cons] at h2
            rw [ihv _ _ (by omega)]
            split
            · rfl
            · rename_i v r3 hv
              have h4 := (parse_length fuel).1 _ _ _ _ hv
              have h5 := skipSpace_length r3
              split
              · rename_i r4 heq4
                have h6 := skipSpace_length r4
                rw [heq4] at h5
                simp only [List.length_cons] at h5
                rw [ihm _ _ (by omega)]
              · rfl
              · rfl
          · rfl
      · rfl
    · intro d s h
      unfold parseElems
      rw [ihv _ _ (by omega)]
      split
      · rfl
      · rename_i v r1 hv
        have h1 := (parse_length fuel).1 _ _ _ _ hv
        have h2 := skipSpace_length r1
        split
        · rename_i r2 heq
          have h3 := skipSpace_length r2
          rw [heq] at h2
          simp only [List.length_cons] at h2
          rw [ihe _ _ (by omega)]
        · rfl
        · rfl

/-- With fuel at least twice the length of the input plus one, any amount of additional fuel
gives the same value. -/
theorem parseValue_fuel_add (k : Nat) (fuel d : Nat) (s : List Char)
    (h : 2 * s.length + 1 ≤ fuel) : parseValue (fuel + k) d s = parseValue fuel d s := by
  induction k with
  | zero => rfl
  | succ k ih =>
    rw [← Nat.add_assoc, (parse_fuel (fuel + k)).1 d s (by omega), ih]

/-- The result of `parseJSON` does not depend on its fuel: every larger amount of fuel gives the
same document or the same syntax error. -/
theorem parseJSON_fuel (data : String) (fuel : Nat) (h : 2 * data.length + 2 ≤ fuel) :
    (match parseValue fuel 0 (skipSpace data.data) with
      | none => none
      | some (v, rest) => if skipSpace rest = [] then some v else none) = parseJSON data := by
  have hl := skipSpace_length data.data
  have hd : data.data.length = data.length := rfl
  obtain ⟨k, rfl⟩ : ∃ k, fuel = 2 * data.length + 2 + k :=
    ⟨fuel - (2 * data.length + 2), by omega⟩
  rw [parseValue_fuel_add k _ 0 _ (by omega)]
  rfl

/-! ## Lemmas: decimal numerals and ParseInt -/

/-- The character of a decimal digit has the code of `0` plus the digit. -/
theorem digitChar_toNat (m : Nat) (h : m < 10) : (Nat.digitChar m).toNat = 48 + m := by
  interval_cases m <;> rfl

/-- Appending a digit multiplies the value by ten and adds the digit. -/
theorem digitsVal_append (ds : List Char) (d : Char) :
    digitsVal (ds ++ [d]) = 10 * digitsVal ds + (d.toNat - 48) := by
  simp [digitsVal, List.foldl_append]

/-- What `Nat.toDigitsCore` puts in front of its accumulator: decimal digits whose value is the
number, without a leading zero unless the number is 0. -/
theorem toDigitsCore_spec (fuel : Nat) : ∀ (n : Nat) (acc : List Char), n < fuel →
    ∃ ds, Nat.toDigitsCore 10 fuel n acc = ds ++ acc ∧ AllDigits ds ∧ digitsVal ds = n ∧
      (∃ c t, ds = c :: t ∧ (n ≠ 0 → c ≠ '0')) ∧ (n = 0 → ds = ['0']) := by
  induction fuel with
  | zero => intro n acc h; omega
  | succ fuel ih =>
    intro n acc h
    have hd : (Nat.digitChar (n % 10)).toNat = 48 + n % 10 :=
      digitChar_toNat _ (Nat.mod_lt _ (by decide))
    by_cases h0 : n / 10 = 0
    · refine ⟨[Nat.digitChar (n % 10)], ?_, ?_, ?_, ?_, ?_⟩
      · simp [Nat.toDigitsCore, h0]
      · intro c hc
        simp only [List.mem_singleton] at hc
        subst hc
        omega
      · simp [digitsVal, hd]; omega
      · refine ⟨_, _, rfl, ?_⟩
        intro hn hc
        have := congrArg Char.toNat hc
        rw [hd] at this
        have h48 : ('0' : Char).toNat = 48 := rfl
        omega
      · intro hn; subst hn; rfl
    · have hlt : n / 10 < fuel := by omega
      obtain ⟨ds, hds, hall, hval, ⟨c, t, hct, hc⟩, _⟩ :=
        ih (n / 10) (Nat.digitChar (n % 10) :: acc) hlt
      refine ⟨ds ++ [Nat.digitChar (n % 10)], ?_, ?_, ?_, ?_, ?_⟩
      · simp [Nat.toDigitsCore, h0, hds]
      · intro x hx
        rcases List.mem_append.mp hx with hx | hx
        · exact hall x hx
        · simp only [List.mem_singleton] at hx
          subst hx
          omega
      · rw [digitsVal_append, hval, hd]; omega
      · exact ⟨c, t ++ [Nat.digitChar (n % 10)], by simp [hct], fun _ => hc h0⟩
      · intro hn; subst hn; simp at h0

/-- The decimal digits of a number: digit characters whose value is the number, without a
leading zero unless the number is 0. -/
theorem toDigits_spec (n : Nat) :
    AllDigits (Nat.toDigits 10 n) ∧ digitsVal (Nat.toDigits 10 n) = n ∧
      (∃ c t, Nat.toDigits 10 n = c :: t ∧ (n ≠ 0 → c ≠ '0')) ∧
      (n = 0 → Nat.toDigits 10 n = ['0']) := by
  obtain ⟨ds, hds, h⟩ := toDigitsCore_spec (n + 1) n [] (by omega)
  simp only [List.append_nil] at hds
  unfold Nat.toDigits
  rw [hds]
  exact h

/-- Reading more digits does not make the number read so far smaller. -/
theorem foldl_digits_ge (ds : List Char) : ∀ acc : Nat,
    acc ≤ ds.foldl (fun a c => 10 * a + (c.toNat - 48)) acc := by
  induction ds with
  | nil => intro acc; simp
  | cons c t ih =>
    intro acc
    simp only [List.foldl_cons]
    exact le_trans (by omega) (ih _)

/-- On decimal digits whose value fits in 64 bits the digit loop of `ParseUint` in base 10 runs
to the end and returns that value. -/
theorem parseUintLoop_digits (b0 : Bool) (ds : List Char) : ∀ (acc : Nat) (us : Bool),
    AllDigits ds →
    ds.foldl (fun a c => 10 * a + (c.toNat - 48)) acc < 2 ^ 64 →
    parseUintLoop 10 b0 ((2 ^ 64 - 1) / 10 + 1) (2 ^ 64 - 1) ds acc us
      = .inr (ds.foldl (fun a c => 10 * a + (c.toNat - 48)) acc, us) := by
  induction ds with
  | nil => intro acc us _ _; simp [parseUintLoop]
  | cons c t ih =>
    intro acc us hall hlt
    have hc := hall c (List.mem_cons_self _ _)
    have ht : AllDigits t := fun x hx => hall x (List.mem_cons_of_mem _ hx)
    simp only [List.foldl_cons] at hlt ⊢
    have hge := foldl_digits_ge t (10 * acc + (c.toNat - 48))
    have h1 : 10 * acc + (c.toNat - 48) < 2 ^ 64 := lt_of_le_of_lt hge hlt
    have h95 : ¬ c.toNat = 95 := by omega
    norm_num at h1
    have hm0 : acc * 10 % 18446744073709551616 = acc * 10 := Nat.mod_eq_of_lt (by omega)
    have hm1 : (acc * 10 + (c.toNat - 48)) % 18446744073709551616 = acc * 10 + (c.toNat - 48) :=
      Nat.mod_eq_of_lt (by omega)
    rw [parseUintLoop]
    simp only [h95, false_and, if_false, hc, and_self, if_true]
    norm_num
    have hd : ¬ 10 ≤ c.toNat - 48 := by omega
    have hcut : ¬ 1844674407370955162 ≤ acc := by omega
    simp only [hd, hcut, if_false, hm0, hm1]
    have hok : ¬ (acc * 10 + (c.toNat - 48) < acc * 10 ∨
        18446744073709551615 < acc * 10 + (c.toNat - 48)) := by omega
    simp only [hok, if_false]
    have := ih (10 * acc + (c.toNat - 48)) us ht hlt
    norm_num at this
    rw [Nat.mul_comm acc 10]
    exact this

/-- In base 10 and in base 0, `ParseUint` reads the decimal digits of a number below `2^64` as
that number. -/
theorem ParseUint_toDigits (n base : Nat) (hn : n < 2 ^ 64) (hb : base = 0 ∨ base = 10) :
    ParseUint (Nat.toDigits 10 n) base 64 = (n, none) := by
  obtain ⟨hall, hval, ⟨c, t, hct, hc⟩, h0⟩ := toDigits_spec n
  by_cases hn0 : n = 0
  · subst hn0
    rw [h0 rfl]
    rcases hb with hb | hb <;> subst hb <;> decide
  · have hc0 : c ≠ '0' := hc hn0
    have hbase : uintBase (Nat.toDigits 10 n) base = some (10, Nat.toDigits 10 n) := by
      rcases hb with hb | hb
      · subst hb
        rw [hct]
        unfold uintBase
        simp
        split
        · rename_i h; simp at h; exact absurd h.1 hc0
        · rfl
      · subst hb
        simp [uintBase]
    have hloop := parseUintLoop_digits (base == 0) (Nat.toDigits 10 n) 0 false hall
      (by unfold digitsVal at hval; rw [hval]; exact hn)
    unfold digitsVal at hval
    rw [hval] at hloop
    have hne : Nat.toDigits 10 n ≠ [] := by rw [hct]; simp
    unfold ParseUint
    simp only [hne, if_false, hbase]
    norm_num
    norm_num at hloop
    rw [hloop]
    simp

/-- Round trip: `ParseInt` in base 10 and in base 0 reads the canonical decimal numeral of an
integer of the `int64` range as that integer, without error. -/
theorem ParseInt_decimalNumeral (n : Int) (base : Nat)
    (hn : -(2 : Int) ^ 63 ≤ n ∧ n < (2 : Int) ^ 63) (hb : base = 0 ∨ base = 10) :
    ParseInt (decimalNumeral n) base 64 = (n, none) := by
  by_cases hneg : n < 0
  · have hu := ParseUint_toDigits n.natAbs base (by omega) hb
    unfold ParseInt decimalNumeral
    simp only [hneg, if_true]
    simp [hu]
    rw [if_neg (by omega)]
    simp [abs_of_neg hneg]
  · obtain ⟨hall, _, ⟨c, t, hct, _⟩, _⟩ := toDigits_spec n.toNat
    have hu := ParseUint_toDigits n.toNat base (by omega) hb
    have hc := hall c (by rw [hct]; exact List.mem_cons_self _ _)
    have hplus : c ≠ '+' := by
      intro h; subst h; revert hc; decide
    have hminus : c ≠ '-' := by
      intro h; subst h; revert hc; decide
    unfold ParseInt decimalNumeral
    simp only [hneg, if_false]
    rw [hct] at hu ⊢
    have h1 : ¬ (9223372036854775808 : Nat) ≤ n.toNat := by omega
    have h2 : ((n.toNat : Nat) : Int) = n := by omega
    simp [hplus, hminus, hu, h1, h2]

/-- The value `ParseInt` returns with bit size 64 is in the range of `int64`, with or without an
error. -/
theorem ParseInt_inInt64 (s : String) (base : Nat) : inInt64 (ParseInt s base 64).1 = true := by
  unfold ParseInt
  cases hs : s.data with
  | nil => simp [inInt64]
  | cons c t =>
    simp only
    generalize ParseUint (if (c == '+') = true ∨ (c == '-') = true then t else c :: t) base 64 = p
    obtain ⟨un, err⟩ := p
    simp only
    split
    · simp [inInt64]
    · norm_num
      split
      · simp [inInt64]
      · split
        · simp [inInt64]
        · rename_i h1 h2 h3
          simp only [inInt64, decide_eq_true_eq]
          split <;> simp_all <;> omega

/-- A decimal numeral is neither of the two infinity literals. -/
theorem decimalNumeral_ne_infinity (n : Int) :
    decimalNumeral n ≠ "Infinity" ∧ decimalNumeral n ≠ "-Infinity" := by
  unfold decimalNumeral
  by_cases hneg : n < 0
  · obtain ⟨hall, _, ⟨c, t, hct, _⟩, _⟩ := toDigits_spec n.natAbs
    have hc := hall c (by rw [hct]; exact List.mem_cons_self _ _)
    simp only [hneg, if_true, hct]
    constructor
    · intro h
      have := congrArg String.data h
      simp at this
    · intro h
      have := congrArg String.data h
      simp at this
      have h2 := this.1
      subst h2
      revert hc
      decide
  · obtain ⟨hall, _, ⟨c, t, hct, _⟩, _⟩ := toDigits_spec n.toNat
    have hc := hall c (by rw [hct]; exact List.mem_cons_self _ _)
    simp only [hneg, if_false, hct]
    constructor
    · intro h
      have := congrArg String.data h
      simp at this
      have h2 := this.1
      subst h2
      revert hc
      decide
    · intro h
      have := congrArg String.data h
      simp at this
      have h2 := this.1
      subst h2
      revert hc
      decide

/-! ## Lemmas: objects with one member -/

/-- The map decoded from a document that is an object with one member. -/
theorem unmarshalObjmap_single (data k : String) (v : JSON) (w : JVal)
    (hd : parseJSON data = some (JSON.obj [(k, v)])) (hv : toInterface v = some w) :
    unmarshalObjmap data = .ok [(k, w)] := by
  simp [unmarshalObjmap, hd, toInterfaceMembers, hv, mapOfEntries, mapSet]

/-- An object whose only member is cash with a string other than the two infinity literals is
normalised to the record with `Cash` the value `ParseInt` returns; the error of `ParseInt` is
not looked at. -/
theorem fixTypesToStruct_cash_string (s data : String)
    (h1 : s ≠ "Infinity") (h2 : s ≠ "-Infinity")
    (hd : parseJSON data = some (JSON.obj [("cash", JSON.str s)])) :
    fixTypesToStruct data = ({ Cash := (ParseInt s 0 64).1 }, none) := by
  have hm := unmarshalObjmap_single data "cash" (JSON.str s) (JVal.str s) hd (by simp [toInterface])
  have hr := ParseInt_inInt64 s 0
  unfold fixTypesToStruct
  rw [hm]
  simp only
  have e1 : fixInfinity [("cash", JVal.str s)] "total" "infinite_total" "n-infinite_total"
      = [("cash", JVal.str s)] := rfl
  have e2 : fixInfinity [("cash", JVal.str s)] "cash" "infinite_cash" "n-infinite_cash"
      = [("cash", JVal.int (ParseInt s 0 64).1)] := by
    simp [fixInfinity, mapGet, h1, h2, mapSet]
  rw [e1, e2]
  generalize (ParseInt s 0 64).1 = v at hr ⊢
  have e3 : fixInfinity [("cash", JVal.int v)] "bank" "infinite_bank" "n-infinite_bank"
      = [("cash", JVal.int v)] := rfl
  have e4 : fixRank [("cash", JVal.int v)] = [("cash", JVal.int v)] := rfl
  rw [e3, e4]
  have e5 : findField UserObjField.jsonName userObjFields "cash" = some UserObjField.Cash := by
    decide
  simp [marshalUnmarshalUserObj, sortByKey, insertByKey, decodeUserObj, e5, setUserObjField,
    intOfJVal, hr, Except.map]

/-- An object whose only member is bank with a string other than the two infinity literals is
normalised to the record with `Bank` the value `ParseInt` returns. -/
theorem fixTypesToStruct_bank_string (s data : String)
    (h1 : s ≠ "Infinity") (h2 : s ≠ "-Infinity")
    (hd : parseJSON data = some (JSON.obj [("bank", JSON.str s)])) :
    fixTypesToStruct data = ({ Bank := (ParseInt s 0 64).1 }, none) := by
  have hm := unmarshalObjmap_single data "bank" (JSON.str s) (JVal.str s) hd (by simp [toInterface])
  have hr := ParseInt_inInt64 s 0
  unfold fixTypesToStruct
  rw [hm]
  simp only
  have e1 : fixInfinity [("bank", JVal.str s)] "total" "infinite_total" "n-infinite_total"
      = [("bank", JVal.str s)] := rfl
  have e2 : fixInfinity [("bank", JVal.str s)] "cash" "infinite_cash" "n-infinite_cash"
      = [("bank", JVal.str s)] := rfl
  have e3 : fixInfinity [("bank", JVal.str s)] "bank" "infinite_bank" "n-infinite_bank"
      = [("bank", JVal.int (ParseInt s 0 64).1)] := by
    simp [fixInfinity, mapGet, h1, h2, mapSet]
  rw [e1, e2, e3]
  generalize (ParseInt s 0 64).1 = v at hr ⊢
  have e4 : fixRank [("bank", JVal.int v)] = [("bank", JVal.int v)] := rfl
  rw [e4]
  have e5 : findField UserObjField.jsonName userObjFields "bank" = some UserObjField.Bank := by
    decide
  simp [marshalUnmarshalUserObj, sortByKey, insertByKey, decodeUserObj, e5, setUserObjField,
    intOfJVal, hr, Except.map]

/-- An object whose only member is total with a string other than the two infinity literals is
normalised to the record with `Total` the value `ParseInt` returns. -/
theorem fixTypesToStruct_total_string (s data : String)
    (h1 : s ≠ "Infinity") (h2 : s ≠ "-Infinity")
    (hd : parseJSON data = some (JSON.obj [("total", JSON.str s)])) :
    fixTypesToStruct data = ({ Total := (ParseInt s 0 64).1 }, none) := by
  have hm := unmarshalObjmap_single data "total" (JSON.str s) (JVal.str s) hd
    (by simp [toInterface])
  have hr := ParseInt_inInt64 s 0
  unfold fixTypesToStruct
  rw [hm]
  simp only
  have e1 : fixInfinity [("total", JVal.str s)] "total" "infinite_total" "n-infinite_total"
      = [("total", JVal.int (ParseInt s 0 64).1)] := by
    simp [fixInfinity, mapGet, h1, h2, mapSet]
  rw [e1]
  generalize (ParseInt s 0 64).1 = v at hr ⊢
  have e2 : fixInfinity [("total", JVal.int v)] "cash" "infinite_cash" "n-infinite_cash"
      = [("total", JVal.int v)] := rfl
  have e3 : fixInfinity [("total", JVal.int v)] "bank" "infinite_bank" "n-infinite_bank"
      = [("total", JVal.int v)] := rfl
  have e4 : fixRank [("total", JVal.int v)] = [("total", JVal.int v)] := rfl
  rw [e2, e3, e4]
  have e5 : findField UserObjField.jsonName userObjFields "total" = some UserObjField.Total := by
    decide
  simp [marshalUnmarshalUserObj, sortByKey, insertByKey, decodeUserObj, e5, setUserObjField,
    intOfJVal, hr, Except.map]

/-- The members message and retry_after, the latter a decimal numeral of the `int64` range,
decode to the `timeoutResponse` with these two values. -/
theorem decodeTimeout_pair (m : String) (n : Int)
    (hn : -(2 : Int) ^ 63 ≤ n ∧ n < (2 : Int) ^ 63) :
    decodeTimeout [("message", JSON.str m), ("retry_after", JSON.num (decimalNumeral n))] {}
      = .ok ⟨m, n⟩ := by
  have e1 : findField id ["message", "retry_after"] "message" = some "message" := by decide
  have e2 : findField id ["message", "retry_after"] "retry_after" = some "retry_after" := by
    decide
  have e3 : ¬ ("retry_after" = "message") := by decide
  simp [decodeTimeout, e1, e2, e3, stringOfJSON, int64OfJSON,
    ParseInt_decimalNumeral n 10 hn (Or.inr rfl)]

/-! ## Lemmas: maps -/

/-- The entries of a map after an assignment. -/
theorem mem_mapSet (m : ObjMap) (k : String) (v : JVal) (kv : String × JVal) :
    kv ∈ mapSet m k v ↔ (kv ∈ m ∧ kv.1 ≠ k) ∨ kv = (k, v) := by
  simp [mapSet, List.mem_filter]

/-- A value found by a lookup is an entry of the map. -/
theorem mapGet_mem (m : ObjMap) (k : String) (v : JVal) (h : mapGet m k = some v) :
    (k, v) ∈ m := by
  unfold mapGet at h
  cases hf : m.find? (fun kv => kv.1 == k) with
  | none => simp [hf] at h
  | some kv =>
    simp [hf] at h
    have h1 := List.find?_some hf
    have h2 := List.mem_of_find?_eq_some hf
    simp at h1
    obtain ⟨a, b⟩ := kv
    simp at h h1
    subst h h1
    exact h2

/-- An assignment does not change the lookup of another key. -/
theorem mapGet_mapSet_ne (m : ObjMap) (k q : String) (v : JVal) (h : q ≠ k) :
    mapGet (mapSet m k v) q = mapGet m q := by
  unfold mapGet mapSet
  congr 1
  have hp : (fun a : String × JVal => decide ((a.1 != k) = true ∧ (a.1 == q) = true))
      = (fun a => a.1 == q) := by
    funext a
    by_cases ha : a.1 = q
    · have : a.1 ≠ k := by rw [ha]; exact h
      simp [ha, h]
    · simp [ha]
  have hk : (k == q) = false := by simpa using fun e => h e.symm
  rw [List.find?_append, List.find?_filter, hp]
  simp [List.find?, hk]

/-- The entries of a sorted list after an insertion. -/
theorem mem_insertByKey (e : String × JVal) (es : List (String × JVal)) (kv : String × JVal) :
    kv ∈ insertByKey e es ↔ kv = e ∨ kv ∈ es := by
  induction es with
  | nil => simp [insertByKey]
  | cons x xs ih =>
    unfold insertByKey
    split
    · simp
    · simp [ih]; tauto

/-- Sorting by key keeps the entries. -/
theorem mem_sortByKey (es : List (String × JVal)) (kv : String × JVal) :
    kv ∈ sortByKey es ↔ kv ∈ es := by
  induction es with
  | nil => simp [sortByKey]
  | cons x xs ih => simp [sortByKey, mem_insertByKey, ih]

/-- The four outcomes of one block of lines 119-158: the map is left as it is, the positive flag
is set, the negative flag is set, or a parsed number is stored. -/
theorem fixInfinity_cases (m : ObjMap) (key pos neg : String) :
    fixInfinity m key pos neg = m ∨
    (mapGet m key = some (JVal.str "Infinity") ∧
      fixInfinity m key pos neg = mapSet (mapSet m key (JVal.int 0)) pos (JVal.bool true)) ∨
    (mapGet m key = some (JVal.str "-Infinity") ∧
      fixInfinity m key pos neg = mapSet (mapSet m key (JVal.int 0)) neg (JVal.bool true)) ∨
    (∃ v, fixInfinity m key pos neg = mapSet m key (JVal.int v)) := by
  unfold fixInfinity
  split
  · rename_i x hx
    by_cases h1 : x = "Infinity"
    · subst h1; right; left; simp [hx]
    · by_cases h2 : x = "-Infinity"
      · subst h2; right; right; left
        refine ⟨hx, ?_⟩
        simp
      · right; right; right
        exact ⟨(ParseInt x 0 64).1, by simp [h1, h2]⟩
  · left; rfl

/-- One block of lines 119-158 changes the entries of its key and its two flag keys only. -/
theorem fixInfinity_untouched (m : ObjMap) (key pos neg q : String) (w : JVal)
    (h1 : q ≠ key) (h2 : q ≠ pos) (h3 : q ≠ neg) :
    (q, w) ∈ fixInfinity m key pos neg ↔ (q, w) ∈ m := by
  rcases fixInfinity_cases m key pos neg with h | ⟨_, h⟩ | ⟨_, h⟩ | ⟨v, h⟩ <;>
    rw [h] <;> simp [mem_mapSet, h1, h2, h3]

/-- One block of lines 119-158 adds no key other than its key and its two flag keys. -/
theorem fixInfinity_keys (m : ObjMap) (key pos neg : String) (kv : String × JVal)
    (h : kv ∈ fixInfinity m key pos neg) :
    kv ∈ m ∨ kv.1 = key ∨ kv.1 = pos ∨ kv.1 = neg := by
  rcases fixInfinity_cases m key pos neg with h1 | ⟨_, h1⟩ | ⟨_, h1⟩ | ⟨v, h1⟩ <;>
    rw [h1] at h <;> try simp only [mem_mapSet] at h
  · exact Or.inl h
  · rcases h with ⟨⟨h, _⟩ | h, _⟩ | h
    · exact Or.inl h
    · right; left; rw [h]
    · right; right; left; rw [h]
  · rcases h with ⟨⟨h, _⟩ | h, _⟩ | h
    · exact Or.inl h
    · right; left; rw [h]
    · right; right; right; rw [h]
  · rcases h with ⟨h, _⟩ | h
    · exact Or.inl h
    · right; left; rw [h]

/-- After one block of lines 119-158 on a map without the two flag keys, the flags of its
balance are consistent. -/
theorem fixInfinity_flagged (m : ObjMap) (key pos neg : String)
    (hpos : ∀ w, (pos, w) ∉ m) (hneg : ∀ w, (neg, w) ∉ m)
    (h1 : key ≠ pos) (h2 : key ≠ neg) (h3 : pos ≠ neg) :
    Flagged (fixInfinity m key pos neg) key pos neg := by
  have h1' := h1.symm
  have h2' := h2.symm
  have h3' := h3.symm
  rcases fixInfinity_cases m key pos neg with h | ⟨_, h⟩ | ⟨_, h⟩ | ⟨v, h⟩ <;> rw [h] <;>
    unfold Flagged <;> simp [mem_mapSet, hpos, hneg, h1, h2, h3, h1', h2', h3']

/-- The block sets the positive flag when the value at its key is the string Infinity. -/
theorem fixInfinity_positive (m : ObjMap) (key pos neg : String)
    (hget : mapGet m key = some (JVal.str "Infinity")) :
    (pos, JVal.bool true) ∈ fixInfinity m key pos neg := by
  simp [fixInfinity, hget, mem_mapSet]

/-- The block sets the negative flag when the value at its key is the string -Infinity. -/
theorem fixInfinity_negative (m : ObjMap) (key pos neg : String)
    (hget : mapGet m key = some (JVal.str "-Infinity")) :
    (neg, JVal.bool true) ∈ fixInfinity m key pos neg := by
  have : ("-Infinity" : String) ≠ "Infinity" := by decide
  simp [fixInfinity, hget, mem_mapSet, this]

/-- One block of lines 119-158 does not change the lookup of a key other than its three keys. -/
theorem mapGet_fixInfinity_ne (m : ObjMap) (key pos neg q : String)
    (h1 : q ≠ key) (h2 : q ≠ pos) (h3 : q ≠ neg) :
    mapGet (fixInfinity m key pos neg) q = mapGet m q := by
  rcases fixInfinity_cases m key pos neg with h | ⟨_, h⟩ | ⟨_, h⟩ | ⟨v, h⟩ <;>
    rw [h] <;> simp [mapGet_mapSet_ne, h1, h2, h3]

/-- Lines 159-162 change the entries of the key rank only. -/
theorem fixRank_untouched (m : ObjMap) (q : String) (w : JVal) (h : q ≠ "rank") :
    (q, w) ∈ fixRank m ↔ (q, w) ∈ m := by
  unfold fixRank
  split <;> simp [mem_mapSet, h]

/-- Lines 159-162 add no key other than rank. -/
theorem fixRank_keys (m : ObjMap) (kv : String × JVal) (h : kv ∈ fixRank m) :
    kv ∈ m ∨ kv.1 = "rank" := by
  unfold fixRank at h
  split at h
  · simp only [mem_mapSet] at h
    rcases h with ⟨h, _⟩ | h
    · exact Or.inl h
    · right; rw [h]
  · exact Or.inl h

/-! ## Lemmas: decoding into UserObj -/

/-- The JSON name of a field selects that field. -/
theorem findField_jsonName (f : UserObjField) :
    findField UserObjField.jsonName userObjFields f.jsonName = some f := by
  cases f <;> decide

/-- A key that is one of the JSON names selects the field with that name. -/
theorem findField_exact (k : String) (hk : k ∈ allNames) (g : UserObjField)
    (h : findField UserObjField.jsonName userObjFields k = some g) : g.jsonName = k := by
  simp only [allNames, userObjFields, List.map, List.mem_cons, List.mem_singleton,
    List.not_mem_nil, or_false] at hk
  rcases hk with rfl | rfl | rfl | rfl | rfl | rfl | rfl | rfl | rfl | rfl | rfl <;>
    rw [findField_jsonName _] at h <;> injection h with h <;> subst h <;> rfl

/-- Decoding a value into a field changes a boolean field only if it is that field and the value
is a boolean. -/
theorem set_boolAt (r r1 : UserObj) (g f : UserObjField) (v : JVal)
    (h : setUserObjField r g v = .ok r1) :
    r1.boolAt f = r.boolAt f ∨ (g = f ∧ v = JVal.bool (r1.boolAt f)) := by
  cases g <;> cases v <;>
    simp [setUserObjField, intOfJVal, boolOfJVal, stringOfJVal, Except.map] at h <;>
    (try (split at h <;> simp at h)) <;>
    subst h <;> cases f <;> simp [UserObj.boolAt]

/-- Decoding a value into a field changes an integer field only if it is that field and the
value decodes to the new integer. -/
theorem set_intAt (r r1 : UserObj) (g f : UserObjField) (v : JVal)
    (h : setUserObjField r g v = .ok r1) :
    r1.intAt f = r.intAt f ∨ (g = f ∧ intOfJVal v = .ok (some (r1.intAt f))) := by
  cases g <;> simp only [setUserObjField] at h
  all_goals first
    | (cases hv : intOfJVal v with
        | error e => simp [hv, Except.map] at h
        | ok o =>
          simp [hv, Except.map] at h
          subst h
          cases o <;> cases f <;> simp [UserObj.intAt])
    | (cases hv : boolOfJVal v with
        | error e => simp [hv, Except.map] at h
        | ok o =>
          simp [hv, Except.map] at h
          subst h
          cases f <;> simp [UserObj.intAt])
    | (cases hv : stringOfJVal v with
        | error e => simp [hv, Except.map] at h
        | ok o =>
          simp [hv, Except.map] at h
          subst h
          cases f <;> simp [UserObj.intAt])

/-- Decoding true into a field that accepts it sets the field. -/
theorem set_bool_true (r r1 : UserObj) (f : UserObjField)
    (h : setUserObjField r f (JVal.bool true) = .ok r1) : r1.boolAt f = true := by
  cases f <;> simp [setUserObjField, intOfJVal, boolOfJVal, stringOfJVal, Except.map] at h <;>
    subst h <;> simp [UserObj.boolAt]

/-- A boolean field of a decoded record keeps its initial value or holds a boolean that is an
entry under the name of the field. -/
theorem decode_origin_bool (f : UserObjField) (es : List (String × JVal)) :
    ∀ r0 r : UserObj, (∀ kv ∈ es, kv.1 ∈ allNames) → decodeUserObj es r0 = .ok r →
      r.boolAt f = r0.boolAt f ∨ (f.jsonName, JVal.bool (r.boolAt f)) ∈ es := by
  induction es with
  | nil =>
    intro r0 r _ h
    simp [decodeUserObj] at h
    subst h
    exact Or.inl rfl
  | cons e rest ih =>
    intro r0 r hk h
    obtain ⟨k, v⟩ := e
    have hk' : ∀ kv ∈ rest, kv.1 ∈ allNames := fun kv hkv => hk kv (List.mem_cons_of_mem _ hkv)
    unfold decodeUserObj at h
    cases hf : findField UserObjField.jsonName userObjFields k with
    | none =>
      rw [hf] at h
      rcases ih r0 r hk' h with h1 | h1
      · exact Or.inl h1
      · exact Or.inr (List.mem_cons_of_mem _ h1)
    | some g =>
      rw [hf] at h
      cases hs : setUserObjField r0 g v with
      | error e => simp [hs] at h
      | ok r1 =>
        simp only [hs] at h
        rcases ih r1 r hk' h with h1 | h1
        · rcases set_boolAt r0 r1 g f v hs with h2 | ⟨h2, h3⟩
          · exact Or.inl (h1.trans h2)
          · right
            have hn := findField_exact k (hk (k, v) (List.mem_cons_self _ _)) g hf
            subst h2
            rw [← hn, h1, ← h3]
            exact List.mem_cons_self _ _
        · exact Or.inr (List.mem_cons_of_mem _ h1)

/-- An integer field of a decoded record keeps its initial value or holds the integer of an
entry under the name of the field. -/
theorem decode_origin_int (f : UserObjField) (es : List (String × JVal)) :
    ∀ r0 r : UserObj, (∀ kv ∈ es, kv.1 ∈ allNames) → decodeUserObj es r0 = .ok r →
      r.intAt f = r0.intAt f ∨
        ∃ v, (f.jsonName, v) ∈ es ∧ intOfJVal v = .ok (some (r.intAt f)) := by
  induction es with
  | nil =>
    intro r0 r _ h
    simp [decodeUserObj] at h
    subst h
    exact Or.inl rfl
  | cons e rest ih =>
    intro r0 r hk h
    obtain ⟨k, v⟩ := e
    have hk' : ∀ kv ∈ rest, kv.1 ∈ allNames := fun kv hkv => hk kv (List.mem_cons_of_mem _ hkv)
    unfold decodeUserObj at h
    cases hf : findField UserObjField.jsonName userObjFields k with
    | none =>
      rw [hf] at h
      rcases ih r0 r hk' h with h1 | ⟨w, h1, h2⟩
      · exact Or.inl h1
      · exact Or.inr ⟨w, List.mem_cons_of_mem _ h1, h2⟩
    | some g =>
      rw [hf] at h
      cases hs : setUserObjField r0 g v with
      | error e => simp [hs] at h
      | ok r1 =>
        simp only [hs] at h
        rcases ih r1 r hk' h with h1 | ⟨w, h1, h2⟩
        · rcases set_intAt r0 r1 g f v hs with h2 | ⟨h2, h3⟩
          · exact Or.inl (h1.trans h2)
          · right
            have hn := findField_exact k (hk (k, v) (List.mem_cons_self _ _)) g hf
            subst h2
            refine ⟨v, ?_, ?_⟩
            · rw [← hn]; exact List.mem_cons_self _ _
            · rw [h1]; exact h3
        · exact Or.inr ⟨w, List.mem_cons_of_mem _ h1, h2⟩

/-- When every entry under the name of a boolean field is true and there is one (or the field
starts true), the decoded field is true. -/
theorem decode_positive_bool (f : UserObjField) (es : List (String × JVal)) :
    ∀ r0 r : UserObj, (∀ kv ∈ es, kv.1 ∈ allNames) → decodeUserObj es r0 = .ok r →
      (∀ w, (f.jsonName, w) ∈ es → w = JVal.bool true) →
      (r0.boolAt f = true ∨ ∃ w, (f.jsonName, w) ∈ es) → r.boolAt f = true := by
  induction es with
  | nil =>
    intro r0 r _ h _ h0
    simp [decodeUserObj] at h
    subst h
    simpa using h0
  | cons e rest ih =>
    intro r0 r hk h hall h0
    obtain ⟨k, v⟩ := e
    have hk' : ∀ kv ∈ rest, kv.1 ∈ allNames := fun kv hkv => hk kv (List.mem_cons_of_mem _ hkv)
    have hall' : ∀ w, (f.jsonName, w) ∈ rest → w = JVal.bool true :=
      fun w hw => hall w (List.mem_cons_of_mem _ hw)
    have hkn := hk (k, v) (List.mem_cons_self _ _)
    unfold decodeUserObj at h
    cases hf : findField UserObjField.jsonName userObjFields k with
    | none =>
      rw [hf] at h
      apply ih r0 r hk' h hall'
      rcases h0 with h0 | ⟨w, hw⟩
      · exact Or.inl h0
      · rcases List.mem_cons.mp hw with hw | hw
        · injection hw with hw1 hw2
          rw [← hw1, findField_jsonName] at hf
          simp at hf
        · exact Or.inr ⟨w, hw⟩
    | some g =>
      rw [hf] at h
      have hn := findField_exact k hkn g hf
      cases hs : setUserObjField r0 g v with
      | error e => simp [hs] at h
      | ok r1 =>
        simp only [hs] at h
        apply ih r1 r hk' h hall'
        rcases set_boolAt r0 r1 g f v hs with h2 | ⟨h2, h3⟩
        · rcases h0 with h0 | ⟨w, hw⟩
          · exact Or.inl (h2.trans h0)
          · rcases List.mem_cons.mp hw with hw | hw
            · injection hw with hw1 hw2
              left
              have hv : v = JVal.bool true := by
                rw [← hw2]; exact hall w (by rw [hw1, hw2]; exact List.mem_cons_self _ _)
              have hg : g = f := by
                rw [← hw1, findField_jsonName] at hf
                injection hf with hf
                exact hf.symm
              subst hv hg
              exact set_bool_true r0 r1 g hs
            · exact Or.inr ⟨w, hw⟩
        · left
          subst h2
          have hv : v = JVal.bool true := hall v (by rw [hn]; exact List.mem_cons_self _ _)
          rw [hv] at h3
          injection h3 with h3
          exact h3.symm

/-- On a body that decodes to a map, a record that `fixTypesToStruct` returns without error is
what the decoder makes of the fixed map sorted by key. -/
theorem fixTypesToStruct_eq (data : String) (objmap : ObjMap) (r : UserObj)
    (h : unmarshalObjmap data = .ok objmap) (hok : fixTypesToStruct data = (r, none)) :
    decodeUserObj (sortByKey (fixedMap objmap)) {} = .ok r := by
  simp only [fixTypesToStruct, h, marshalUnmarshalUserObj] at hok
  unfold fixedMap
  split at hok
  · simp at hok
  · rename_i b hb
    simp at hok
    rw [hb, hok]

/-- Consistency of the flags of a balance depends on the entries of its three keys only. -/
theorem Flagged_congr (m m1 : ObjMap) (key pos neg : String)
    (h : ∀ q w, (q = key ∨ q = pos ∨ q = neg) → ((q, w) ∈ m1 ↔ (q, w) ∈ m))
    (hf : Flagged m key pos neg) : Flagged m1 key pos neg := by
  unfold Flagged at hf ⊢
  have hk : ∀ w, (key, w) ∈ m1 ↔ (key, w) ∈ m := fun w => h key w (Or.inl rfl)
  have hp : ∀ w, (pos, w) ∈ m1 ↔ (pos, w) ∈ m := fun w => h pos w (Or.inr (Or.inl rfl))
  have hn : ∀ w, (neg, w) ∈ m1 ↔ (neg, w) ∈ m := fun w => h neg w (Or.inr (Or.inr rfl))
  simp only [hk, hp, hn]
  exact hf

/-- The keys of the fixed map of a balance object are JSON names of `UserObj`. -/
theorem fixedMap_keys (m : ObjMap) (hk : ∀ kv ∈ m, kv.1 ∈ fiveKeys) :
    ∀ kv ∈ fixedMap m, kv.1 ∈ allNames := by
  intro kv h
  have h5 : ∀ kv ∈ m, kv.1 ∈ allNames := by
    intro kv h
    have := hk kv h
    simp only [fiveKeys, List.mem_cons, List.mem_singleton, List.not_mem_nil, or_false] at this
    rcases this with h | h | h | h | h <;> rw [h] <;> decide
  unfold fixedMap at h
  rcases fixRank_keys _ kv h with h | h
  · rcases fixInfinity_keys _ _ _ _ kv h with h | h | h | h
    · rcases fixInfinity_keys _ _ _ _ kv h with h | h | h | h
      · rcases fixInfinity_keys _ _ _ _ kv h with h | h | h | h
        · exact h5 kv h
        all_goals (rw [h]; decide)
      all_goals (rw [h]; decide)
    all_goals (rw [h]; decide)
  · rw [h]; decide

/-- In the fixed map of a balance object the flags of total, cash and bank are consistent. -/
theorem fixedMap_flagged (m : ObjMap) (hk : ∀ kv ∈ m, kv.1 ∈ fiveKeys) :
    Flagged (fixedMap m) "total" "infinite_total" "n-infinite_total" ∧
    Flagged (fixedMap m) "cash" "infinite_cash" "n-infinite_cash" ∧
    Flagged (fixedMap m) "bank" "infinite_bank" "n-infinite_bank" := by
  have no0 : ∀ q w, q ∉ fiveKeys → (q, w) ∉ m := fun q w hq hm => hq (hk (q, w) hm)
  have no1 : ∀ q w, q ∉ fiveKeys → q ≠ "infinite_total" → q ≠ "n-infinite_total" →
      (q, w) ∉ fixInfinity m "total" "infinite_total" "n-infinite_total" := by
    intro q w hq h1 h2 hm
    rcases fixInfinity_keys _ _ _ _ _ hm with h | h | h | h
    · exact no0 q w hq h
    · simp only at h; subst h; exact hq (by decide)
    · exact h1 h
    · exact h2 h
  have no2 : ∀ q w, q ∉ fiveKeys → q ≠ "infinite_total" → q ≠ "n-infinite_total" →
      q ≠ "infinite_cash" → q ≠ "n-infinite_cash" →
      (q, w) ∉ fixInfinity (fixInfinity m "total" "infinite_total" "n-infinite_total")
        "cash" "infinite_cash" "n-infinite_cash" := by
    intro q w hq h1 h2 h3 h4 hm
    rcases fixInfinity_keys _ _ _ _ _ hm with h | h | h | h
    · exact no1 q w hq h1 h2 h
    · simp only at h; subst h; exact hq (by decide)
    · exact h3 h
    · exact h4 h
  have f1 := fixInfinity_flagged m "total" "infinite_total" "n-infinite_total"
    (fun w => no0 _ w (by decide)) (fun w => no0 _ w (by decide))
    (by decide) (by decide) (by decide)
  have f2 := fixInfinity_flagged (fixInfinity m "total" "infinite_total" "n-infinite_total")
    "cash" "infinite_cash" "n-infinite_cash"
    (fun w => no1 _ w (by decide) (by decide) (by decide))
    (fun w => no1 _ w (by decide) (by decide) (by decide))
    (by decide) (by decide) (by decide)
  have f3 := fixInfinity_flagged
    (fixInfinity (fixInfinity m "total" "infinite_total" "n-infinite_total")
      "cash" "infinite_cash" "n-infinite_cash")
    "bank" "infinite_bank" "n-infinite_bank"
    (fun w => no2 _ w (by decide) (by decide) (by decide) (by decide) (by decide))
    (fun w => no2 _ w (by decide) (by decide) (by decide) (by decide) (by decide))
    (by decide) (by decide) (by decide)
  refine ⟨?_, ?_, ?_⟩
  · refine Flagged_congr _ _ _ _ _ ?_ f1
    intro q w hq
    unfold fixedMap
    have hne : q ≠ "rank" ∧ q ≠ "bank" ∧ q ≠ "infinite_bank" ∧ q ≠ "n-infinite_bank" ∧
        q ≠ "cash" ∧ q ≠ "infinite_cash" ∧ q ≠ "n-infinite_cash" := by
      rcases hq with h | h | h <;> subst h <;> decide
    rw [fixRank_untouched _ _ _ hne.1,
      fixInfinity_untouched _ _ _ _ _ _ hne.2.1 hne.2.2.1 hne.2.2.2.1,
      fixInfinity_untouched _ _ _ _ _ _ hne.2.2.2.2.1 hne.2.2.2.2.2.1 hne.2.2.2.2.2.2]
  · refine Flagged_congr _ _ _ _ _ ?_ f2
    intro q w hq
    unfold fixedMap
    have hne : q ≠ "rank" ∧ q ≠ "bank" ∧ q ≠ "infinite_bank" ∧ q ≠ "n-infinite_bank" := by
      rcases hq with h | h | h <;> subst h <;> decide
    rw [fixRank_untouched _ _ _ hne.1,
      fixInfinity_untouched _ _ _ _ _ _ hne.2.1 hne.2.2.1 hne.2.2.2]
  · refine Flagged_congr _ _ _ _ _ ?_ f3
    intro q w hq
    unfold fixedMap
    have hne : q ≠ "rank" := by
      rcases hq with h | h | h <;> subst h <;> decide
    rw [fixRank_untouched _ _ _ hne]

/-- The boolean fields of the zero record are false. -/
theorem zero_boolAt (f : UserObjField) : ({} : UserObj).boolAt f = false := by
  cases f <;> rfl

/-- The integer fields of the zero record are 0. -/
theorem zero_intAt (f : UserObjField) : ({} : UserObj).intAt f = 0 := by
  cases f <;> rfl

/-- A record decoded from entries with consistent flags has at most one flag of the balance set,
and the number 0 when one is set. -/
theorem flags_of_flagged (fk fp fn : UserObjField) (es : List (String × JVal)) (r : UserObj)
    (hkeys : ∀ kv ∈ es, kv.1 ∈ allNames) (hdec : decodeUserObj es {} = .ok r)
    (hfl : Flagged es fk.jsonName fp.jsonName fn.jsonName) :
    ¬(r.boolAt fp = true ∧ r.boolAt fn = true) ∧
    ((r.boolAt fp = true ∨ r.boolAt fn = true) → r.intAt fk = 0) := by
  have hp : r.boolAt fp = true → (fp.jsonName, JVal.bool true) ∈ es := by
    intro h
    rcases decode_origin_bool fp es {} r hkeys hdec with h1 | h1
    · rw [zero_boolAt, h] at h1; simp at h1
    · rw [h] at h1; exact h1
  have hn : r.boolAt fn = true → (fn.jsonName, JVal.bool true) ∈ es := by
    intro h
    rcases decode_origin_bool fn es {} r hkeys hdec with h1 | h1
    · rw [zero_boolAt, h] at h1; simp at h1
    · rw [h] at h1; exact h1
  have hzero : (∀ x, (fk.jsonName, x) ∈ es → x = JVal.int 0) → r.intAt fk = 0 := by
    intro h
    rcases decode_origin_int fk es {} r hkeys hdec with h1 | ⟨v, h1, h2⟩
    · rw [zero_intAt] at h1; exact h1
    · rw [h v h1] at h2
      simp [intOfJVal, inInt64] at h2
      exact h2.symm
  constructor
  · rintro ⟨h1, h2⟩
    exact (hfl.1 _ (hp h1)).2.2 _ (hn h2)
  · rintro (h | h)
    · exact hzero (hfl.1 _ (hp h)).2.1
    · exact hzero (hfl.2 _ (hn h)).2.1

/-- Sorting by key keeps the flags consistent. -/
theorem Flagged_sortByKey (m : ObjMap) (key pos neg : String) (h : Flagged m key pos neg) :
    Flagged (sortByKey m) key pos neg :=
  Flagged_congr m _ key pos neg (fun q w _ => mem_sortByKey m (q, w)) h

/-- A record decoded from entries with consistent flags that hold the positive flag has the
number 0, the positive flag set and the negative flag clear. -/
theorem flag_set_pos (fk fp fn : UserObjField) (es : List (String × JVal)) (r : UserObj)
    (hkeys : ∀ kv ∈ es, kv.1 ∈ allNames) (hdec : decodeUserObj es {} = .ok r)
    (hfl : Flagged es fk.jsonName fp.jsonName fn.jsonName)
    (hmem : (fp.jsonName, JVal.bool true) ∈ es) :
    r.intAt fk = 0 ∧ r.boolAt fp = true ∧ r.boolAt fn = false := by
  have hp : r.boolAt fp = true :=
    decode_positive_bool fp es {} r hkeys hdec (fun w hw => (hfl.1 w hw).1) (Or.inr ⟨_, hmem⟩)
  obtain ⟨h1, h2⟩ := flags_of_flagged fk fp fn es r hkeys hdec hfl
  refine ⟨h2 (Or.inl hp), hp, ?_⟩
  cases hn : r.boolAt fn
  · rfl
  · exact absurd ⟨hp, hn⟩ h1

/-- A record decoded from entries with consistent flags that hold the negative flag has the
number 0, the negative flag set and the positive flag clear. -/
theorem flag_set_neg (fk fp fn : UserObjField) (es : List (String × JVal)) (r : UserObj)
    (hkeys : ∀ kv ∈ es, kv.1 ∈ allNames) (hdec : decodeUserObj es {} = .ok r)
    (hfl : Flagged es fk.jsonName fp.jsonName fn.jsonName)
    (hmem : (fn.jsonName, JVal.bool true) ∈ es) :
    r.intAt fk = 0 ∧ r.boolAt fp = false ∧ r.boolAt fn = true := by
  have hn : r.boolAt fn = true :=
    decode_positive_bool fn es {} r hkeys hdec (fun w hw => (hfl.2 w hw).1) (Or.inr ⟨_, hmem⟩)
  obtain ⟨h1, h2⟩ := flags_of_flagged fk fp fn es r hkeys hdec hfl
  refine ⟨h2 (Or.inr hn), ?_, hn⟩
  cases hp : r.boolAt fp
  · rfl
  · exact absurd ⟨hp, hn⟩ h1

/-- A flag of total set by the first block is an entry of the fixed map. -/
theorem fixedMap_total_flag (m : ObjMap) (w : JVal) (q : String)
    (hq : q = "infinite_total" ∨ q = "n-infinite_total")
    (h : (q, w) ∈ fixInfinity m "total" "infinite_total" "n-infinite_total") :
    (q, w) ∈ fixedMap m := by
  unfold fixedMap
  have hne : q ≠ "rank" ∧ q ≠ "bank" ∧ q ≠ "infinite_bank" ∧ q ≠ "n-infinite_bank" ∧
      q ≠ "cash" ∧ q ≠ "infinite_cash" ∧ q ≠ "n-infinite_cash" := by
    rcases hq with h | h <;> subst h <;> decide
  rw [fixRank_untouched _ _ _ hne.1,
    fixInfinity_untouched _ _ _ _ _ _ hne.2.1 hne.2.2.1 hne.2.2.2.1,
    fixInfinity_untouched _ _ _ _ _ _ hne.2.2.2.2.1 hne.2.2.2.2.2.1 hne.2.2.2.2.2.2]
  exact h

/-- A flag of cash set by the second block is an entry of the fixed map. -/
theorem fixedMap_cash_flag (m : ObjMap) (w : JVal) (q : String)
    (hq : q = "infinite_cash" ∨ q = "n-infinite_cash")
    (h : (q, w) ∈ fixInfinity (fixInfinity m "total" "infinite_total" "n-infinite_total")
      "cash" "infinite_cash" "n-infinite_cash") :
    (q, w) ∈ fixedMap m := by
  unfold fixedMap
  have hne : q ≠ "rank" ∧ q ≠ "bank" ∧ q ≠ "infinite_bank" ∧ q ≠ "n-infinite_bank" := by
    rcases hq with h | h <;> subst h <;> decide
  rw [fixRank_untouched _ _ _ hne.1,
    fixInfinity_untouched _ _ _ _ _ _ hne.2.1 hne.2.2.1 hne.2.2.2]
  exact h

/-- A flag of bank set by the third block is an entry of the fixed map. -/
theorem fixedMap_bank_flag (m : ObjMap) (w : JVal) (q : String)
    (hq : q = "infinite_bank" ∨ q = "n-infinite_bank")
    (h : (q, w) ∈ fixInfinity
      (fixInfinity (fixInfinity m "total" "infinite_total" "n-infinite_total")
        "cash" "infinite_cash" "n-infinite_cash")
      "bank" "infinite_bank" "n-infinite_bank") :
    (q, w) ∈ fixedMap m := by
  unfold fixedMap
  have hne : q ≠ "rank" := by
    rcases hq with h | h <;> subst h <;> decide
  rw [fixRank_untouched _ _ _ hne]
  exact h

/-! ## Lemmas: numbers through float64 -/

/-- With enough fuel the halving count brackets a positive number between two powers of two. -/
theorem log2Aux_spec (fuel : Nat) : ∀ n : Nat, 1 ≤ n → n ≤ fuel →
    2 ^ log2Aux fuel n ≤ n ∧ n < 2 ^ (log2Aux fuel n + 1) := by
  induction fuel with
  | zero => intro n h1 h2; omega
  | succ fuel ih =>
    intro n h1 h2
    unfold log2Aux
    by_cases h : n < 2
    · have : n = 1 := by omega
      subst this
      simp
    · simp only [h, if_false]
      obtain ⟨ha, hb⟩ := ih (n / 2) (by omega) (by omega)
      constructor
      · rw [pow_succ]; omega
      · rw [pow_succ]; omega

/-- A positive number lies between the power of two of its binary logarithm and the next. -/
theorem log2_spec (n : Nat) (h : 1 ≤ n) : 2 ^ log2 n ≤ n ∧ n < 2 ^ (log2 n + 1) :=
  log2Aux_spec n n h (le_refl n)

/-- A positive integer below `2^53` is a `float64`: rounding gives it back exactly, with its
mantissa shifted to 53 bits. -/
theorem roundFloat64_int (N : Nat) (h1 : 1 ≤ N) (h2 : N < 2 ^ 53) :
    roundFloat64 N 1 = some (N * 2 ^ (52 - log2 N), (log2 N : Int) - 52) := by
  obtain ⟨ha, hb⟩ := log2_spec N h1
  have hb52 : log2 N ≤ 52 := by
    by_contra hc
    have : 2 ^ 53 ≤ 2 ^ log2 N := Nat.pow_le_pow_right (by decide) (by omega)
    omega
  have hlt : N * 2 ^ (52 - log2 N) < 2 ^ 53 := by
    have : 2 ^ (log2 N + 1) * 2 ^ (52 - log2 N) = 2 ^ 53 := by
      rw [← pow_add]; congr 1; omega
    have hpos : 0 < 2 ^ (52 - log2 N) := by positivity
    calc N * 2 ^ (52 - log2 N) < 2 ^ (log2 N + 1) * 2 ^ (52 - log2 N) :=
          Nat.mul_lt_mul_of_pos_right hb hpos
      _ = 2 ^ 53 := this
  have hl1 : log2 1 = 0 := rfl
  unfold roundFloat64
  simp only [hl1, Nat.cast_zero, sub_zero]
  have h0 : (0 : Int) ≤ (log2 N : Int) := Int.natCast_nonneg _
  simp only [h0, if_true, Int.toNat_ofNat, one_mul, ha, decide_True]
  have hmax : max ((log2 N : Int) - 52) (-1074) = (log2 N : Int) - 52 := by omega
  rw [hmax]
  by_cases he : (0 : Int) ≤ (log2 N : Int) - 52
  · have hb' : log2 N = 52 := by omega
    have hne : ¬ (N = 9007199254740992) := by norm_num at h2; omega
    simp [hb', Nat.mod_one, hne]
  · have hN : (-((log2 N : Int) - 52)).toNat = 52 - log2 N := by omega
    simp only [he, if_false, hN, Nat.div_one, Nat.mod_one]
    have hne : ¬ (N * 2 ^ (52 - log2 N) = 9007199254740992) := by norm_num at hlt; omega
    simp [hne]
    omega

/-- A string of decimal digits is taken whole as leading digits. -/
theorem spanDigits_allDigits (ds : List Char) (h : AllDigits ds) : spanDigits ds = (ds, []) := by
  induction ds with
  | nil => rfl
  | cons c t ih =>
    have hc := h c (List.mem_cons_self _ _)
    have ht : AllDigits t := fun x hx => h x (List.mem_cons_of_mem _ hx)
    simp [spanDigits, hc, ih ht]

/-- The decimal digits of a number, with or without a minus sign, are read as a number literal
with that mantissa and exponent 0. -/
theorem decimalOfLit_toDigits (N : Nat) (neg : Bool) :
    decimalOfLit ((if neg then ['-'] else []) ++ Nat.toDigits 10 N) = some (neg, N, 0) := by
  obtain ⟨hall, hval, ⟨c, t, hct, hc⟩, h0⟩ := toDigits_spec N
  have hcd := hall c (by rw [hct]; exact List.mem_cons_self _ _)
  have hminus : c ≠ '-' := by
    intro h; subst h; revert hcd; decide
  have hint : scanIntPart (Nat.toDigits 10 N) = some (Nat.toDigits 10 N, []) := by
    by_cases hn : N = 0
    · rw [h0 hn]; rfl
    · have hc0 : c ≠ '0' := hc hn
      have ht : AllDigits t := fun x hx => hall x (by rw [hct]; exact List.mem_cons_of_mem _ hx)
      have h49 : 49 ≤ c.toNat := by
        by_contra hlt
        have h48 : c.toNat = 48 := by omega
        apply hc0
        have : c = Char.ofNat c.toNat := (Char.ofNat_toNat c).symm
        rw [this, h48]
      rw [hct]
      unfold scanIntPart
      split
      · rename_i heq
        simp only [List.cons.injEq] at heq
        exact absurd heq.1 hc0
      · rename_i heq
        injection heq with h1 h2
        subst h1 h2
        simp [h49, hcd.2, spanDigits_allDigits _ ht]
      · rename_i heq; simp at heq
  have hsign : scanOneOf '-' '-' ((if neg then ['-'] else []) ++ Nat.toDigits 10 N)
      = (if neg then ['-'] else [], Nat.toDigits 10 N) := by
    cases neg with
    | false => simp [scanOneOf, hct, hminus]
    | true => simp [scanOneOf]
  unfold decimalOfLit
  rw [hsign]
  simp only [hint]
  cases neg <;> simp [scanFrac, scanExp, expVal, hval]

/-- For an integer below `2^53` (interval of half width at most `2 / s` with `s ≥ 4`), the
candidate at the digit position `10^k` exists only if `10^k` divides the integer, and is the
integer itself. -/
theorem intCandidate_exact (N S low : Nat) (incl : Bool) (k : Nat)
    (hN : 1 ≤ N) (hS : 4 ≤ S) (hlow : 1 ≤ low ∧ low ≤ 2) :
    intCandidate (N * S) (N * S - low) (N * S + 2) S incl k
      = if N % 10 ^ k = 0 then some N else none := by
  have hT : 0 < 10 ^ k := by positivity
  have hSpos : 0 < S := by omega
  have hdiv : N * S / (10 ^ k * S) = N / 10 ^ k := Nat.mul_div_mul_right _ _ hSpos
  have hmod : N * S % (10 ^ k * S) = N % 10 ^ k * S := Nat.mul_mod_mul_right _ _ _
  have hdm : N / 10 ^ k * 10 ^ k + N % 10 ^ k = N := Nat.div_add_mod' N (10 ^ k)
  have hv : 4 ≤ N * S := le_trans hS (Nat.le_mul_of_pos_left S hN)
  unfold intCandidate
  simp only [hdiv, hmod]
  by_cases hb : N % 10 ^ k = 0
  · have hdown : N / 10 ^ k * (10 ^ k * S) = N * S := by
      rw [← Nat.mul_assoc]
      congr 1
      omega
    simp only [hb, Nat.zero_mul, if_true, hdown]
    have hNS : N * S / S = N := Nat.mul_div_cancel _ hSpos
    have h1 : N * S - low ≤ N * S := by omega
    have h2 : N * S ≤ N * S + 2 := by omega
    have h3 : N * S - low < N * S := by omega
    have h4 : N * S < N * S + 2 := by omega
    cases incl <;> simp [hNS, h1, h3]
  · have hx1 : S ≤ N % 10 ^ k * S := Nat.le_mul_of_pos_left S (Nat.pos_of_ne_zero hb)
    have hlt : N % 10 ^ k < 10 ^ k := Nat.mod_lt _ hT
    have hx2 : N % 10 ^ k * S + S ≤ 10 ^ k * S := by
      have : (N % 10 ^ k + 1) * S ≤ 10 ^ k * S := Nat.mul_le_mul_right S hlt
      rw [Nat.add_mul, Nat.one_mul] at this
      exact this
    have hdown : N / 10 ^ k * (10 ^ k * S) + N % 10 ^ k * S = N * S := by
      rw [← Nat.mul_assoc, ← Nat.add_mul, hdm]
    have hx0 : N % 10 ^ k * S ≠ 0 := by omega
    simp only [hx0, hb, if_false]
    generalize N / 10 ^ k * (10 ^ k * S) = D at hdown ⊢
    generalize N % 10 ^ k * S = x at hx1 hx2 hdown hx0 ⊢
    generalize 10 ^ k * S = y at hx2 ⊢
    generalize N * S = v at hv hdown ⊢
    have h1 : ¬ (v - low ≤ D) := by omega
    have h2 : ¬ (D + y ≤ v + 2) := by omega
    have h3 : ¬ (v - low < D) := by omega
    have h4 : ¬ (D + y < v + 2) := by omega
    cases incl <;> simp [h1, h2, h3, h4]

/-- The shortest decimal of a float that is an integer below `2^53` is that integer. -/
theorem shortestInt_exact (N S low : Nat) (incl : Bool) (k : Nat)
    (hN : 1 ≤ N) (hS : 4 ≤ S) (hlow : 1 ≤ low ∧ low ≤ 2) :
    shortestInt (N * S) (N * S - low) (N * S + 2) S incl k = some N := by
  induction k with
  | zero => simp [shortestInt, intCandidate_exact N S low incl 0 hN hS hlow, Nat.mod_one]
  | succ k ih =>
    unfold shortestInt
    rw [intCandidate_exact N S low incl (k + 1) hN hS hlow]
    by_cases h : N % 10 ^ (k + 1) = 0
    · simp [h]
    · simp [h, ih]

/-- The literal `json.Marshal` writes for a float that is a nonzero integer below `2^53` in
magnitude denotes that integer. -/
theorem float64AsInt_exact (N s : Nat) (neg : Bool) (hN : 1 ≤ N) (h53 : N < 2 ^ 53) :
    float64AsInt ⟨neg, N * 2 ^ s, -(s : Int)⟩ = some (if neg then -(N : Int) else (N : Int)) := by
  have hpos : 0 < 2 ^ s := by positivity
  have hm : N * 2 ^ s ≠ 0 := by
    have := Nat.mul_pos (show 0 < N by omega) hpos
    omega
  have e1 : (-(s : Int)).toNat = 0 := by omega
  have e2 : (-(-(s : Int))).toNat = s := by omega
  have hv : 4 * (N * 2 ^ s) * 1 = N * (4 * 2 ^ s) := by ring
  have hS : 4 ≤ 4 * 2 ^ s := by omega
  have hbig : ¬ (N * (4 * 2 ^ s) ≥ 10 ^ 21 * (4 * 2 ^ s)) := by
    intro h
    have := Nat.le_of_mul_le_mul_right h (by omega : 0 < 4 * 2 ^ s)
    norm_num at h53 this
    omega
  unfold float64AsInt
  simp only [hm, if_false, e1, e2, pow_zero, hv, hbig, Nat.mul_one]
  by_cases hl : N * 2 ^ s = 2 ^ 52 ∧ -(s : Int) > -1074
  · simp only [hl, and_self, if_true]
    rw [shortestInt_exact N (4 * 2 ^ s) 1 _ 20 hN hS (by omega)]
  · simp only [hl, if_false]
    rw [shortestInt_exact N (4 * 2 ^ s) 2 _ 20 hN hS (by omega)]

/-- The float `ParseFloat` returns for the decimal numeral of a nonzero integer below `2^53` in
magnitude is that integer exactly. -/
theorem ParseFloat_decimalNumeral (n : Int) (h0 : n ≠ 0)
    (h : -(2 : Int) ^ 53 < n ∧ n < (2 : Int) ^ 53) :
    ParseFloat (decimalNumeral n)
      = some ⟨decide (n < 0), n.natAbs * 2 ^ (52 - log2 n.natAbs),
          -((52 - log2 n.natAbs : Nat) : Int)⟩ := by
  have hN1 : 1 ≤ n.natAbs := by omega
  have hN2 : n.natAbs < 2 ^ 53 := by omega
  obtain ⟨ha, hb⟩ := log2_spec n.natAbs hN1
  have hb52 : log2 n.natAbs ≤ 52 := by
    by_contra hc
    have : 2 ^ 53 ≤ 2 ^ log2 n.natAbs := Nat.pow_le_pow_right (by decide) (by omega)
    omega
  have hexp : (log2 n.natAbs : Int) - 52 = -((52 - log2 n.natAbs : Nat) : Int) := by omega
  have hlit : decimalOfLit (decimalNumeral n).data = some (decide (n < 0), n.natAbs, 0) := by
    unfold decimalNumeral
    by_cases hneg : n < 0
    · have := decimalOfLit_toDigits n.natAbs true
      simp only [if_true, List.singleton_append] at this
      simp [hneg, this]
    · have := decimalOfLit_toDigits n.toNat false
      simp only [Bool.false_eq_true, if_false, List.nil_append] at this
      have hnat : n.toNat = n.natAbs := by omega
      rw [hnat] at this
      simp [hneg, this, hnat]
  have hmant : n.natAbs * 2 ^ (52 - log2 n.natAbs) ≠ 0 := by
    have := Nat.mul_pos (show 0 < n.natAbs by omega)
      (show 0 < 2 ^ (52 - log2 n.natAbs) by positivity)
    omega
  unfold ParseFloat
  rw [hlit]
  have hne : n.natAbs ≠ 0 := by omega
  simp only [hne, if_false, le_refl, if_true, Int.toNat_zero, pow_zero, Nat.mul_one,
    roundFloat64_int n.natAbs hN1 hN2, hmant, hexp]

/-- For an integer of magnitude at most `2^53`, the decimal numeral is read as a float whose
marshalled literal denotes the integer again. -/
theorem float_of_decimalNumeral (n : Int) (h : -(2 : Int) ^ 53 ≤ n ∧ n ≤ (2 : Int) ^ 53) :
    ∃ f, ParseFloat (decimalNumeral n) = some f ∧ float64AsInt f = some n := by
  by_cases h0 : n = 0
  · subst h0
    exact ⟨⟨false, 0, 0⟩, by rfl, by rfl⟩
  · by_cases hp : n = 2 ^ 53
    · subst hp
      exact ⟨⟨false, 4503599627370496, 1⟩, by rfl, by rfl⟩
    · by_cases hm : n = -2 ^ 53
      · subst hm
        exact ⟨⟨true, 4503599627370496, 1⟩, by rfl, by rfl⟩
      · have hr : -(2 : Int) ^ 53 < n ∧ n < (2 : Int) ^ 53 := by omega
        refine ⟨_, ParseFloat_decimalNumeral n h0 hr, ?_⟩
        rw [float64AsInt_exact n.natAbs _ _ (by omega) (by omega)]
        by_cases hneg : n < 0
        · have : -((n.natAbs : Nat) : Int) = n := by omega
          simp only [hneg, decide_True, if_true, this]
        · have : ((n.natAbs : Nat) : Int) = n := by omega
          simp only [hneg, decide_False, Bool.false_eq_true, if_false, this]

/-- An object whose only member is cash with a number whose float is marshalled as an integer
numeral of the `int64` range is normalised to the record with `Cash` that integer. -/
theorem fixTypesToStruct_cash_number (lit data : String) (f : F64) (i : Int)
    (hd : parseJSON data = some (JSON.obj [("cash", JSON.num lit)]))
    (hf : ParseFloat lit = some f) (hi : float64AsInt f = some i) (hr : inInt64 i = true) :
    fixTypesToStruct data = ({ Cash := i }, none) := by
  have hm := unmarshalObjmap_single data "cash" (JSON.num lit) (JVal.float64 f) hd
    (by simp [toInterface, hf])
  unfold fixTypesToStruct
  rw [hm]
  simp only
  have e1 : fixInfinity [("cash", JVal.float64 f)] "total" "infinite_total" "n-infinite_total"
      = [("cash", JVal.float64 f)] := rfl
  have e2 : fixInfinity [("cash", JVal.float64 f)] "cash" "infinite_cash" "n-infinite_cash"
      = [("cash", JVal.float64 f)] := rfl
  have e3 : fixInfinity [("cash", JVal.float64 f)] "bank" "infinite_bank" "n-infinite_bank"
      = [("cash", JVal.float64 f)] := rfl
  have e4 : fixRank [("cash", JVal.float64 f)] = [("cash", JVal.float64 f)] := rfl
  rw [e1, e2, e3, e4]
  have e5 : findField UserObjField.jsonName userObjFields "cash" = some UserObjField.Cash := by
    decide
  simp [marshalUnmarshalUserObj, sortByKey, insertByKey, decodeUserObj, e5, setUserObjField,
    intOfJVal, hi, hr, Except.map]

/-- An object whose only member is bank with a number whose float is marshalled as an integer
numeral of the `int64` range is normalised to the record with `Bank` that integer. -/
theorem fixTypesToStruct_bank_number (lit data : String) (f : F64) (i : Int)
    (hd : parseJSON data = some (JSON.obj [("bank", JSON.num lit)]))
    (hf : ParseFloat lit = some f) (hi : float64AsInt f = some i) (hr : inInt64 i = true) :
    fixTypesToStruct data = ({ Bank := i }, none) := by
  have hm := unmarshalObjmap_single data "bank" (JSON.num lit) (JVal.float64 f) hd
    (by simp [toInterface, hf])
  unfold fixTypesToStruct
  rw [hm]
  simp only
  have e1 : fixInfinity [("bank", JVal.float64 f)] "total" "infinite_total" "n-infinite_total"
      = [("bank", JVal.float64 f)] := rfl
  have e2 : fixInfinity [("bank", JVal.float64 f)] "cash" "infinite_cash" "n-infinite_cash"
      = [("bank", JVal.float64 f)] := rfl
  have e3 : fixInfinity [("bank", JVal.float64 f)] "bank" "infinite_bank" "n-infinite_bank"
      = [("bank", JVal.float64 f)] := rfl
  have e4 : fixRank [("bank", JVal.float64 f)] = [("bank", JVal.float64 f)] := rfl
  rw [e1, e2, e3, e4]
  have e5 : findField UserObjField.jsonName userObjFields "bank" = some UserObjField.Bank := by
    decide
  simp [marshalUnmarshalUserObj, sortByKey, insertByKey, decodeUserObj, e5, setUserObjField,
    intOfJVal, hi, hr, Except.map]

/-- An object whose only member is total with a number whose float is marshalled as an integer
numeral of the `int64` range is normalised to the record with `Total` that integer. -/
theorem fixTypesToStruct_total_number (lit data : String) (f : F64) (i : Int)
    (hd : parseJSON data = some (JSON.obj [("total", JSON.num lit)]))
    (hf : ParseFloat lit = some f) (hi : float64AsInt f = some i) (hr : inInt64 i = true) :
    fixTypesToStruct data = ({ Total := i }, none) := by
  have hm := unmarshalObjmap_single data "total" (JSON.num lit) (JVal.float64 f) hd
    (by simp [toInterface, hf])
  unfold fixTypesToStruct
  rw [hm]
  simp only
  have e1 : fixInfinity [("total", JVal.float64 f)] "total" "infinite_total" "n-infinite_total"
      = [("total", JVal.float64 f)] := rfl
  have e2 : fixInfinity [("total", JVal.float64 f)] "cash" "infinite_cash" "n-infinite_cash"
      = [("total", JVal.float64 f)] := rfl
  have e3 : fixInfinity [("total", JVal.float64 f)] "bank" "infinite_bank" "n-infinite_bank"
      = [("total", JVal.float64 f)] := rfl
  have e4 : fixRank [("total", JVal.float64 f)] = [("total", JVal.float64 f)] := rfl
  rw [e1, e2, e3, e4]
  have e5 : findField UserObjField.jsonName userObjFields "total" = some UserObjField.Total := by
    decide
  simp [marshalUnmarshalUserObj, sortByKey, insertByKey, decodeUserObj, e5, setUserObjField,
    intOfJVal, hi, hr, Except.map]

/-- At the units, a value that is a whole number of units and lies strictly inside the interval
is its own candidate. -/
theorem intCandidate_zero (v lo hi s : Nat) (incl : Bool) (hv : v % s = 0)
    (hlo : lo < v) (hhi : v < hi) : intCandidate v lo hi s incl 0 = some (v / s) := by
  have hd : v / s * s = v := Nat.div_mul_cancel (Nat.dvd_of_mod_eq_zero hv)
  unfold intCandidate
  simp only [pow_zero, one_mul, hv, if_true, hd]
  cases incl
  · have h1 : decide (lo < v ∧ v < hi) = true := by simp [hlo, hhi]
    simp [h1]
  · have h1 : decide (lo ≤ v ∧ v ≤ hi) = true := by simp [hlo.le, hhi.le]
    simp [h1]

/-- The search for the shortest decimal of a value that is a whole number of units strictly
inside the interval always finds one. -/
theorem shortestInt_isSome (v lo hi s : Nat) (incl : Bool) (hv : v % s = 0)
    (hlo : lo < v) (hhi : v < hi) : ∀ k, (shortestInt v lo hi s incl k).isSome = true := by
  intro k
  induction k with
  | zero => simp [shortestInt, intCandidate_zero v lo hi s incl hv hlo hhi]
  | succ k ih =>
    unfold shortestInt
    cases intCandidate v lo hi s incl (k + 1) with
    | none => simpa using ih
    | some c => simp

/-- The search of `shortestDigits` always finds a decimal for a float that is not zero, so that
the branch for a failed search is not taken: the digits are those of the decimal found. -/
theorem shortestDigits_found (f : F64) (h0 : f.mant ≠ 0) :
    ∃ c, shortestInt (4 * f.mant * 2 ^ f.exp.toNat * 10 ^ (-f.exp).toNat)
        (4 * f.mant * 2 ^ f.exp.toNat * 10 ^ (-f.exp).toNat -
          (if f.mant = 2 ^ 52 ∧ f.exp > -1074 then 2 ^ f.exp.toNat * 10 ^ (-f.exp).toNat
           else 2 * 2 ^ f.exp.toNat * 10 ^ (-f.exp).toNat))
        (4 * f.mant * 2 ^ f.exp.toNat * 10 ^ (-f.exp).toNat
          + 2 * 2 ^ f.exp.toNat * 10 ^ (-f.exp).toNat)
        (4 * 2 ^ (-f.exp).toNat) (f.mant % 2 == 0)
        (Nat.toDigits 10 ((4 * f.mant * 2 ^ f.exp.toNat * 10 ^ (-f.exp).toNat
          + 2 * 2 ^ f.exp.toNat * 10 ^ (-f.exp).toNat) / (4 * 2 ^ (-f.exp).toNat))).length
      = some c ∧
      shortestDigits f = ⟨trimZeros (Nat.toDigits 10 c),
        ((Nat.toDigits 10 c).length : Int) - ((-f.exp).toNat : Int)⟩ := by
  have hp : 0 < 2 ^ f.exp.toNat * 10 ^ (-f.exp).toNat := by positivity
  have hm : 0 < f.mant := Nat.pos_of_ne_zero h0
  generalize hq : 2 ^ f.exp.toNat * 10 ^ (-f.exp).toNat = q at hp
  have e1 : 4 * f.mant * 2 ^ f.exp.toNat * 10 ^ (-f.exp).toNat = 4 * f.mant * q := by
    rw [← hq]; ring
  have e2 : 2 * 2 ^ f.exp.toNat * 10 ^ (-f.exp).toNat = 2 * q := by
    rw [← hq]; ring
  have hdvd : 4 * 2 ^ (-f.exp).toNat ∣ 4 * f.mant * q := by
    have : 2 ^ (-f.exp).toNat ∣ q := by
      rw [← hq]
      have h10 : (10 : Nat) ^ (-f.exp).toNat = 2 ^ (-f.exp).toNat * 5 ^ (-f.exp).toNat := by
        rw [← Nat.mul_pow]
      exact ⟨2 ^ f.exp.toNat * 5 ^ (-f.exp).toNat, by rw [h10]; ring⟩
    obtain ⟨t, ht⟩ := this
    exact ⟨f.mant * t, by rw [ht]; ring⟩
  have hsome := shortestInt_isSome (4 * f.mant * q)
    (4 * f.mant * q - (if f.mant = 2 ^ 52 ∧ f.exp > -1074 then q else 2 * q))
    (4 * f.mant * q + 2 * q) (4 * 2 ^ (-f.exp).toNat) (f.mant % 2 == 0)
    (Nat.mod_eq_zero_of_dvd hdvd)
    (by split_ifs <;> (have : 4 * q ≤ 4 * f.mant * q := by nlinarith) <;> omega)
    (by omega)
    (Nat.toDigits 10 ((4 * f.mant * q + 2 * q) / (4 * 2 ^ (-f.exp).toNat))).length
  obtain ⟨c, hc⟩ := Option.isSome_iff_exists.mp hsome
  refine ⟨c, ?_, ?_⟩
  · rw [e1, e2]
    exact hc
  · unfold shortestDigits
    simp only [h0, if_false]
    rw [hq, e1, e2, hc]

/-! ## Lemmas: signed and hexadecimal numerals -/

/-- `ParseUint` in base 0 reads a string of decimal digits that does not start with a zero
followed by more digits as its decimal value, when that is below `2^64`. -/
theorem ParseUint_digits (ds : List Char) (hne : ds ≠ []) (hall : AllDigits ds)
    (hz : ∀ c t, ds ≠ '0' :: c :: t) (hval : digitsVal ds < 2 ^ 64) :
    ParseUint ds 0 64 = (digitsVal ds, none) := by
  cases ds with
  | nil => exact absurd rfl hne
  | cons c t =>
    by_cases hc0 : c = '0'
    · subst hc0
      cases t with
      | nil => decide
      | cons c1 t1 => exact absurd rfl (hz c1 t1)
    · have hbase : uintBase (c :: t) 0 = some (10, c :: t) := by
        unfold uintBase
        simp
        split
        · rename_i h; simp at h; exact absurd h.1 hc0
        · rfl
      have hloop := parseUintLoop_digits true (c :: t) 0 false hall
        (by unfold digitsVal at hval; exact hval)
      unfold ParseUint
      simp only [hne, if_false, hbase]
      norm_num
      norm_num at hloop
      rw [hloop]
      simp [digitsVal]

/-- A hexadecimal digit is no underscore, its value is below 16, and the digit loop of
`ParseUint` computes the same value for it. -/
theorem hexVal_loop (c : Char) (d : Nat) (h : hexVal c = some d) :
    c.toNat ≠ 95 ∧ d < 16 ∧
    (if 48 ≤ c.toNat ∧ c.toNat ≤ 57 then some (c.toNat - 48)
     else if 97 ≤ lower c.toNat ∧ lower c.toNat ≤ 122 then some (lower c.toNat - 97 + 10)
     else none) = some d := by
  unfold hexVal at h
  simp only at h
  generalize c.toNat = n at h ⊢
  split_ifs at h with h1 h2 h3
  · injection h with h
    subst h
    simp [h1]
    omega
  · injection h with h
    subst h
    obtain ⟨ha, hb⟩ := h2
    interval_cases n <;> simp [lower]
  · injection h with h
    subst h
    obtain ⟨ha, hb⟩ := h3
    interval_cases n <;> simp [lower]

/-- The value of hexadecimal digits that follow the digits of `acc` is at least `acc`. -/
theorem foldl_hex_ge (ds : List Char) : ∀ acc : Nat,
    acc ≤ ds.foldl (fun a c => 16 * a + (hexVal c).getD 0) acc := by
  induction ds with
  | nil => intro acc; simp
  | cons c t ih =>
    intro acc
    simp only [List.foldl_cons]
    exact le_trans (by omega) (ih _)

/-- The digit loop of `ParseUint` in base 16 on hexadecimal digits computes their value, when it
is below `2^64`. -/
theorem parseUintLoop_hex (ds : List Char) : ∀ (acc : Nat) (us : Bool),
    (∀ c ∈ ds, (hexVal c).isSome = true) →
    ds.foldl (fun a c => 16 * a + (hexVal c).getD 0) acc < 2 ^ 64 →
    parseUintLoop 16 true ((2 ^ 64 - 1) / 16 + 1) (2 ^ 64 - 1) ds acc us
      = .inr (ds.foldl (fun a c => 16 * a + (hexVal c).getD 0) acc, us) := by
  induction ds with
  | nil => intro acc us _ _; simp [parseUintLoop]
  | cons c t ih =>
    intro acc us hall hlt
    have hc := hall c (List.mem_cons_self _ _)
    have ht : ∀ x ∈ t, (hexVal x).isSome = true := fun x hx => hall x (List.mem_cons_of_mem _ hx)
    obtain ⟨d, hd⟩ := Option.isSome_iff_exists.mp hc
    obtain ⟨h95, hd16, hdig⟩ := hexVal_loop c d hd
    simp only [List.foldl_cons, hd, Option.getD_some] at hlt ⊢
    have hge := foldl_hex_ge t (16 * acc + d)
    have h1 : 16 * acc + d < 2 ^ 64 := lt_of_le_of_lt hge hlt
    norm_num at h1
    have hm0 : acc * 16 % 18446744073709551616 = acc * 16 := Nat.mod_eq_of_lt (by omega)
    have hm1 : (acc * 16 + d) % 18446744073709551616 = acc * 16 + d :=
      Nat.mod_eq_of_lt (by omega)
    rw [parseUintLoop]
    simp only [h95, false_and, if_false, hdig]
    norm_num
    have hd' : ¬ 16 ≤ d := by omega
    have hcut : ¬ 1152921504606846976 ≤ acc := by omega
    simp only [hd', hcut, if_false, hm0, hm1]
    have hok : ¬ (acc * 16 + d < acc * 16 ∨ 18446744073709551615 < acc * 16 + d) := by omega
    simp only [hok, if_false]
    have := ih (16 * acc + d) us ht hlt
    norm_num at this
    rw [Nat.mul_comm acc 16]
    exact this

/-- `ParseUint` in base 0 reads `0x` (or `0X`) followed by hexadecimal digits as their value in
base 16, when that is below `2^64`. -/
theorem ParseUint_hex (x : Char) (ds : List Char) (hx : x = 'x' ∨ x = 'X') (hne : ds ≠ [])
    (hall : ∀ c ∈ ds, (hexVal c).isSome = true) (hval : hexDigitsVal ds < 2 ^ 64) :
    ParseUint ('0' :: x :: ds) 0 64 = (hexDigitsVal ds, none) := by
  cases ds with
  | nil => exact absurd rfl hne
  | cons c t =>
    have hbase : uintBase ('0' :: x :: c :: t) 0 = some (16, c :: t) := by
      rcases hx with rfl | rfl <;> simp [uintBase, lower]
    have hloop := parseUintLoop_hex (c :: t) 0 false hall
      (by unfold hexDigitsVal at hval; exact hval)
    unfold ParseUint
    simp only [hbase]
    norm_num
    norm_num at hloop
    rw [hloop]
    simp [hexDigitsVal]

/-- A string whose characters all pass `isDecimalDigit` is a list of decimal digits. -/
theorem allDigits_of_all (ds : List Char) (h : ds.all isDecimalDigit = true) : AllDigits ds := by
  intro c hc
  have := List.all_eq_true.mp h c hc
  simpa [isDecimalDigit] using this

/-- `ParseInt` on an optional sign followed by a text that `ParseUint` reads as `v` returns `v`
with that sign, when the signed value is in the range of `int64`. -/
theorem ParseInt_signed (s : String) (ds : List Char) (neg : Bool) (v : Nat)
    (hs : splitSign s.data = (neg, ds)) (hne : ds ≠ [])
    (hsign : ∀ c t, ds = c :: t → c ≠ '-' ∧ c ≠ '+')
    (hu : ParseUint ds 0 64 = (v, none))
    (hr : -(2 : Int) ^ 63 ≤ (if neg then -(v : Int) else (v : Int)) ∧
      (if neg then -(v : Int) else (v : Int)) < (2 : Int) ^ 63) :
    ParseInt s 0 64 = (if neg then -(v : Int) else (v : Int), none) := by
  unfold ParseInt
  cases hd : s.data with
  | nil =>
    rw [hd] at hs
    simp [splitSign] at hs
    exact (hne hs.2).elim
  | cons c t =>
    rw [hd] at hs
    unfold splitSign at hs
    by_cases hm : c = '-'
    · subst hm
      simp at hs
      obtain ⟨h1, h2⟩ := hs
      subst h1 h2
      simp at hr
      simp [hu]
      omega
    · by_cases hp : c = '+'
      · subst hp
        simp at hs
        obtain ⟨h1, h2⟩ := hs
        subst h1 h2
        simp at hr
        simp [hu]
        omega
      · simp [hm, hp] at hs
        obtain ⟨h1, h2⟩ := hs
        subst h1 h2
        simp at hr
        simp [hm, hp, hu]
        omega

/-- `ParseInt` in base 0 reads a base-10 numeral without a leading zero as its base-10 value,
when that is in the range of `int64`. -/
theorem ParseInt_base10 (s : String) (n : Int) (h : base10Value s = some n)
    (hz : hasLeadingZero s = false) (hn : -(2 : Int) ^ 63 ≤ n ∧ n < (2 : Int) ^ 63) :
    ParseInt s 0 64 = (n, none) := by
  unfold base10Value at h
  by_cases hc : (splitSign s.data).2 ≠ [] ∧ (splitSign s.data).2.all isDecimalDigit = true
  · rw [if_pos hc] at h
    obtain ⟨hne, hall⟩ := hc
    injection h with h
    cases hsp : splitSign s.data with
    | mk neg ds =>
    rw [hsp] at h hne hall
    simp only at h hne hall
    unfold hasLeadingZero at hz
    rw [hsp] at hz
    simp only at hz
    have hd := allDigits_of_all ds hall
    have hlead : ∀ c t, ds ≠ '0' :: c :: t := by
      intro c t hds
      subst hds
      simp at hz
    have hsign : ∀ c t, ds = c :: t → c ≠ '-' ∧ c ≠ '+' := by
      intro c t hds
      have := hd c (by rw [hds]; exact List.mem_cons_self _ _)
      constructor <;> (intro hc; subst hc; revert this; decide)
    have hv : digitsVal ds < 2 ^ 64 := by
      cases neg <;> simp at h <;> omega
    have hu := ParseUint_digits ds hne hd hlead hv
    have hr := hn
    rw [← h] at hr ⊢
    exact ParseInt_signed s ds neg (digitsVal ds) hsp hne hsign hu hr
  · rw [if_neg hc] at h
    cases h

/-- `ParseInt` in base 0 reads a hexadecimal numeral with the prefix `0x` as its base-16 value,
when that is in the range of `int64`. -/
theorem ParseInt_base16 (s : String) (n : Int) (h : base16Value s = some n)
    (hn : -(2 : Int) ^ 63 ≤ n ∧ n < (2 : Int) ^ 63) :
    ParseInt s 0 64 = (n, none) := by
  unfold base16Value at h
  cases hsp : splitSign s.data with
  | mk neg ds =>
  rw [hsp] at h
  simp only at h
  cases ds with
  | nil => cases h
  | cons z t =>
    cases t with
    | nil => cases h
    | cons x hs =>
      simp only at h
      by_cases hc : z = '0' ∧ (x = 'x' ∨ x = 'X') ∧ hs ≠ [] ∧
          hs.all (fun c => (hexVal c).isSome) = true
      · rw [if_pos hc] at h
        obtain ⟨hz, hx, hne, hall⟩ := hc
        subst hz
        injection h with h
        have hall' : ∀ c ∈ hs, (hexVal c).isSome = true :=
          fun c hc => List.all_eq_true.mp hall c hc
        have hv : hexDigitsVal hs < 2 ^ 64 := by
          cases neg <;> simp at h <;> omega
        have hu := ParseUint_hex x hs hx hne hall' hv
        have hsign : ∀ c t, '0' :: x :: hs = c :: t → c ≠ '-' ∧ c ≠ '+' := by
          intro c t hds
          injection hds with h1 h2
          subst h1
          decide
        have hr := hn
        rw [← h] at hr ⊢
        exact ParseInt_signed s _ neg (hexDigitsVal hs) hsp (by simp) hsign hu hr
      · rw [if_neg hc] at h
        cases h

/-- A numeral is neither of the two infinity strings. -/
theorem numeral_ne_infinity (s : String) (n : Int)
    (h : base10Value s = some n ∨ base16Value s = some n) :
    s ≠ "Infinity" ∧ s ≠ "-Infinity" := by
  have h1 : base10Value "Infinity" = none := by decide
  have h2 : base16Value "Infinity" = none := by decide
  have h3 : base10Value "-Infinity" = none := by decide
  have h4 : base16Value "-Infinity" = none := by decide
  constructor <;> (intro hs; subst hs; simp [h1, h2, h3, h4] at h)

/-! ## Lemmas: octal numerals, values out of range and digits out of the base -/

/-- One round of the digit loop of `ParseUint` on a digit of the base: when the number read so
far times the base plus the digit is below `2^64` the loop goes on with it, and otherwise it
returns the largest `uint64` with a range error (by the cutoff test or by the wrap of the sum).
-/
theorem parseUintLoop_step (b : Nat) (b0 : Bool) (ch : Char) (rest : List Char) (n : Nat)
    (us : Bool) (d : Nat) (hb : 0 < b) (hb36 : b ≤ 36) (h95 : ch.toNat ≠ 95)
    (hd : loopDigit ch = some d) (hdb : d < b) :
    parseUintLoop b b0 ((2 ^ 64 - 1) / b + 1) (2 ^ 64 - 1) (ch :: rest) n us =
      if b * n + d < 2 ^ 64 then
        parseUintLoop b b0 ((2 ^ 64 - 1) / b + 1) (2 ^ 64 - 1) rest (b * n + d) us
      else .inl (2 ^ 64 - 1, NumError.ErrRange) := by
  have hcut : n ≥ (2 ^ 64 - 1) / b + 1 ↔ ¬ (n * b ≤ 2 ^ 64 - 1) := by
    rw [← Nat.le_div_iff_mul_le hb]
    omega
  have hdig : (if 48 ≤ ch.toNat ∧ ch.toNat ≤ 57 then some (ch.toNat - 48)
      else if 97 ≤ lower ch.toNat ∧ lower ch.toNat ≤ 122 then some (lower ch.toNat - 97 + 10)
      else none) = some d := hd
  have hnd : ¬ d ≥ b := by omega
  rw [parseUintLoop]
  simp only [h95, false_and, if_false, hdig, hnd]
  rw [Nat.mul_comm b n]
  by_cases hc : n ≥ (2 ^ 64 - 1) / b + 1
  · have h1 := hcut.mp hc
    have h2 : ¬ (n * b + d < 2 ^ 64) := by omega
    simp only [hc, if_true, h2, if_false]
  · have h1 : n * b ≤ 2 ^ 64 - 1 := by
      by_contra h
      exact hc (hcut.mpr h)
    simp only [hc, if_false]
    generalize n * b = m at h1 ⊢
    by_cases hlt : m + d < 2 ^ 64
    · have e0 : m % 2 ^ 64 = m := Nat.mod_eq_of_lt (by omega)
      have e1 : (m + d) % 2 ^ 64 = m + d := Nat.mod_eq_of_lt hlt
      have hok : ¬ (m + d < m ∨ m + d > 2 ^ 64 - 1) := by omega
      simp only [e0, e1, hok, if_false, hlt, if_true]
    · have e0 : m % 2 ^ 64 = m := Nat.mod_eq_of_lt (by omega)
      have e1 : (m + d) % 2 ^ 64 = m + d - 2 ^ 64 := by
        norm_num at hlt h1 ⊢
        omega
      have hbad : m + d - 2 ^ 64 < m ∨ m + d - 2 ^ 64 > 2 ^ 64 - 1 := by
        norm_num at hlt h1 ⊢
        omega
      simp only [e0, e1, hbad, if_true, hlt, if_false]

/-- The number that digits denote is at least the number read before them. -/
theorem loopVal_ge (b : Nat) (ds : List Char) : ∀ acc : Nat, 0 < b → acc ≤ loopVal b ds acc := by
  induction ds with
  | nil => intro acc _; simp [loopVal]
  | cons c t ih =>
    intro acc hb
    have h1 : acc ≤ b * acc + (loopDigit c).getD 0 :=
      le_trans (Nat.le_mul_of_pos_left acc hb) (Nat.le_add_right _ _)
    have := ih (b * acc + (loopDigit c).getD 0) hb
    simp only [loopVal, List.foldl_cons] at this ⊢
    exact le_trans h1 this

/-- The digit loop of `ParseUint` on digits of the base, none of them an underscore, computes
the number they denote, when that is below `2^64`. -/
theorem parseUintLoop_value (b : Nat) (b0 : Bool) (hb : 0 < b) (hb36 : b ≤ 36)
    (ds : List Char) : ∀ (acc : Nat) (us : Bool),
    (∀ c ∈ ds, c.toNat ≠ 95 ∧ ∃ d, loopDigit c = some d ∧ d < b) →
    loopVal b ds acc < 2 ^ 64 →
    parseUintLoop b b0 ((2 ^ 64 - 1) / b + 1) (2 ^ 64 - 1) ds acc us
      = .inr (loopVal b ds acc, us) := by
  induction ds with
  | nil => intro acc us _ _; simp [parseUintLoop, loopVal]
  | cons c t ih =>
    intro acc us hall hlt
    obtain ⟨h95, d, hd, hdb⟩ := hall c (List.mem_cons_self _ _)
    have ht : ∀ x ∈ t, x.toNat ≠ 95 ∧ ∃ d, loopDigit x = some d ∧ d < b :=
      fun x hx => hall x (List.mem_cons_of_mem _ hx)
    have hv : loopVal b (c :: t) acc = loopVal b t (b * acc + d) := by
      simp [loopVal, hd]
    rw [hv] at hlt ⊢
    have h1 : b * acc + d < 2 ^ 64 := lt_of_le_of_lt (loopVal_ge b t _ hb) hlt
    have hacc : acc < 2 ^ 64 :=
      lt_of_le_of_lt (le_trans (Nat.le_mul_of_pos_left acc hb) (Nat.le_add_right _ _)) h1
    rw [parseUintLoop_step b b0 c t acc us d hb hb36 h95 hd hdb, if_pos h1]
    exact ih _ us ht hlt

/-- The digit loop of `ParseUint` on digits of the base that denote `2^64` or more returns the
largest `uint64` with a range error. -/
theorem parseUintLoop_range (b : Nat) (b0 : Bool) (hb : 0 < b) (hb36 : b ≤ 36)
    (ds : List Char) : ∀ (acc : Nat) (us : Bool),
    (∀ c ∈ ds, c.toNat ≠ 95 ∧ ∃ d, loopDigit c = some d ∧ d < b) →
    acc < 2 ^ 64 → 2 ^ 64 ≤ loopVal b ds acc →
    parseUintLoop b b0 ((2 ^ 64 - 1) / b + 1) (2 ^ 64 - 1) ds acc us
      = .inl (2 ^ 64 - 1, NumError.ErrRange) := by
  induction ds with
  | nil =>
    intro acc us _ hacc hge
    simp only [loopVal, List.foldl_nil] at hge
    omega
  | cons c t ih =>
    intro acc us hall hacc hge
    obtain ⟨h95, d, hd, hdb⟩ := hall c (List.mem_cons_self _ _)
    have ht : ∀ x ∈ t, x.toNat ≠ 95 ∧ ∃ d, loopDigit x = some d ∧ d < b :=
      fun x hx => hall x (List.mem_cons_of_mem _ hx)
    have hv : loopVal b (c :: t) acc = loopVal b t (b * acc + d) := by
      simp [loopVal, hd]
    rw [hv] at hge
    rw [parseUintLoop_step b b0 c t acc us d hb hb36 h95 hd hdb]
    by_cases h1 : b * acc + d < 2 ^ 64
    · rw [if_pos h1]
      exact ih _ us ht h1 hge
    · rw [if_neg h1]

/-- The digit loop of `ParseUint` returns 0 with a syntax error at the first character that is
not a digit of the base, when the digits before it denote a number below `2^64`. -/
theorem parseUintLoop_bad_digit (b : Nat) (b0 : Bool) (hb : 0 < b) (hb36 : b ≤ 36)
    (x : Char) (rest : List Char) (hx95 : x.toNat ≠ 95)
    (hx : ∀ d, loopDigit x = some d → b ≤ d)
    (pre : List Char) : ∀ (acc : Nat) (us : Bool),
    (∀ c ∈ pre, c.toNat ≠ 95 ∧ ∃ d, loopDigit c = some d ∧ d < b) →
    loopVal b pre acc < 2 ^ 64 →
    parseUintLoop b b0 ((2 ^ 64 - 1) / b + 1) (2 ^ 64 - 1) (pre ++ x :: rest) acc us
      = .inl (0, NumError.ErrSyntax) := by
  induction pre with
  | nil =>
    intro acc us _ _
    have hdig : ∀ o, loopDigit x = o →
        (if 48 ≤ x.toNat ∧ x.toNat ≤ 57 then some (x.toNat - 48)
         else if 97 ≤ lower x.toNat ∧ lower x.toNat ≤ 122 then some (lower x.toNat - 97 + 10)
         else none) = o := fun o h => h
    rw [List.nil_append, parseUintLoop]
    simp only [hx95, false_and, if_false]
    cases ho : loopDigit x with
    | none => rw [hdig _ ho]
    | some d =>
      rw [hdig _ ho]
      have := hx d ho
      simp only [ge_iff_le, this, if_true]
  | cons c t ih =>
    intro acc us hall hlt
    obtain ⟨h95, d, hd, hdb⟩ := hall c (List.mem_cons_self _ _)
    have ht : ∀ y ∈ t, y.toNat ≠ 95 ∧ ∃ d, loopDigit y = some d ∧ d < b :=
      fun y hy => hall y (List.mem_cons_of_mem _ hy)
    have hv : loopVal b (c :: t) acc = loopVal b t (b * acc + d) := by
      simp [loopVal, hd]
    rw [hv] at hlt
    have h1 : b * acc + d < 2 ^ 64 := lt_of_le_of_lt (loopVal_ge b t _ hb) hlt
    have hacc : acc < 2 ^ 64 :=
      lt_of_le_of_lt (le_trans (Nat.le_mul_of_pos_left acc hb) (Nat.le_add_right _ _)) h1
    rw [List.cons_append, parseUintLoop_step b b0 c _ acc us d hb hb36 h95 hd hdb, if_pos h1]
    exact ih _ us ht hlt

/-- Digits of the base `b` read after the number `acc` denote less than `(acc + 1) * b ^ k` for
`k` digits. -/
theorem loopVal_lt (b : Nat) (ds : List Char) : ∀ acc : Nat,
    (∀ c ∈ ds, ∃ d, loopDigit c = some d ∧ d < b) →
    loopVal b ds acc < (acc + 1) * b ^ ds.length := by
  induction ds with
  | nil => intro acc _; simp [loopVal]
  | cons c t ih =>
    intro acc hall
    obtain ⟨d, hd, hdb⟩ := hall c (List.mem_cons_self _ _)
    have ht : ∀ x ∈ t, ∃ d, loopDigit x = some d ∧ d < b :=
      fun x hx => hall x (List.mem_cons_of_mem _ hx)
    have hv : loopVal b (c :: t) acc = loopVal b t (b * acc + d) := by
      simp [loopVal, hd]
    rw [hv]
    have h1 := ih (b * acc + d) ht
    have h2 : (b * acc + d + 1) * b ^ t.length ≤ (acc + 1) * b ^ (c :: t).length := by
      rw [List.length_cons, pow_succ]
      have : b * acc + d + 1 ≤ (acc + 1) * b := by
        have : (acc + 1) * b = b * acc + b := by ring
        omega
      calc (b * acc + d + 1) * b ^ t.length ≤ (acc + 1) * b * b ^ t.length :=
            Nat.mul_le_mul_right _ this
        _ = (acc + 1) * (b ^ t.length * b) := by ring
    exact lt_of_lt_of_le h1 h2

/-- A decimal digit is not an underscore and counts as its value in the loop of `ParseUint`. -/
theorem loopDigit_decimal (c : Char) (h : 48 ≤ c.toNat ∧ c.toNat ≤ 57) :
    c.toNat ≠ 95 ∧ loopDigit c = some (c.toNat - 48) := by
  constructor
  · omega
  · simp [loopDigit, h]

/-- A hexadecimal digit is not an underscore and counts as its value, below 16, in the loop of
`ParseUint`. -/
theorem loopDigit_hex (c : Char) (h : (hexVal c).isSome = true) :
    c.toNat ≠ 95 ∧ ∃ d, loopDigit c = some d ∧ d < 16 ∧ (hexVal c).getD 0 = d := by
  obtain ⟨d, hd⟩ := Option.isSome_iff_exists.mp h
  obtain ⟨h95, hd16, hdig⟩ := hexVal_loop c d hd
  exact ⟨h95, d, hdig, hd16, by rw [hd]; rfl⟩

/-- Two digit valuations that agree on the characters of a string give the same number. -/
theorem foldl_digit_congr (b : Nat) (f g : Char → Nat) (ds : List Char)
    (h : ∀ c ∈ ds, f c = g c) : ∀ acc : Nat,
    ds.foldl (fun a c => b * a + f c) acc = ds.foldl (fun a c => b * a + g c) acc := by
  induction ds with
  | nil => intro acc; rfl
  | cons c t ih =>
    intro acc
    simp only [List.foldl_cons]
    rw [h c (List.mem_cons_self _ _)]
    exact ih (fun x hx => h x (List.mem_cons_of_mem _ hx)) _

/-- On decimal digits the number of the loop in base 10 is `digitsVal` and in base 8 it is
`octDigitsVal`. -/
theorem loopVal_decimal (ds : List Char) (h : AllDigits ds) :
    loopVal 10 ds 0 = digitsVal ds ∧ loopVal 8 ds 0 = octDigitsVal ds := by
  have e : ∀ c ∈ ds, (loopDigit c).getD 0 = c.toNat - 48 := by
    intro c hc
    rw [(loopDigit_decimal c (h c hc)).2]
    rfl
  exact ⟨foldl_digit_congr 10 _ _ ds e 0, foldl_digit_congr 8 _ _ ds e 0⟩

/-- On hexadecimal digits the number of the loop in base 16 is `hexDigitsVal`. -/
theorem loopVal_hex (ds : List Char) (h : ∀ c ∈ ds, (hexVal c).isSome = true) :
    loopVal 16 ds 0 = hexDigitsVal ds := by
  refine foldl_digit_congr 16 _ _ ds ?_ 0
  intro c hc
  obtain ⟨_, d, hd, _, hv⟩ := loopDigit_hex c (h c hc)
  rw [hd, hv]
  rfl

/-- `ParseUint` with base 0 and bit size 64 on a text that is not empty: the result of the digit
loop in the base that the text selects, with the test of the underscores. -/
theorem ParseUint_of_loop (s digits : List Char) (b : Nat) (hs : s ≠ [])
    (hbase : uintBase s 0 = some (b, digits)) :
    ParseUint s 0 64 =
      match parseUintLoop b true ((2 ^ 64 - 1) / b + 1) (2 ^ 64 - 1) digits 0 false with
      | .inl (v, e) => (v, some e)
      | .inr (n, underscores) =>
        if underscores = true ∧ underscoreOK s = false then (0, some NumError.ErrSyntax)
        else (n, none) := by
  unfold ParseUint
  simp only [hs, if_false, hbase]
  rfl

/-- In base 0 a zero followed by decimal digits selects base 8 and the digits after the zero. -/
theorem uintBase_octal (ds : List Char) (hne : ds ≠ []) (h : AllDigits ds) :
    uintBase ('0' :: ds) 0 = some (8, ds) := by
  cases ds with
  | nil => exact absurd rfl hne
  | cons p t =>
    cases t with
    | nil => simp [uintBase]
    | cons q r =>
      have hp := h p (List.mem_cons_self _ _)
      have hl : lower p.toNat = p.toNat := by
        generalize p.toNat = n at hp
        obtain ⟨ha, hb⟩ := hp
        interval_cases n <;> rfl
      have h1 : ¬ lower p.toNat = 98 := by omega
      have h2 : ¬ lower p.toNat = 111 := by omega
      have h3 : ¬ lower p.toNat = 120 := by omega
      simp [uintBase, h1, h2, h3]

/-- Octal digits are digits of base 8 without an underscore, and decimal digits. -/
theorem octal_valid (ds : List Char) (h : ∀ c ∈ ds, 48 ≤ c.toNat ∧ c.toNat ≤ 55) :
    (∀ c ∈ ds, c.toNat ≠ 95 ∧ ∃ d, loopDigit c = some d ∧ d < 8) ∧ AllDigits ds := by
  constructor
  · intro c hc
    have := h c hc
    obtain ⟨h95, hd⟩ := loopDigit_decimal c (by omega)
    exact ⟨h95, _, hd, by omega⟩
  · intro c hc
    have := h c hc
    omega

/-- `ParseUint` in base 0 reads a zero followed by octal digits as their value in base 8, when
that is below `2^64`, and returns the largest `uint64` with a range error otherwise. -/
theorem ParseUint_octal (ds : List Char) (hne : ds ≠ [])
    (h : ∀ c ∈ ds, 48 ≤ c.toNat ∧ c.toNat ≤ 55) :
    ParseUint ('0' :: ds) 0 64 =
      if octDigitsVal ds < 2 ^ 64 then (octDigitsVal ds, none)
      else (2 ^ 64 - 1, some NumError.ErrRange) := by
  obtain ⟨hv, hd⟩ := octal_valid ds h
  rw [ParseUint_of_loop _ ds 8 (by simp) (uintBase_octal ds hne hd)]
  rw [← (loopVal_decimal ds hd).2]
  by_cases hlt : loopVal 8 ds 0 < 2 ^ 64
  · rw [parseUintLoop_value 8 true (by decide) (by decide) ds 0 false hv hlt, if_pos hlt]
    simp
  · rw [parseUintLoop_range 8 true (by decide) (by decide) ds 0 false hv (by decide)
      (by omega), if_neg hlt]

/-- `ParseUint` in base 0 returns 0 with a syntax error on a zero followed by at most 21 octal
digits, a digit 8 or 9 and more decimal digits. -/
theorem ParseUint_octal_bad (pre rest : List Char) (x : Char)
    (h : ∀ c ∈ pre, 48 ≤ c.toNat ∧ c.toNat ≤ 55) (hx : 56 ≤ x.toNat ∧ x.toNat ≤ 57)
    (hrest : AllDigits rest) (hlen : pre.length ≤ 21) :
    ParseUint ('0' :: (pre ++ x :: rest)) 0 64 = (0, some NumError.ErrSyntax) := by
  obtain ⟨hv, hd⟩ := octal_valid pre h
  have hall : AllDigits (pre ++ x :: rest) := by
    intro c hc
    rcases List.mem_append.mp hc with h1 | h1
    · exact hd c h1
    · rcases List.mem_cons.mp h1 with h2 | h2
      · subst h2; omega
      · exact hrest c h2
  have hbound : loopVal 8 pre 0 < 2 ^ 64 := by
    have h1 := loopVal_lt 8 pre 0 (fun c hc => (hv c hc).2)
    have h2 : 8 ^ pre.length ≤ 8 ^ 21 := Nat.pow_le_pow_right (by decide) hlen
    norm_num at h1 h2 ⊢
    omega
  obtain ⟨hx95, hxd⟩ := loopDigit_decimal x (by omega)
  rw [ParseUint_of_loop _ (pre ++ x :: rest) 8 (by simp) (uintBase_octal _ (by simp) hall)]
  rw [parseUintLoop_bad_digit 8 true (by decide) (by decide) x rest hx95
    (by
      intro d hd'
      rw [hxd] at hd'
      injection hd' with hd'
      omega) pre 0 false hv hbound]

/-- `ParseUint` in base 0 returns the largest `uint64` with a range error on decimal digits
without a leading zero that denote `2^64` or more. -/
theorem ParseUint_digits_range (ds : List Char) (hne : ds ≠ []) (hall : AllDigits ds)
    (hz : ∀ c t, ds ≠ '0' :: c :: t) (hval : 2 ^ 64 ≤ digitsVal ds) :
    ParseUint ds 0 64 = (2 ^ 64 - 1, some NumError.ErrRange) := by
  have hbase : uintBase ds 0 = some (10, ds) := by
    cases ds with
    | nil => exact absurd rfl hne
    | cons c t =>
      by_cases hc0 : c = '0'
      · subst hc0
        cases t with
        | nil => revert hval; decide
        | cons c1 t1 => exact absurd rfl (hz c1 t1)
      · unfold uintBase
        simp
        split
        · rename_i h; simp at h; exact absurd h.1 hc0
        · rfl
  have hv : ∀ c ∈ ds, c.toNat ≠ 95 ∧ ∃ d, loopDigit c = some d ∧ d < 10 := by
    intro c hc
    have := hall c hc
    obtain ⟨h95, hd⟩ := loopDigit_decimal c this
    exact ⟨h95, _, hd, by omega⟩
  rw [ParseUint_of_loop _ ds 10 hne hbase]
  rw [parseUintLoop_range 10 true (by decide) (by decide) ds 0 false hv (by decide)
    (by rw [(loopVal_decimal ds hall).1]; exact hval)]

/-- `ParseUint` in base 0 returns the largest `uint64` with a range error on `0x` (or `0X`)
followed by hexadecimal digits that denote `2^64` or more. -/
theorem ParseUint_hex_range (x : Char) (ds : List Char) (hx : x = 'x' ∨ x = 'X') (hne : ds ≠ [])
    (hall : ∀ c ∈ ds, (hexVal c).isSome = true) (hval : 2 ^ 64 ≤ hexDigitsVal ds) :
    ParseUint ('0' :: x :: ds) 0 64 = (2 ^ 64 - 1, some NumError.ErrRange) := by
  cases ds with
  | nil => exact absurd rfl hne
  | cons c t =>
    have hbase : uintBase ('0' :: x :: c :: t) 0 = some (16, c :: t) := by
      rcases hx with rfl | rfl <;> simp [uintBase, lower]
    have hv : ∀ y ∈ c :: t, y.toNat ≠ 95 ∧ ∃ d, loopDigit y = some d ∧ d < 16 := by
      intro y hy
      obtain ⟨h95, d, hd, hd16, _⟩ := loopDigit_hex y (hall y hy)
      exact ⟨h95, d, hd, hd16⟩
    rw [ParseUint_of_loop _ (c :: t) 16 (by simp) hbase]
    rw [parseUintLoop_range 16 true (by decide) (by decide) (c :: t) 0 false hv (by decide)
      (by rw [loopVal_hex _ hall]; exact hval)]

/-- `ParseInt` on an optional sign followed by a text for which `ParseUint` returns a number
whose signed value is out of the range of `int64`, with no error or a range error, returns the
bound of `int64` on the side of the sign with a range error. -/
theorem ParseInt_signed_range (s : String) (ds : List Char) (neg : Bool) (v : Nat)
    (e : Option NumError)
    (hs : splitSign s.data = (neg, ds)) (hne : ds ≠ [])
    (hsign : ∀ c t, ds = c :: t → c ≠ '-' ∧ c ≠ '+')
    (hu : ParseUint ds 0 64 = (v, e)) (he : e = none ∨ e = some NumError.ErrRange)
    (hout : if neg = true then 2 ^ 63 < v else 2 ^ 63 ≤ v) :
    ParseInt s 0 64 = (if neg = true then -(2 : Int) ^ 63 else (2 : Int) ^ 63 - 1,
      some NumError.ErrRange) := by
  have hgo : ¬ (e ≠ none ∧ e ≠ some NumError.ErrRange) := by
    rcases he with rfl | rfl <;> simp
  unfold ParseInt
  cases hd : s.data with
  | nil =>
    rw [hd] at hs
    simp [splitSign] at hs
    exact (hne hs.2).elim
  | cons c t =>
    rw [hd] at hs
    unfold splitSign at hs
    by_cases hm : c = '-'
    · subst hm
      simp at hs
      obtain ⟨h1, h2⟩ := hs
      subst h1 h2
      simp only [if_true] at hout
      have hout2 : ¬ (v ≤ 2 ^ 63) := by omega
      norm_num at hout hout2
      simp [hu, hgo]
      simp [hout]
    · by_cases hp : c = '+'
      · subst hp
        simp at hs
        obtain ⟨h1, h2⟩ := hs
        subst h1 h2
        simp only [Bool.false_eq_true, if_false] at hout
        norm_num at hout
        simp [hu, hgo]
        simp [hout]
      · simp [hm, hp] at hs
        obtain ⟨h1, h2⟩ := hs
        subst h1 h2
        simp only [Bool.false_eq_true, if_false] at hout
        norm_num at hout
        simp [hm, hp, hu, hgo]
        simp [hout]

/-- `ParseInt` on an optional sign followed by a text for which `ParseUint` returns a syntax
error returns 0 with the syntax error. -/
theorem ParseInt_signed_syntax (s : String) (ds : List Char) (neg : Bool) (v : Nat)
    (hs : splitSign s.data = (neg, ds)) (hne : ds ≠ [])
    (hsign : ∀ c t, ds = c :: t → c ≠ '-' ∧ c ≠ '+')
    (hu : ParseUint ds 0 64 = (v, some NumError.ErrSyntax)) :
    ParseInt s 0 64 = (0, some NumError.ErrSyntax) := by
  unfold ParseInt
  cases hd : s.data with
  | nil => rfl
  | cons c t =>
    rw [hd] at hs
    unfold splitSign at hs
    by_cases hm : c = '-'
    · subst hm
      simp at hs
      obtain ⟨h1, h2⟩ := hs
      subst h1 h2
      simp [hu]
    · by_cases hp : c = '+'
      · subst hp
        simp at hs
        obtain ⟨h1, h2⟩ := hs
        subst h1 h2
        simp [hu]
      · simp [hm, hp] at hs
        obtain ⟨h1, h2⟩ := hs
        subst h1 h2
        simp [hm, hp, hu]

/-- `ParseInt` on an optional sign followed by digits that `ParseUint` reads as `v` (with the
range error from `2^64` on): the signed value when it is in the range of `int64`, and the
nearest bound of `int64` with a range error otherwise. -/
theorem ParseInt_of_unsigned (s : String) (ds : List Char) (neg : Bool) (v : Nat)
    (hs : splitSign s.data = (neg, ds)) (hne : ds ≠ [])
    (hsign : ∀ c t, ds = c :: t → c ≠ '-' ∧ c ≠ '+')
    (hu : ParseUint ds 0 64 =
      if v < 2 ^ 64 then (v, none) else (2 ^ 64 - 1, some NumError.ErrRange)) :
    ParseInt s 0 64 =
      if -(2 : Int) ^ 63 ≤ (if neg = true then -(v : Int) else (v : Int)) ∧
          (if neg = true then -(v : Int) else (v : Int)) < (2 : Int) ^ 63 then
        (if neg = true then -(v : Int) else (v : Int), none)
      else (if (if neg = true then -(v : Int) else (v : Int)) < 0 then -(2 : Int) ^ 63
        else (2 : Int) ^ 63 - 1, some NumError.ErrRange) := by
  by_cases hin : -(2 : Int) ^ 63 ≤ (if neg = true then -(v : Int) else (v : Int)) ∧
      (if neg = true then -(v : Int) else (v : Int)) < (2 : Int) ^ 63
  · rw [if_pos hin]
    have hv : v < 2 ^ 64 := by
      cases neg <;> simp at hin <;> omega
    rw [if_pos hv] at hu
    exact ParseInt_signed s ds neg v hs hne hsign hu hin
  · rw [if_neg hin]
    have hneg : (if (if neg = true then -(v : Int) else (v : Int)) < 0 then -(2 : Int) ^ 63
        else (2 : Int) ^ 63 - 1) = if neg = true then -(2 : Int) ^ 63 else (2 : Int) ^ 63 - 1 := by
      cases neg
      · simp at hin ⊢
      · simp at hin ⊢
        intro h
        omega
    rw [hneg]
    by_cases hv : v < 2 ^ 64
    · rw [if_pos hv] at hu
      refine ParseInt_signed_range s ds neg v none hs hne hsign hu (Or.inl rfl) ?_
      cases neg
      · simp at hin ⊢
        omega
      · simp at hin ⊢
        omega
    · rw [if_neg hv] at hu
      refine ParseInt_signed_range s ds neg (2 ^ 64 - 1) _ hs hne hsign hu (Or.inr rfl) ?_
      cases neg <;> simp

/-- A string that passes the test of octal digits has characters from 0 to 7 only. -/
theorem octal_of_all (ds : List Char) (h : ds.all isOctalDigit = true) :
    ∀ c ∈ ds, 48 ≤ c.toNat ∧ c.toNat ≤ 55 := by
  intro c hc
  have := List.all_eq_true.mp h c hc
  simpa [isOctalDigit] using this

/-- A string of decimal digits does not start with a sign. -/
theorem digit_not_sign (ds : List Char) (h : AllDigits ds) :
    ∀ c t, ds = c :: t → c ≠ '-' ∧ c ≠ '+' := by
  intro c t hds
  have := h c (by rw [hds]; exact List.mem_cons_self _ _)
  constructor <;> (intro hc; subst hc; revert this; decide)

/-- What `ParseInt` returns in base 0 for a base-10 numeral without a leading zero, a
hexadecimal numeral with the prefix 0x, or a numeral with a leading zero and digits below 8,
with its value `n` in base 10, 16 or 8: `n` without error when `n` is in the range of `int64`,
and otherwise the nearest bound of `int64` with a range error. -/
theorem ParseInt_numeral (s : String) (n : Int)
    (h : (base10Value s = some n ∧ hasLeadingZero s = false) ∨ base16Value s = some n ∨
      base8Value s = some n) :
    ParseInt s 0 64 =
      if -(2 : Int) ^ 63 ≤ n ∧ n < (2 : Int) ^ 63 then (n, none)
      else (if n < 0 then -(2 : Int) ^ 63 else (2 : Int) ^ 63 - 1, some NumError.ErrRange) := by
  cases hsp : splitSign s.data with
  | mk neg ds =>
  rcases h with ⟨h, hz⟩ | h | h
  · unfold base10Value at h
    rw [hsp] at h
    simp only at h
    by_cases hc : ds ≠ [] ∧ ds.all isDecimalDigit = true
    · rw [if_pos hc] at h
      obtain ⟨hne, hall⟩ := hc
      injection h with h
      unfold hasLeadingZero at hz
      rw [hsp] at hz
      simp only at hz
      have hd := allDigits_of_all ds hall
      have hlead : ∀ c t, ds ≠ '0' :: c :: t := by
        intro c t hds
        subst hds
        simp at hz
      have hu : ParseUint ds 0 64 = if digitsVal ds < 2 ^ 64 then (digitsVal ds, none)
          else (2 ^ 64 - 1, some NumError.ErrRange) := by
        by_cases hv : digitsVal ds < 2 ^ 64
        · rw [if_pos hv]
          exact ParseUint_digits ds hne hd hlead hv
        · rw [if_neg hv]
          exact ParseUint_digits_range ds hne hd hlead (by omega)
      rw [← h]
      exact ParseInt_of_unsigned s ds neg (digitsVal ds) hsp hne (digit_not_sign ds hd) hu
    · rw [if_neg hc] at h
      cases h
  · unfold base16Value at h
    rw [hsp] at h
    simp only at h
    cases ds with
    | nil => cases h
    | cons z t =>
      cases t with
      | nil => cases h
      | cons x hs =>
        simp only at h
        by_cases hc : z = '0' ∧ (x = 'x' ∨ x = 'X') ∧ hs ≠ [] ∧
            hs.all (fun c => (hexVal c).isSome) = true
        · rw [if_pos hc] at h
          obtain ⟨hz, hx, hne, hall⟩ := hc
          subst hz
          injection h with h
          have hall' : ∀ c ∈ hs, (hexVal c).isSome = true :=
            fun c hc => List.all_eq_true.mp hall c hc
          have hu : ParseUint ('0' :: x :: hs) 0 64 =
              if hexDigitsVal hs < 2 ^ 64 then (hexDigitsVal hs, none)
              else (2 ^ 64 - 1, some NumError.ErrRange) := by
            by_cases hv : hexDigitsVal hs < 2 ^ 64
            · rw [if_pos hv]
              exact ParseUint_hex x hs hx hne hall' hv
            · rw [if_neg hv]
              exact ParseUint_hex_range x hs hx hne hall' (by omega)
          have hsign : ∀ c t, '0' :: x :: hs = c :: t → c ≠ '-' ∧ c ≠ '+' := by
            intro c t hds
            injection hds with h1 h2
            subst h1
            decide
          rw [← h]
          exact ParseInt_of_unsigned s _ neg (hexDigitsVal hs) hsp (by simp) hsign hu
        · rw [if_neg hc] at h
          cases h
  · unfold base8Value at h
    rw [hsp] at h
    simp only at h
    cases ds with
    | nil => cases h
    | cons z t =>
      simp only at h
      by_cases hc : z = '0' ∧ t ≠ [] ∧ t.all isOctalDigit = true
      · rw [if_pos hc] at h
        obtain ⟨hz, hne, hall⟩ := hc
        subst hz
        injection h with h
        have hu := ParseUint_octal t hne (octal_of_all t hall)
        have hsign : ∀ c r, '0' :: t = c :: r → c ≠ '-' ∧ c ≠ '+' := by
          intro c r hds
          injection hds with h1 h2
          subst h1
          decide
        rw [← h]
        exact ParseInt_of_unsigned s _ neg (octDigitsVal t) hsp (by simp) hsign hu
      · rw [if_neg hc] at h
        cases h

/-- A numeral with a leading zero is neither of the infinity strings. -/
theorem octal_ne_infinity (s : String) (n : Int) (h : base8Value s = some n) :
    s ≠ "Infinity" ∧ s ≠ "-Infinity" := by
  have h1 : base8Value "Infinity" = none := by decide
  have h2 : base8Value "-Infinity" = none := by decide
  constructor
  · intro hs
    rw [hs, h1] at h
    cases h
  · intro hs
    rw [hs, h2] at h
    cases h

/-- A string of decimal digits that are not all below 8 splits at its first digit 8 or 9, after
digits below 8. -/
theorem split_at_bad_octal (l : List Char) (hd : AllDigits l)
    (hno : l.all isOctalDigit = false) :
    ∃ pre x rest, l = pre ++ x :: rest ∧ (∀ c ∈ pre, 48 ≤ c.toNat ∧ c.toNat ≤ 55) ∧
      (56 ≤ x.toNat ∧ x.toNat ≤ 57) ∧ AllDigits rest := by
  induction l with
  | nil => simp at hno
  | cons c t ih =>
    have hc := hd c (List.mem_cons_self _ _)
    have ht : AllDigits t := fun x hx => hd x (List.mem_cons_of_mem _ hx)
    by_cases ho : c.toNat ≤ 55
    · have hco : isOctalDigit c = true := by simp [isOctalDigit, hc.1, ho]
      have hno' : t.all isOctalDigit = false := by
        simpa [List.all_cons, hco] using hno
      obtain ⟨pre, x, rest, e, h1, h2, h3⟩ := ih ht hno'
      refine ⟨c :: pre, x, rest, by rw [e]; rfl, ?_, h2, h3⟩
      intro y hy
      rcases List.mem_cons.mp hy with h | h
      · subst h; exact ⟨hc.1, ho⟩
      · exact h1 y h
    · exact ⟨[], c, t, rfl, by simp, by omega, ht⟩

/-- `ParseInt` in base 0 returns 0 with a syntax error for a base-10 numeral with a leading zero
that has a digit 8 or 9 and at most 22 digits. -/
theorem ParseInt_leading_zero_bad (s : String) (n : Int) (h10 : base10Value s = some n)
    (hz : hasLeadingZero s = true) (h8 : base8Value s = none)
    (hlen : (splitSign s.data).2.length ≤ 22) :
    ParseInt s 0 64 = (0, some NumError.ErrSyntax) := by
  cases hsp : splitSign s.data with
  | mk neg ds =>
  unfold base10Value at h10
  unfold hasLeadingZero at hz
  unfold base8Value at h8
  rw [hsp] at h10 hz h8 hlen
  simp only at h10 hz h8 hlen
  by_cases hc : ds ≠ [] ∧ ds.all isDecimalDigit = true
  · obtain ⟨hne, hall⟩ := hc
    have hd := allDigits_of_all ds hall
    cases ds with
    | nil => exact absurd rfl hne
    | cons z t =>
      cases t with
      | nil => simp at hz
      | cons c r =>
        simp only [beq_iff_eq] at hz
        subst hz
        have hdt : AllDigits (c :: r) := fun x hx => hd x (List.mem_cons_of_mem _ hx)
        have hno : (c :: r).all isOctalDigit = false := by
          by_contra hcon
          have hyes : (c :: r).all isOctalDigit = true := by simpa using hcon
          simp [hyes] at h8
        obtain ⟨pre, x, rest, e, h1, h2, h3⟩ := split_at_bad_octal (c :: r) hdt hno
        have hl : pre.length ≤ 21 := by
          have := congrArg List.length e
          simp only [List.length_cons, List.length_append] at this hlen
          omega
        have hu := ParseUint_octal_bad pre rest x h1 h2 h3 hl
        rw [← e] at hu
        exact ParseInt_signed_syntax s _ neg 0 hsp (by simp) (digit_not_sign _ hd) hu
  · rw [if_neg hc] at h10
    cases h10

/-! ## Lemmas: the fields of a normalised record -/

/-- Decoding an integer into a field of a record leaves that integer in the field. -/
theorem set_int_value (r r1 : UserObj) (f : UserObjField) (n : Int)
    (h : setUserObjField r f (JVal.int n) = .ok r1) : r1.intAt f = n := by
  by_cases hi : inInt64 n = true <;> cases f <;>
    simp [setUserObjField, intOfJVal, boolOfJVal, stringOfJVal, Except.map, hi] at h <;>
    subst h <;> simp [UserObj.intAt]

/-- When every entry of a key holds the integer n and there is such an entry (or the field
starts at n), the decoded record holds n in the field of that key. -/
theorem decode_positive_int (f : UserObjField) (n : Int) (es : List (String × JVal)) :
    ∀ r0 r : UserObj, (∀ kv ∈ es, kv.1 ∈ allNames) → decodeUserObj es r0 = .ok r →
      (∀ w, (f.jsonName, w) ∈ es → w = JVal.int n) →
      (r0.intAt f = n ∨ ∃ w, (f.jsonName, w) ∈ es) → r.intAt f = n := by
  induction es with
  | nil =>
    intro r0 r _ h _ h0
    simp [decodeUserObj] at h
    subst h
    simpa using h0
  | cons e rest ih =>
    intro r0 r hk h hall h0
    obtain ⟨k, v⟩ := e
    have hk' : ∀ kv ∈ rest, kv.1 ∈ allNames := fun kv hkv => hk kv (List.mem_cons_of_mem _ hkv)
    have hall' : ∀ w, (f.jsonName, w) ∈ rest → w = JVal.int n :=
      fun w hw => hall w (List.mem_cons_of_mem _ hw)
    have hkn := hk (k, v) (List.mem_cons_self _ _)
    unfold decodeUserObj at h
    cases hf : findField UserObjField.jsonName userObjFields k with
    | none =>
      rw [hf] at h
      apply ih r0 r hk' h hall'
      rcases h0 with h0 | ⟨w, hw⟩
      · exact Or.inl h0
      · rcases List.mem_cons.mp hw with hw | hw
        · injection hw with hw1 hw2
          rw [← hw1, findField_jsonName] at hf
          simp at hf
        · exact Or.inr ⟨w, hw⟩
    | some g =>
      rw [hf] at h
      have hn := findField_exact k hkn g hf
      cases hs : setUserObjField r0 g v with
      | error e => simp [hs] at h
      | ok r1 =>
        simp only [hs] at h
        apply ih r1 r hk' h hall'
        by_cases hg : g = f
        · left
          subst hg
          have hv : v = JVal.int n := hall v (by rw [hn]; exact List.mem_cons_self _ _)
          subst hv
          exact set_int_value r0 r1 g n hs
        · rcases h0 with h0 | ⟨w, hw⟩
          · left
            rcases set_intAt r0 r1 g f v hs with h2 | ⟨h2, _⟩
            · exact h2.trans h0
            · exact absurd h2 hg
          · rcases List.mem_cons.mp hw with hw | hw
            · injection hw with hw1 hw2
              rw [← hw1, findField_jsonName] at hf
              injection hf with hf
              exact absurd hf.symm hg
            · exact Or.inr ⟨w, hw⟩

/-- After the assignment `m[k] = v` the entries of key k are exactly the entry with value v. -/
theorem mapSet_entry (m : ObjMap) (k : String) (v w : JVal) :
    (k, w) ∈ mapSet m k v ↔ w = v := by
  rw [mem_mapSet]
  constructor
  · rintro (⟨_, h⟩ | h)
    · exact absurd rfl h
    · injection h
  · intro h
    exact Or.inr (by rw [h])

/-- On a string that is neither infinity string, a block of lines 119-158 stores the value
`ParseInt` returns. -/
theorem fixInfinity_string (m : ObjMap) (key pos neg s : String)
    (hget : mapGet m key = some (JVal.str s)) (h1 : s ≠ "Infinity") (h2 : s ≠ "-Infinity") :
    fixInfinity m key pos neg = mapSet m key (JVal.int (ParseInt s 0 64).1) := by
  simp [fixInfinity, hget, h1, h2]

/-- On a rank that is a string, lines 159-162 store the value `ParseInt` returns. -/
theorem fixRank_string (m : ObjMap) (s : String) (hget : mapGet m "rank" = some (JVal.str s)) :
    fixRank m = mapSet m "rank" (JVal.int (ParseInt s 0 64).1) := by
  simp [fixRank, hget]

/-- The blocks of `fixTypesToStruct` that run before the block of a key do not change the value
of that key. -/
theorem mapGet_fixedMap_stages (m : ObjMap) :
    mapGet (fixInfinity m "total" "infinite_total" "n-infinite_total") "cash"
      = mapGet m "cash" ∧
    mapGet (fixInfinity (fixInfinity m "total" "infinite_total" "n-infinite_total")
      "cash" "infinite_cash" "n-infinite_cash") "bank" = mapGet m "bank" ∧
    mapGet (fixInfinity (fixInfinity (fixInfinity m "total" "infinite_total" "n-infinite_total")
      "cash" "infinite_cash" "n-infinite_cash") "bank" "infinite_bank" "n-infinite_bank") "rank"
      = mapGet m "rank" := by
  refine ⟨?_, ?_, ?_⟩
  · exact mapGet_fixInfinity_ne _ _ _ _ _ (by decide) (by decide) (by decide)
  · rw [mapGet_fixInfinity_ne _ _ _ _ _ (by decide) (by decide) (by decide),
      mapGet_fixInfinity_ne _ _ _ _ _ (by decide) (by decide) (by decide)]
  · rw [mapGet_fixInfinity_ne _ _ _ _ _ (by decide) (by decide) (by decide),
      mapGet_fixInfinity_ne _ _ _ _ _ (by decide) (by decide) (by decide),
      mapGet_fixInfinity_ne _ _ _ _ _ (by decide) (by decide) (by decide)]

/-- The entries of total and of its two flags in the fixed map are those after the block of
total. -/
theorem fixedMap_total_iff (m : ObjMap) (q : String) (w : JVal)
    (hq : q = "total" ∨ q = "infinite_total" ∨ q = "n-infinite_total") :
    (q, w) ∈ fixedMap m ↔ (q, w) ∈ fixInfinity m "total" "infinite_total" "n-infinite_total" := by
  unfold fixedMap
  have hne : q ≠ "rank" ∧ q ≠ "bank" ∧ q ≠ "infinite_bank" ∧ q ≠ "n-infinite_bank" ∧
      q ≠ "cash" ∧ q ≠ "infinite_cash" ∧ q ≠ "n-infinite_cash" := by
    rcases hq with h | h | h <;> subst h <;> decide
  rw [fixRank_untouched _ _ _ hne.1,
    fixInfinity_untouched _ _ _ _ _ _ hne.2.1 hne.2.2.1 hne.2.2.2.1,
    fixInfinity_untouched _ _ _ _ _ _ hne.2.2.2.2.1 hne.2.2.2.2.2.1 hne.2.2.2.2.2.2]

/-- The entries of cash and of its two flags in the fixed map are those after the block of cash.
-/
theorem fixedMap_cash_iff (m : ObjMap) (q : String) (w : JVal)
    (hq : q = "cash" ∨ q = "infinite_cash" ∨ q = "n-infinite_cash") :
    (q, w) ∈ fixedMap m ↔
      (q, w) ∈ fixInfinity (fixInfinity m "total" "infinite_total" "n-infinite_total")
        "cash" "infinite_cash" "n-infinite_cash" := by
  unfold fixedMap
  have hne : q ≠ "rank" ∧ q ≠ "bank" ∧ q ≠ "infinite_bank" ∧ q ≠ "n-infinite_bank" := by
    rcases hq with h | h | h <;> subst h <;> decide
  rw [fixRank_untouched _ _ _ hne.1,
    fixInfinity_untouched _ _ _ _ _ _ hne.2.1 hne.2.2.1 hne.2.2.2]

/-- The entries of bank and of its two flags in the fixed map are those after the block of bank.
-/
theorem fixedMap_bank_iff (m : ObjMap) (q : String) (w : JVal)
    (hq : q = "bank" ∨ q = "infinite_bank" ∨ q = "n-infinite_bank") :
    (q, w) ∈ fixedMap m ↔
      (q, w) ∈ fixInfinity
        (fixInfinity (fixInfinity m "total" "infinite_total" "n-infinite_total")
          "cash" "infinite_cash" "n-infinite_cash")
        "bank" "infinite_bank" "n-infinite_bank" := by
  unfold fixedMap
  have hne : q ≠ "rank" := by
    rcases hq with h | h | h <;> subst h <;> decide
  rw [fixRank_untouched _ _ _ hne]

/-- When the fixed map holds exactly the integer n at the key of a field, the record decoded
from it holds n in that field. -/
theorem decoded_int_field (f : UserObjField) (objmap : ObjMap) (r : UserObj) (n : Int)
    (hkeys : ∀ kv ∈ objmap, kv.1 ∈ fiveKeys)
    (hdec : decodeUserObj (sortByKey (fixedMap objmap)) {} = .ok r)
    (h : ∀ w, (f.jsonName, w) ∈ fixedMap objmap ↔ w = JVal.int n) : r.intAt f = n := by
  have hk : ∀ kv ∈ sortByKey (fixedMap objmap), kv.1 ∈ allNames :=
    fun kv h => fixedMap_keys objmap hkeys kv ((mem_sortByKey _ kv).mp h)
  refine decode_positive_int f n _ {} r hk hdec ?_ (Or.inr ⟨JVal.int n, ?_⟩)
  · intro w hw
    exact (h w).mp ((mem_sortByKey _ _).mp hw)
  · exact (mem_sortByKey _ _).mpr ((h _).mpr rfl)

/-- For a body that decodes to an object with keys among the five and that is normalised without
error, a cash, bank or total that is a string other than the infinity strings, and a rank that
is any string, give the field the value that `ParseInt` returns for the string in base 0. -/
theorem fixTypesToStruct_string_fields (data : String) (objmap : ObjMap) (r : UserObj)
    (hdec : unmarshalObjmap data = .ok objmap)
    (hkeys : ∀ kv ∈ objmap, kv.1 ∈ fiveKeys)
    (hok : fixTypesToStruct data = (r, none)) (s : String) :
    (mapGet objmap "cash" = some (JVal.str s) → s ≠ "Infinity" → s ≠ "-Infinity" →
      r.Cash = (ParseInt s 0 64).1) ∧
    (mapGet objmap "bank" = some (JVal.str s) → s ≠ "Infinity" → s ≠ "-Infinity" →
      r.Bank = (ParseInt s 0 64).1) ∧
    (mapGet objmap "total" = some (JVal.str s) → s ≠ "Infinity" → s ≠ "-Infinity" →
      r.Total = (ParseInt s 0 64).1) ∧
    (mapGet objmap "rank" = some (JVal.str s) → r.Rank = (ParseInt s 0 64).1) := by
  replace hok := fixTypesToStruct_eq data objmap r hdec hok
  obtain ⟨g1, g2, g3⟩ := mapGet_fixedMap_stages objmap
  refine ⟨?_, ?_, ?_, ?_⟩
  · intro hget h1 h2
    refine decoded_int_field .Cash objmap r _ hkeys hok ?_
    intro w
    rw [show UserObjField.Cash.jsonName = "cash" from rfl,
      fixedMap_cash_iff _ _ _ (Or.inl rfl),
      fixInfinity_string _ _ _ _ s (g1.trans hget) h1 h2, mapSet_entry]
  · intro hget h1 h2
    refine decoded_int_field .Bank objmap r _ hkeys hok ?_
    intro w
    rw [show UserObjField.Bank.jsonName = "bank" from rfl,
      fixedMap_bank_iff _ _ _ (Or.inl rfl),
      fixInfinity_string _ _ _ _ s (g2.trans hget) h1 h2, mapSet_entry]
  · intro hget h1 h2
    refine decoded_int_field .Total objmap r _ hkeys hok ?_
    intro w
    rw [show UserObjField.Total.jsonName = "total" from rfl,
      fixedMap_total_iff _ _ _ (Or.inl rfl),
      fixInfinity_string _ _ _ _ s hget h1 h2, mapSet_entry]
  · intro hget
    refine decoded_int_field .Rank objmap r _ hkeys hok ?_
    intro w
    rw [show UserObjField.Rank.jsonName = "rank" from rfl]
    unfold fixedMap
    rw [fixRank_string _ s (g3.trans hget), mapSet_entry]

/-- For a body that decodes to an object with keys among the five and that is normalised without
error, a string other than the infinity strings for which `ParseInt` returns the value `v` in
base 0 gives the field cash, bank, total or rank the value `v`. -/
theorem fixTypesToStruct_parsed_fields (data : String) (objmap : ObjMap) (r : UserObj)
    (hdec : unmarshalObjmap data = .ok objmap)
    (hkeys : ∀ kv ∈ objmap, kv.1 ∈ fiveKeys)
    (hok : fixTypesToStruct data = (r, none)) (s : String) (v : Int)
    (hp : (ParseInt s 0 64).1 = v) (hne : s ≠ "Infinity" ∧ s ≠ "-Infinity") :
    (mapGet objmap "cash" = some (JVal.str s) → r.Cash = v) ∧
    (mapGet objmap "bank" = some (JVal.str s) → r.Bank = v) ∧
    (mapGet objmap "total" = some (JVal.str s) → r.Total = v) ∧
    (mapGet objmap "rank" = some (JVal.str s) → r.Rank = v) := by
  obtain ⟨f1, f2, f3, f4⟩ := fixTypesToStruct_string_fields data objmap r hdec hkeys hok s
  rw [hp] at f1 f2 f3 f4
  exact ⟨fun h => f1 h hne.1 hne.2, fun h => f2 h hne.1 hne.2, fun h => f3 h hne.1 hne.2, f4⟩

/-- A flag that is absent before a block of lines 119-158 is present after it only when the
value of the block's key is the matching infinity string. -/
theorem fixInfinity_flag_origin (m : ObjMap) (key pos neg : String) (w : JVal)
    (hpos : ∀ x, (pos, x) ∉ m) (hneg : ∀ x, (neg, x) ∉ m)
    (h1 : key ≠ pos) (h2 : key ≠ neg) (h3 : pos ≠ neg) :
    ((pos, w) ∈ fixInfinity m key pos neg → mapGet m key = some (JVal.str "Infinity")) ∧
    ((neg, w) ∈ fixInfinity m key pos neg → mapGet m key = some (JVal.str "-Infinity")) := by
  rcases fixInfinity_cases m key pos neg with h | ⟨hg, h⟩ | ⟨hg, h⟩ | ⟨v, h⟩
  · rw [h]
    exact ⟨fun hm => absurd hm (hpos w), fun hm => absurd hm (hneg w)⟩
  · rw [h]
    refine ⟨fun _ => hg, fun hm => ?_⟩
    rcases (mem_mapSet _ _ _ _).mp hm with ⟨hm, _⟩ | hm
    · rcases (mem_mapSet _ _ _ _).mp hm with ⟨hm, _⟩ | hm
      · exact absurd hm (hneg w)
      · injection hm with hm
        exact absurd hm.symm h2
    · injection hm with hm
      exact absurd hm.symm h3
  · rw [h]
    refine ⟨fun hm => ?_, fun _ => hg⟩
    rcases (mem_mapSet _ _ _ _).mp hm with ⟨hm, _⟩ | hm
    · rcases (mem_mapSet _ _ _ _).mp hm with ⟨hm, _⟩ | hm
      · exact absurd hm (hpos w)
      · injection hm with hm
        exact absurd hm.symm h1
    · injection hm with hm
      exact absurd hm h3
  · rw [h]
    constructor
    · intro hm
      rcases (mem_mapSet _ _ _ _).mp hm with ⟨hm, _⟩ | hm
      · exact absurd hm (hpos w)
      · injection hm with hm
        exact absurd hm.symm h1
    · intro hm
      rcases (mem_mapSet _ _ _ _).mp hm with ⟨hm, _⟩ | hm
      · exact absurd hm (hneg w)
      · injection hm with hm
        exact absurd hm.symm h2

/-- For a body that decodes to an object with keys among the five and that is normalised without
error, each infinite flag of the record is set only when its own field is the matching infinity
string. -/
theorem fixTypesToStruct_flag_origin (data : String) (objmap : ObjMap) (r : UserObj)
    (hdec : unmarshalObjmap data = .ok objmap)
    (hkeys : ∀ kv ∈ objmap, kv.1 ∈ fiveKeys)
    (hok : fixTypesToStruct data = (r, none)) :
    (r.CashInfinite = true → mapGet objmap "cash" = some (JVal.str "Infinity")) ∧
    (r.CashNinfinite = true → mapGet objmap "cash" = some (JVal.str "-Infinity")) ∧
    (r.BankInfinite = true → mapGet objmap "bank" = some (JVal.str "Infinity")) ∧
    (r.BankNinfinite = true → mapGet objmap "bank" = some (JVal.str "-Infinity")) ∧
    (r.Infinite = true → mapGet objmap "total" = some (JVal.str "Infinity")) ∧
    (r.Ninfinite = true → mapGet objmap "total" = some (JVal.str "-Infinity")) := by
  replace hok := fixTypesToStruct_eq data objmap r hdec hok
  have hk : ∀ kv ∈ sortByKey (fixedMap objmap), kv.1 ∈ allNames :=
    fun kv h => fixedMap_keys objmap hkeys kv ((mem_sortByKey _ kv).mp h)
  obtain ⟨g1, g2, _⟩ := mapGet_fixedMap_stages objmap
  have hflag : ∀ f : UserObjField, r.boolAt f = true →
      (f.jsonName, JVal.bool true) ∈ fixedMap objmap := by
    intro f h
    rcases decode_origin_bool f _ {} r hk hok with h1 | h1
    · rw [zero_boolAt, h] at h1; simp at h1
    · rw [h] at h1; exact (mem_sortByKey _ _).mp h1
  have no0 : ∀ q w, q ∉ fiveKeys → (q, w) ∉ objmap := fun q w hq hm => hq (hkeys (q, w) hm)
  have no1 : ∀ q w, q ∉ fiveKeys → q ≠ "infinite_total" → q ≠ "n-infinite_total" →
      (q, w) ∉ fixInfinity objmap "total" "infinite_total" "n-infinite_total" := by
    intro q w hq h1 h2 hm
    rcases fixInfinity_keys _ _ _ _ _ hm with h | h | h | h
    · exact no0 q w hq h
    · simp only at h; subst h; exact hq (by decide)
    · exact h1 h
    · exact h2 h
  have no2 : ∀ q w, q ∉ fiveKeys → q ≠ "infinite_total" → q ≠ "n-infinite_total" →
      q ≠ "infinite_cash" → q ≠ "n-infinite_cash" →
      (q, w) ∉ fixInfinity (fixInfinity objmap "total" "infinite_total" "n-infinite_total")
        "cash" "infinite_cash" "n-infinite_cash" := by
    intro q w hq h1 h2 h3 h4 hm
    rcases fixInfinity_keys _ _ _ _ _ hm with h | h | h | h
    · exact no1 q w hq h1 h2 h
    · simp only at h; subst h; exact hq (by decide)
    · exact h3 h
    · exact h4 h
  have ot := fixInfinity_flag_origin objmap "total" "infinite_total" "n-infinite_total"
    (JVal.bool true) (fun w => no0 _ w (by decide)) (fun w => no0 _ w (by decide))
    (by decide) (by decide) (by decide)
  have oc := fixInfinity_flag_origin
    (fixInfinity objmap "total" "infinite_total" "n-infinite_total")
    "cash" "infinite_cash" "n-infinite_cash" (JVal.bool true)
    (fun w => no1 _ w (by decide) (by decide) (by decide))
    (fun w => no1 _ w (by decide) (by decide) (by decide))
    (by decide) (by decide) (by decide)
  have ob := fixInfinity_flag_origin
    (fixInfinity (fixInfinity objmap "total" "infinite_total" "n-infinite_total")
      "cash" "infinite_cash" "n-infinite_cash")
    "bank" "infinite_bank" "n-infinite_bank" (JVal.bool true)
    (fun w => no2 _ w (by decide) (by decide) (by decide) (by decide) (by decide))
    (fun w => no2 _ w (by decide) (by decide) (by decide) (by decide) (by decide))
    (by decide) (by decide) (by decide)
  refine ⟨?_, ?_, ?_, ?_, ?_, ?_⟩
  · intro h
    exact g1 ▸ oc.1 ((fixedMap_cash_iff _ _ _ (Or.inr (Or.inl rfl))).mp (hflag .CashInfinite h))
  · intro h
    exact g1 ▸ oc.2 ((fixedMap_cash_iff _ _ _ (Or.inr (Or.inr rfl))).mp (hflag .CashNinfinite h))
  · intro h
    exact g2 ▸ ob.1 ((fixedMap_bank_iff _ _ _ (Or.inr (Or.inl rfl))).mp (hflag .BankInfinite h))
  · intro h
    exact g2 ▸ ob.2 ((fixedMap_bank_iff _ _ _ (Or.inr (Or.inr rfl))).mp (hflag .BankNinfinite h))
  · intro h
    exact ot.1 ((fixedMap_total_iff _ _ _ (Or.inr (Or.inl rfl))).mp (hflag .Infinite h))
  · intro h
    exact ot.2 ((fixedMap_total_iff _ _ _ (Or.inr (Or.inr rfl))).mp (hflag .Ninfinite h))

/-! ## Lemmas: Marshal and the parser -/

/-- The decoder reads a hexadecimal digit that `json.Marshal` writes as the number it was
written for. -/
theorem hexVal_hexDigit (d : Nat) (h : d < 16) : hexVal (hexDigit d) = some d := by
  interval_cases d <;> rfl

/-- An escape `\uXXXX` below the surrogates is read as the character of that code. -/
theorem stringItem_u (a b c d : Char) (rest : List Char) (n : Nat)
    (h : getu4 a b c d = some n) (hn : n < 0xD800) :
    stringItem ('\\' :: 'u' :: a :: b :: c :: d :: rest) = StringItem.char (Char.ofNat n) 5 := by
  have hs : ¬ (0xD800 ≤ n ∧ n < 0xE000) := by omega
  simp [stringItem, h, hs]

/-- The decoder reads what `json.Marshal` writes for a character as that character, consuming
all of it. -/
theorem stringItem_encodeChar (c : Char) (rest : List Char) :
    stringItem (encodeChar c ++ rest) = StringItem.char c ((encodeChar c).length - 1) := by
  unfold encodeChar
  split_ifs with h1 h2 h3 h4 h5 h6
  · rcases h1 with rfl | rfl <;> simp [stringItem]
  · subst h2; simp [stringItem]
  · subst h3; simp [stringItem]
  · subst h4; simp [stringItem]
  · have hlt : c.toNat < 256 := by
      rcases h5 with h | h | h | h
      · omega
      · subst h; decide
      · subst h; decide
      · subst h; decide
    have hg : getu4 '0' '0' (hexDigit (c.toNat / 16)) (hexDigit (c.toNat % 16))
        = some c.toNat := by
      have e0 : hexVal '0' = some 0 := by rfl
      simp only [getu4, e0, hexVal_hexDigit _ (show c.toNat / 16 < 16 by omega),
        hexVal_hexDigit _ (Nat.mod_lt _ (by norm_num))]
      congr 1
      omega
    have := stringItem_u '0' '0' (hexDigit (c.toNat / 16)) (hexDigit (c.toNat % 16)) rest
      c.toNat hg (by omega)
    simpa using this
  · have hg : getu4 '2' '0' '2' (hexDigit (c.toNat % 16)) = some c.toNat := by
      have e0 : hexVal '0' = some 0 := by rfl
      have e2 : hexVal '2' = some 2 := by rfl
      simp only [getu4, e0, e2, hexVal_hexDigit _ (Nat.mod_lt _ (by norm_num))]
      congr 1
      omega
    have := stringItem_u '2' '0' '2' (hexDigit (c.toNat % 16)) rest
      c.toNat hg (by omega)
    simpa using this
  · have hq : c ≠ '"' := fun h => h1 (Or.inr h)
    have hb : c ≠ '\\' := fun h => h1 (Or.inl h)
    have hc : ¬ c.toNat < 0x20 := fun h => h5 (Or.inl h)
    simp [stringItem, hq, hb, hc]

/-- What `json.Marshal` writes for a character is not empty. -/
theorem encodeChar_length (c : Char) : 1 ≤ (encodeChar c).length := by
  unfold encodeChar
  split_ifs <;> simp

/-- The decoder reads the marshalled characters of a string up to the closing quote as that
string, with fuel above the length of the string. -/
theorem scanStringAux_encode (cs rest : List Char) : ∀ fuel : Nat, cs.length < fuel →
    scanStringAux fuel (encodeChars cs ++ '"' :: rest) = some (cs, rest) := by
  induction cs with
  | nil =>
    intro fuel h
    cases fuel with
    | zero => omega
    | succ f => simp [scanStringAux, encodeChars, stringItem]
  | cons c t ih =>
    intro fuel h
    cases fuel with
    | zero => omega
    | succ f =>
      have hl := encodeChar_length c
      rw [scanStringAux]
      simp only [encodeChars, List.append_assoc, stringItem_encodeChar]
      have hd : (encodeChar c ++ (encodeChars t ++ '"' :: rest)).drop
          ((encodeChar c).length - 1 + 1) = encodeChars t ++ '"' :: rest := by
        rw [Nat.sub_add_cancel hl]
        simp
      rw [hd, ih f (by simp at h; omega)]
      rfl

/-- Unquoting a marshalled string gives the string back. -/
theorem scanString_encode (cs rest : List Char) :
    scanString (encodeChars cs ++ '"' :: rest) = some (cs, rest) := by
  unfold scanString
  apply scanStringAux_encode
  have : ∀ l : List Char, l.length ≤ (encodeChars l).length := by
    intro l
    induction l with
    | nil => simp [encodeChars]
    | cons c t ih =>
      have := encodeChar_length c
      simp [encodeChars]
      omega
  have := this cs
  simp
  omega

/-- The leading digits of digits followed by a character that is no digit are those digits. -/
theorem spanDigits_append (ds : List Char) (c : Char) (rest : List Char) (h : AllDigits ds)
    (hc : ¬ (48 ≤ c.toNat ∧ c.toNat ≤ 57)) : spanDigits (ds ++ c :: rest) = (ds, c :: rest) := by
  induction ds with
  | nil => simp [spanDigits, hc]
  | cons d t ih =>
    have hd := h d (List.mem_cons_self _ _)
    have ht : AllDigits t := fun x hx => h x (List.mem_cons_of_mem _ hx)
    simp [spanDigits, hd, ih ht]

/-- The scanner reads the decimal digits of a number, up to a character that is no digit, as the
integer part of a number literal. -/
theorem scanIntPart_toDigits (n : Nat) (c : Char) (rest : List Char)
    (hc : ¬ (48 ≤ c.toNat ∧ c.toNat ≤ 57)) :
    scanIntPart (Nat.toDigits 10 n ++ c :: rest) = some (Nat.toDigits 10 n, c :: rest) := by
  obtain ⟨hall, _, ⟨c0, t, hct, hc0⟩, h0⟩ := toDigits_spec n
  by_cases hn : n = 0
  · rw [h0 hn]
    rfl
  · have hne := hc0 hn
    rw [hct]
    have hd := hall c0 (by rw [hct]; exact List.mem_cons_self _ _)
    have ht : AllDigits t := fun x hx => hall x (by rw [hct]; exact List.mem_cons_of_mem _ hx)
    have h49 : 49 ≤ c0.toNat ∧ c0.toNat ≤ 57 := by
      refine ⟨?_, hd.2⟩
      by_contra hlt
      have h48 : c0.toNat = 48 := by omega
      apply hne
      have h := (Char.ofNat_toNat c0).symm
      rw [h48] at h
      exact h
    simp only [List.cons_append]
    unfold scanIntPart
    split
    · rename_i t1 heq
      injection heq with h1 _
      exact absurd h1 hne
    · rename_i c1 t1 _ heq
      injection heq with h1 h2
      subst h1 h2
      simp [h49, spanDigits_append t c rest ht hc]
    · rename_i heq
      cases heq

/-- The scanner reads a formatted integer in front of a comma or a closing brace as one number
literal. -/
theorem scanNumber_FormatInt (i : Int) (c : Char) (rest : List Char) (hc : c = ',' ∨ c = '}') :
    scanNumber ((FormatInt i).data ++ c :: rest) = some ((FormatInt i).data, c :: rest) := by
  have hcd : ¬ (48 ≤ c.toNat ∧ c.toNat ≤ 57) := by
    rcases hc with rfl | rfl <;> decide
  have hfrac : scanFrac (c :: rest) = some ([], c :: rest) := by
    rcases hc with rfl | rfl <;> rfl
  have hexp : scanExp (c :: rest) = some ([], c :: rest) := by
    rcases hc with rfl | rfl <;> simp [scanExp]
  unfold FormatInt
  by_cases hneg : i < 0
  · simp only [hneg, if_true, List.cons_append]
    unfold scanNumber
    simp [scanOneOf, scanIntPart_toDigits _ c rest hcd, hfrac, hexp]
  · simp only [hneg, if_false]
    obtain ⟨hall, _, ⟨c0, t, hct, _⟩, _⟩ := toDigits_spec i.toNat
    have hd := hall c0 (by rw [hct]; exact List.mem_cons_self _ _)
    have hminus : c0 ≠ '-' := by
      intro h; subst h; revert hd; decide
    have hone : scanOneOf '-' '-' (Nat.toDigits 10 i.toNat ++ c :: rest)
        = ([], Nat.toDigits 10 i.toNat ++ c :: rest) := by
      rw [hct]
      simp [scanOneOf, hminus]
    unfold scanNumber
    simp [hone, scanIntPart_toDigits _ c rest hcd, hfrac, hexp]

/-- A formatted integer starts with a minus sign or a digit. -/
theorem FormatInt_head (i : Int) :
    ∃ c0 t, (FormatInt i).data = c0 :: t ∧ (c0 = '-' ∨ (48 ≤ c0.toNat ∧ c0.toNat ≤ 57)) := by
  unfold FormatInt
  by_cases hneg : i < 0
  · simp only [hneg, if_true]
    exact ⟨'-', _, rfl, Or.inl rfl⟩
  · simp only [hneg, if_false]
    obtain ⟨hall, _, ⟨c0, t, hct, _⟩, _⟩ := toDigits_spec i.toNat
    exact ⟨c0, t, hct, Or.inr (hall c0 (by rw [hct]; exact List.mem_cons_self _ _))⟩

/-- In front of a comma or a closing brace, the parser reads what `json.Marshal` writes for a
string or an integer as that string or as the number literal of that integer. -/
theorem parseValue_simple (v : String ⊕ Int) (fuel depth : Nat) (c : Char) (rest : List Char)
    (hc : c = ',' ∨ c = '}') :
    parseValue (fuel + 1) depth (marshalValue (simpleVal v) ++ c :: rest)
      = some (simpleJSON v, c :: rest) := by
  cases v with
  | inl s =>
    simp only [simpleVal, marshalValue, encodeString, simpleJSON, List.cons_append,
      List.append_assoc]
    rw [parseValue]
    simp [scanString_encode]
  | inr i =>
    simp only [simpleVal, marshalValue, simpleJSON]
    obtain ⟨c0, t, hct, hc0⟩ := FormatInt_head i
    have hnum := scanNumber_FormatInt i c rest hc
    rw [hct] at hnum ⊢
    have h1 : c0 ≠ '{' ∧ c0 ≠ '[' ∧ c0 ≠ '"' ∧ c0 ≠ 't' ∧ c0 ≠ 'f' ∧ c0 ≠ 'n' := by
      rcases hc0 with h | h
      · subst h; decide
      · refine ⟨?_, ?_, ?_, ?_, ?_, ?_⟩ <;> (intro h'; subst h'; revert h; decide)
    simp only [List.cons_append] at hnum ⊢
    rw [parseValue]
    have ht : ("true".data.isPrefixOf (c0 :: (t ++ c :: rest))) = false := by
      simp only [String.data, List.isPrefixOf]
      simp
      exact fun h => absurd h.symm h1.2.2.2.1
    have hf : ("false".data.isPrefixOf (c0 :: (t ++ c :: rest))) = false := by
      simp only [String.data, List.isPrefixOf]
      simp
      exact fun h => absurd h.symm h1.2.2.2.2.1
    have hn : ("null".data.isPrefixOf (c0 :: (t ++ c :: rest))) = false := by
      simp only [String.data, List.isPrefixOf]
      simp
      exact fun h => absurd h.symm h1.2.2.2.2.2
    have hs : String.mk (c0 :: t) = decimalNumeral i := by
      rw [← hct]
      rfl
    simp only [h1.1, h1.2.1, h1.2.2.1, if_false, ht, hf, hn, hnum]
    simp [hs]

/-- What `json.Marshal` writes for a string or an integer does not start with white space. -/
theorem skipSpace_simple (v : String ⊕ Int) (rest : List Char) :
    skipSpace (marshalValue (simpleVal v) ++ rest) = marshalValue (simpleVal v) ++ rest := by
  cases v with
  | inl s => simp [simpleVal, marshalValue, encodeString, skipSpace, isSpace]
  | inr i =>
    obtain ⟨c0, t, hct, hc0⟩ := FormatInt_head i
    have hsp : isSpace c0 = false := by
      rcases hc0 with h | h
      · subst h; decide
      · have h1 : c0 ≠ ' ' := by intro h'; subst h'; revert h; decide
        have h2 : c0 ≠ '\t' := by intro h'; subst h'; revert h; decide
        have h3 : c0 ≠ '\r' := by intro h'; subst h'; revert h; decide
        have h4 : c0 ≠ '\n' := by intro h'; subst h'; revert h; decide
        simp [isSpace, h1, h2, h3, h4]
    simp [simpleVal, marshalValue, hct, skipSpace, hsp]

/-- The text of a member starts with the quote of its key. -/
theorem entryText_cons (kv : String × (String ⊕ Int)) :
    entryText kv
      = '"' :: (encodeChars kv.1.data ++ '"' :: ':' :: marshalValue (simpleVal kv.2)) := by
  simp [entryText, encodeString]

/-- Joining a text with more texts puts the separator after it. -/
theorem joinWith_cons (sep : List Char) (x : List Char) (xs : List (List Char))
    (h : xs ≠ []) : joinWith sep (x :: xs) = x ++ sep ++ joinWith sep xs := by
  cases xs with
  | nil => exact absurd rfl h
  | cons y ys => rfl

/-- The parser reads the marshalled members of an object whose values are strings and integers,
up to the closing brace, as these members in the same order. -/
theorem parseMembers_entries (es : List (String × (String ⊕ Int))) :
    ∀ (e : String × (String ⊕ Int)) (fuel depth : Nat) (rest : List Char),
    es.length + 1 < fuel →
    parseMembers fuel depth (joinWith [','] ((e :: es).map entryText) ++ '}' :: rest)
      = some ((e :: es).map (fun kv => (kv.1, simpleJSON kv.2)), rest) := by
  induction es with
  | nil =>
    intro e fuel depth rest hf
    obtain ⟨f, rfl⟩ : ∃ f, fuel = f + 2 := ⟨fuel - 2, by simp at hf; omega⟩
    simp only [List.map, joinWith, entryText_cons, List.cons_append, List.append_assoc]
    rw [parseMembers]
    simp [scanString_encode, skipSpace_simple, parseValue_simple _ f depth '}' rest (Or.inr rfl),
      skipSpace, isSpace]
  | cons e2 es ih =>
    intro e fuel depth rest hf
    obtain ⟨f, rfl⟩ : ∃ f, fuel = f + 2 := ⟨fuel - 2, by simp at hf; omega⟩
    have hih := ih e2 (f + 1) depth rest (by simp at hf ⊢; omega)
    rw [List.map_cons, joinWith_cons _ _ _ (by simp)]
    simp only [entryText_cons, List.cons_append, List.append_assoc]
    rw [parseMembers]
    have hsk : skipSpace (joinWith [','] (List.map entryText (e2 :: es)) ++ '}' :: rest)
        = joinWith [','] (List.map entryText (e2 :: es)) ++ '}' :: rest := by
      cases es with
      | nil => simp [joinWith, entryText_cons, skipSpace, isSpace]
      | cons e3 es3 =>
        rw [List.map_cons, joinWith_cons _ _ _ (by simp)]
        simp [entryText_cons, skipSpace, isSpace]
    simp only [List.map_cons] at hsk hih
    simp [scanString_encode, skipSpace_simple, parseValue_simple _ f depth ',' _ (Or.inl rfl),
      skipSpace, isSpace, hsk, hih]

/-- Joined texts that are not empty are at least as long as their number. -/
theorem joinWith_length (sep : List Char) (xs : List (List Char))
    (h : ∀ x ∈ xs, 1 ≤ x.length) : xs.length ≤ (joinWith sep xs).length := by
  induction xs with
  | nil => simp [joinWith]
  | cons x t ih =>
    have hx := h x (List.mem_cons_self _ _)
    have ht := ih (fun y hy => h y (List.mem_cons_of_mem _ hy))
    cases t with
    | nil => simpa [joinWith] using hx
    | cons y ys =>
      rw [joinWith_cons _ _ _ (by simp)]
      simp at ht ⊢
      omega

/-- The document that `json.Marshal` writes for members whose values are strings and integers
parses to the object with these members. -/
theorem parseJSON_object (es : List (String × (String ⊕ Int))) :
    parseJSON (String.mk ('{' :: (joinWith [','] (es.map entryText) ++ ['}'])))
      = some (JSON.obj (es.map fun kv => (kv.1, simpleJSON kv.2))) := by
  cases es with
  | nil => rfl
  | cons e es =>
    have hlen := joinWith_length [','] ((e :: es).map entryText) (by
      intro x hx
      obtain ⟨kv, _, rfl⟩ := List.mem_map.mp hx
      simp [entryText_cons])
    have hm := parseMembers_entries es e
      (2 * ((joinWith [','] ((e :: es).map entryText) ++ ['}']).length + 1) + 1) 1 []
      (by simp at hlen ⊢; omega)
    have hhead : ∃ t, joinWith [','] ((e :: es).map entryText) ++ ['}'] = '"' :: t := by
      cases es with
      | nil =>
        simp only [List.map, joinWith, entryText_cons, List.cons_append]
        exact ⟨_, rfl⟩
      | cons e2 es2 =>
        rw [List.map_cons, joinWith_cons _ _ _ (by simp)]
        simp only [entryText_cons, List.cons_append, List.append_assoc]
        exact ⟨_, rfl⟩
    obtain ⟨t, ht⟩ := hhead
    unfold parseJSON
    simp only [String.length, List.length_cons]
    rw [show 2 * ((joinWith [','] ((e :: es).map entryText) ++ ['}']).length + 1) + 2
      = (2 * ((joinWith [','] ((e :: es).map entryText) ++ ['}']).length + 1) + 1) + 1 from rfl]
    rw [ht] at hm ⊢
    have hs : skipSpace ('{' :: '"' :: t) = '{' :: '"' :: t := by simp [skipSpace, isSpace]
    rw [hs, parseValue]
    simp only [List.length_cons, List.map_cons] at hm
    simp [maxNestingDepth, skipSpace, isSpace, hm]

/-! ## Lemmas: the balance operations -/

/-- Assigning a key that the map does not hold appends the entry. -/
theorem mapSet_fresh (m : ObjMap) (k : String) (v : JVal) (h : ∀ kv ∈ m, kv.1 ≠ k) :
    mapSet m k v = m ++ [(k, v)] := by
  unfold mapSet
  rw [List.filter_eq_self.mpr]
  intro kv hkv
  simpa using h kv hkv

/-- A block of lines 225-248 appends the entry of the amount when the specification includes it
and nothing otherwise. -/
theorem setAmount_eq (m : ObjMap) (key : String) (a : Arg) (h : ∀ kv ∈ m, kv.1 ≠ key) :
    setAmount m key a = m ++ optEntry key ((amountOf a).map simpleVal) := by
  cases a with
  | nil => simp [setAmount, amountOf, optEntry]
  | string s =>
    by_cases h1 : s = "Infinity"
    · subst h1
      simp [setAmount, amountOf, optEntry, simpleVal, mapSet_fresh _ _ _ h]
    · by_cases h2 : s = "-Infinity"
      · subst h2
        simp [setAmount, amountOf, optEntry, simpleVal, mapSet_fresh _ _ _ h]
      · simp [setAmount, amountOf, optEntry, h1, h2]
  | int i => simp [setAmount, amountOf, optEntry, simpleVal, mapSet_fresh _ _ _ h]
  | other t => simp [setAmount, amountOf, optEntry]

/-- The switch on the reason appends the entry of the reason when there is one. -/
theorem setReason_eq (m : ObjMap) (a : Arg) (h : ∀ kv ∈ m, kv.1 ≠ "reason") :
    setReason m a = m ++ optEntry "reason" ((reasonOf a).map simpleVal) := by
  cases a <;> simp [setReason, reasonOf, optEntry, simpleVal, mapSet_fresh _ _ _ h]

/-- An optional entry has the key it was made for. -/
theorem optEntry_key {α : Type} (k : String) (o : Option α) :
    ∀ kv ∈ optEntry k o, kv.1 = k := by
  intro kv h
  cases o with
  | none => simp [optEntry] at h
  | some v =>
    simp [optEntry] at h
    rw [h]

/-- The map `payloadTypes` of `SetBalance` holds the entries of cash, bank and reason that the
specification includes, in the order of the assignments. -/
theorem setPayloadTypes_eq (cash bank reason : Arg) :
    setPayloadTypes cash bank reason
      = optEntry "cash" ((amountOf cash).map simpleVal) ++
        optEntry "bank" ((amountOf bank).map simpleVal) ++
        optEntry "reason" ((reasonOf reason).map simpleVal) := by
  unfold setPayloadTypes
  rw [setAmount_eq [] "cash" cash (by simp), List.nil_append,
    setAmount_eq _ "bank" bank, setReason_eq]
  · intro kv h
    rcases List.mem_append.mp h with h | h
    · rw [optEntry_key _ _ kv h]; decide
    · rw [optEntry_key _ _ kv h]; decide
  · intro kv h
    rw [optEntry_key _ _ kv h]; decide

/-- The members `json.Marshal` writes for the entries of cash, bank and reason are those of
bank, cash and reason, in this order. -/
theorem marshalled_payload (a b c : Option (String ⊕ Int)) :
    (sortKeyed (marshalEntries (optEntry "cash" (a.map simpleVal) ++
        optEntry "bank" (b.map simpleVal) ++ optEntry "reason" (c.map simpleVal)))).map
      (fun kv => encodeString kv.1 ++ ':' :: kv.2)
      = (optEntry "bank" b ++ optEntry "cash" a ++ optEntry "reason" c).map entryText := by
  have k1 : keyLe "cash".data "bank".data = false := by decide
  have k2 : keyLe "cash".data "reason".data = true := by decide
  have k3 : keyLe "bank".data "reason".data = true := by decide
  have k4 : keyLe "bank".data "cash".data = true := by decide
  cases a <;> cases b <;> cases c <;>
    simp [optEntry, marshalEntries, sortKeyed, insertKeyed, entryText, k1, k2, k3, k4]

/-- The text of the payload of `SetBalance`: the members of bank, cash and reason that the
specification includes, between braces. -/
theorem Marshal_setPayloadTypes (cash bank reason : Arg) :
    Marshal (setPayloadTypes cash bank reason)
      = String.mk ('{' :: (joinWith [','] ((optEntry "bank" (amountOf bank) ++
          optEntry "cash" (amountOf cash) ++ optEntry "reason" (reasonOf reason)).map entryText)
          ++ ['}'])) := by
  rw [setPayloadTypes_eq]
  unfold Marshal
  rw [marshalValue, marshalled_payload]
  rfl

/-- A loop of `Leaderboard` that ends with an error returns the empty list, whatever was
appended before. -/
theorem leaderboardLoop_error (rs : List userObjRaw) : ∀ (acc l : List UserObj) (e : GoError),
    leaderboardLoop rs acc = (l, some e) → l = [] := by
  induction rs with
  | nil =>
    intro acc l e h
    simp [leaderboardLoop] at h
  | cons v rest ih =>
    intro acc l e h
    rw [leaderboardLoop] at h
    generalize fixTypesToStruct (rawValue v) = p at h
    obtain ⟨user, err⟩ := p
    cases err with
    | some err =>
      simp at h
      exact h.1
    | none => exact ih _ _ _ h

/-- A loop of `Leaderboard` that ends without error has appended, in order, the record of every
raw record, each normalised without error. -/
theorem leaderboardLoop_ok (rs : List userObjRaw) : ∀ (acc l : List UserObj),
    leaderboardLoop rs acc = (l, none) →
    l = acc ++ rs.map (fun v => (fixTypesToStruct (rawValue v)).1) ∧
    ∀ v ∈ rs, (fixTypesToStruct (rawValue v)).2 = none := by
  induction rs with
  | nil =>
    intro acc l h
    simp [leaderboardLoop] at h
    simp [h]
  | cons v rest ih =>
    intro acc l h
    rw [leaderboardLoop] at h
    cases heq : fixTypesToStruct (rawValue v) with
    | mk user err =>
    rw [heq] at h
    cases err with
    | some err => simp at h
    | none =>
      obtain ⟨h1, h2⟩ := ih _ _ h
      have e1 : (fixTypesToStruct (rawValue v)).1 = user := by rw [heq]
      have e2 : (fixTypesToStruct (rawValue v)).2 = none := by rw [heq]
      refine ⟨?_, ?_⟩
      · rw [h1]
        simp [e1]
      · intro w hw
        rcases List.mem_cons.mp hw with rfl | hw
        · exact e2
        · exact h2 w hw

/-- An array that decodes into raw records gives as many records as it has elements, the record
at each index decoded from the element at that index. -/
theorem rawsOfJSON_ok (elems : List JSON) : ∀ rs : List userObjRaw,
    rawsOfJSON elems = .ok rs →
    rs.length = elems.length ∧
    ∀ (i : Nat) (x : JSON), elems[i]? = some x →
      ∃ raw, rawOfJSON x = .ok raw ∧ rs[i]? = some raw := by
  induction elems with
  | nil =>
    intro rs h
    simp [rawsOfJSON] at h
    subst h
    simp
  | cons x xs ih =>
    intro rs h
    unfold rawsOfJSON at h
    cases hx : rawOfJSON x with
    | error e => simp [hx] at h
    | ok r =>
      cases hxs : rawsOfJSON xs with
      | error e => simp [hx, hxs] at h
      | ok rs1 =>
        simp [hx, hxs] at h
        subst h
        obtain ⟨h1, h2⟩ := ih rs1 hxs
        refine ⟨by simp [h1], ?_⟩
        intro i y hy
        cases i with
        | zero =>
          simp at hy
          subst hy
          exact ⟨r, hx, by simp⟩
        | succ j =>
          simp at hy
          obtain ⟨raw, hr1, hr2⟩ := h2 j y hy
          exact ⟨raw, hr1, by simpa using hr2⟩

/-- The steps after `Request` return the zero record with every error. -/
theorem balanceOf_error (res : Result (String × Option GoError)) (r : UserObj) (e : GoError)
    (h : balanceOf res = .ret (r, some e)) : r = {} := by
  unfold balanceOf at h
  cases res with
  | panic => simp at h
  | ret p =>
    obtain ⟨data, err⟩ := p
    cases err with
    | some err =>
      simp at h
      exact h.1.symm
    | none =>
      simp only at h
      generalize fixTypesToStruct data = q at h
      obtain ⟨user, err⟩ := q
      cases err with
      | some err =>
        simp at h
        exact h.1.symm
      | none => simp at h

/-! ## Lemmas: the record as a function of the object -/

/-- Where an entry of the map after one block of `fixTypesToStruct` comes from: it is an entry
of another key of the map before, or the entry of the key itself that was not a string, or an
integer in the range of `int64` stored under the key, or `true` stored under one of the two
flags. -/
theorem fixInfinity_entries (m : ObjMap) (key pos neg q : String) (w : JVal)
    (h : (q, w) ∈ fixInfinity m key pos neg) :
    ((q, w) ∈ m ∧ q ≠ key) ∨
    (q = key ∧ (q, w) ∈ m ∧ ∀ s, mapGet m key ≠ some (JVal.str s)) ∨
    (q = key ∧ ∃ i, w = JVal.int i ∧ inInt64 i = true) ∨
    (q = pos ∧ w = JVal.bool true) ∨ (q = neg ∧ w = JVal.bool true) := by
  have h0 : inInt64 0 = true := by decide
  unfold fixInfinity at h
  cases hget : mapGet m key with
  | none =>
    rw [hget] at h
    by_cases hq : q = key
    · exact Or.inr (Or.inl ⟨hq, h, fun s => by simp⟩)
    · exact Or.inl ⟨h, hq⟩
  | some v =>
    rw [hget] at h
    cases v with
    | str x =>
      simp only at h
      split_ifs at h with h1 h2
      · rcases (mem_mapSet _ _ _ _).mp h with ⟨h, _⟩ | h
        · rcases (mem_mapSet _ _ _ _).mp h with ⟨h, hne⟩ | h
          · exact Or.inl ⟨h, hne⟩
          · injection h with ha hb
            exact Or.inr (Or.inr (Or.inl ⟨ha, 0, hb, h0⟩))
        · injection h with ha hb
          exact Or.inr (Or.inr (Or.inr (Or.inl ⟨ha, hb⟩)))
      · rcases (mem_mapSet _ _ _ _).mp h with ⟨h, _⟩ | h
        · rcases (mem_mapSet _ _ _ _).mp h with ⟨h, hne⟩ | h
          · exact Or.inl ⟨h, hne⟩
          · injection h with ha hb
            exact Or.inr (Or.inr (Or.inl ⟨ha, 0, by simpa using hb, h0⟩))
        · injection h with ha hb
          exact Or.inr (Or.inr (Or.inr (Or.inr ⟨ha, hb⟩)))
      · rcases (mem_mapSet _ _ _ _).mp h with ⟨h, hne⟩ | h
        · exact Or.inl ⟨h, hne⟩
        · injection h with ha hb
          exact Or.inr (Or.inr (Or.inl ⟨ha, _, hb, ParseInt_inInt64 x 0⟩))
    | null | bool _ | float64 _ | int _ | arr _ | obj _ =>
      simp only at h
      by_cases hq : q = key
      · exact Or.inr (Or.inl ⟨hq, h, fun s => by simp⟩)
      · exact Or.inl ⟨h, hq⟩

/-- Where an entry of the map after the block for the rank comes from: an entry of another key,
the rank itself that was not a string, or an integer in the range of `int64` stored under
`rank`. -/
theorem fixRank_entries (m : ObjMap) (q : String) (w : JVal) (h : (q, w) ∈ fixRank m) :
    ((q, w) ∈ m ∧ q ≠ "rank") ∨
    (q = "rank" ∧ (q, w) ∈ m ∧ ∀ s, mapGet m "rank" ≠ some (JVal.str s)) ∨
    (q = "rank" ∧ ∃ i, w = JVal.int i ∧ inInt64 i = true) := by
  unfold fixRank at h
  cases hget : mapGet m "rank" with
  | none =>
    rw [hget] at h
    by_cases hq : q = "rank"
    · exact Or.inr (Or.inl ⟨hq, h, fun s => by simp⟩)
    · exact Or.inl ⟨h, hq⟩
  | some v =>
    rw [hget] at h
    cases v with
    | str x =>
      simp only at h
      rcases (mem_mapSet _ _ _ _).mp h with ⟨h, hne⟩ | h
      · exact Or.inl ⟨h, hne⟩
      · injection h with ha hb
        exact Or.inr (Or.inr ⟨ha, _, hb, ParseInt_inInt64 x 0⟩)
    | null | bool _ | float64 _ | int _ | arr _ | obj _ =>
      simp only at h
      by_cases hq : q = "rank"
      · exact Or.inr (Or.inl ⟨hq, h, fun s => by simp⟩)
      · exact Or.inl ⟨h, hq⟩

/-- Decoding members into a `UserObj` succeeds when every member that selects a field has a
value that fits the field. -/
theorem decode_ok (es : List (String × JVal)) :
    (∀ kv ∈ es, ∀ g, findField UserObjField.jsonName userObjFields kv.1 = some g →
      Fits g kv.2) →
    ∀ r0 : UserObj, ∃ r, decodeUserObj es r0 = .ok r := by
  induction es with
  | nil => intro _ r0; exact ⟨r0, rfl⟩
  | cons e rest ih =>
    intro h r0
    obtain ⟨k, v⟩ := e
    have hrest := ih (fun kv hkv => h kv (List.mem_cons_of_mem _ hkv))
    unfold decodeUserObj
    cases hf : findField UserObjField.jsonName userObjFields k with
    | none => exact hrest r0
    | some g =>
      obtain ⟨r1, hr1⟩ := h (k, v) (List.mem_cons_self _ _) g hf r0
      simp only [hr1]
      exact hrest r1

/-- A value that is read as an integer fits each of the four `int` fields. -/
theorem fits_int (g : UserObjField) (v : JVal) (n : Int)
    (hg : g = .Rank ∨ g = .Cash ∨ g = .Bank ∨ g = .Total)
    (hv : intOfJVal v = .ok (some n)) : Fits g v := by
  intro r
  rcases hg with rfl | rfl | rfl | rfl <;> simp [setUserObjField, hv, Except.map]

/-- A boolean fits each of the six flags. -/
theorem fits_bool (g : UserObjField) (b : Bool)
    (hg : g = .CashInfinite ∨ g = .CashNinfinite ∨ g = .BankInfinite ∨ g = .BankNinfinite ∨
      g = .Infinite ∨ g = .Ninfinite) : Fits g (JVal.bool b) := by
  intro r
  rcases hg with rfl | rfl | rfl | rfl | rfl | rfl <;>
    simp [setUserObjField, boolOfJVal, Except.map]

/-- A string fits the user id. -/
theorem fits_string (s : String) : Fits .UserID (JVal.str s) := by
  intro r
  simp [setUserObjField, stringOfJVal, Except.map]

/-- A number that fits an `int` field is read as an integer. -/
theorem intOfJVal_good (v : JVal) (h : GoodNumber v) : ∃ n, intOfJVal v = .ok (some n) := by
  obtain ⟨f, n, rfl, h1, h2⟩ := h
  exact ⟨n, by simp [intOfJVal, h1, h2]⟩

/-- An integer in the range of `int64` is read as itself. -/
theorem intOfJVal_int (i : Int) (h : inInt64 i = true) :
    intOfJVal (JVal.int i) = .ok (some i) := by
  simp [intOfJVal, h]

/-- Which values fit a field, by the JSON name of the field: a string for the user id, a value
read as an integer for rank, cash, bank and total, and `true` for a flag. -/
theorem fits_of_name (g : UserObjField) (w : JVal) :
    (g.jsonName = "user_id" → (∃ s, w = JVal.str s) → Fits g w) ∧
    (g.jsonName = "rank" ∨ g.jsonName = "cash" ∨ g.jsonName = "bank" ∨ g.jsonName = "total" →
      (∃ n, intOfJVal w = .ok (some n)) → Fits g w) ∧
    (g.jsonName = "infinite_cash" ∨ g.jsonName = "n-infinite_cash" ∨
      g.jsonName = "infinite_bank" ∨ g.jsonName = "n-infinite_bank" ∨
      g.jsonName = "infinite_total" ∨ g.jsonName = "n-infinite_total" →
      w = JVal.bool true → Fits g w) := by
  refine ⟨?_, ?_, ?_⟩
  · intro hg ⟨s, hs⟩
    subst hs
    cases g <;> simp [UserObjField.jsonName] at hg
    exact fits_string s
  · intro hg ⟨n, hn⟩
    cases g <;> simp [UserObjField.jsonName] at hg <;> exact fits_int _ w n (by simp) hn
  · intro hg hw
    subst hw
    cases g <;> simp [UserObjField.jsonName] at hg <;> exact fits_bool _ true (by simp)

/-- In a typed balance object, the value of rank, cash, bank or total that is not a string fits
its field. -/
theorem typed_fits (m : ObjMap) (hf : Functional m) (ht : Typed m) (key : String)
    (hkey : key = "rank" ∨ key = "cash" ∨ key = "bank" ∨ key = "total")
    (g : UserObjField) (hg : g.jsonName = key) (w : JVal) (hmem : (key, w) ∈ m)
    (hns : ∀ s, mapGet m key ≠ some (JVal.str s)) : Fits g w := by
  have hget := hf key w hmem
  rcases (ht key w hmem).2 hkey with ⟨s, hs⟩ | hgood
  · subst hs
    exact absurd hget (hns s)
  · exact (fits_of_name g w).2.1 (by rw [hg]; exact hkey) (intOfJVal_good w hgood)

/-- Every entry of the map that `fixTypesToStruct` marshals, for a typed balance object with
keys among the five, fits the field that its key selects. -/
theorem fixedMap_fits (m : ObjMap) (hk : ∀ kv ∈ m, kv.1 ∈ fiveKeys) (hf : Functional m)
    (ht : Typed m) (q : String) (w : JVal) (h : (q, w) ∈ fixedMap m) (g : UserObjField)
    (hfield : findField UserObjField.jsonName userObjFields q = some g) : Fits g w := by
  have hq := fixedMap_keys m hk (q, w) h
  have hg : g.jsonName = q := findField_exact q hq g hfield
  obtain ⟨g1, g2, g3⟩ := mapGet_fixedMap_stages m
  have hint : ∀ i, inInt64 i = true → (g.jsonName = "rank" ∨ g.jsonName = "cash" ∨
      g.jsonName = "bank" ∨ g.jsonName = "total") → Fits g (JVal.int i) :=
    fun i hi hn => (fits_of_name g _).2.1 hn ⟨i, intOfJVal_int i hi⟩
  unfold fixedMap at h
  rcases fixRank_entries _ q w h with ⟨h, n4⟩ | ⟨rfl, h, hns⟩ | ⟨rfl, i, rfl, hi⟩
  · rcases fixInfinity_entries _ _ _ _ q w h with
      ⟨h, n3⟩ | ⟨rfl, h, hns⟩ | ⟨rfl, i, rfl, hi⟩ | ⟨rfl, rfl⟩ | ⟨rfl, rfl⟩
    · rcases fixInfinity_entries _ _ _ _ q w h with
        ⟨h, n2⟩ | ⟨rfl, h, hns⟩ | ⟨rfl, i, rfl, hi⟩ | ⟨rfl, rfl⟩ | ⟨rfl, rfl⟩
      · rcases fixInfinity_entries _ _ _ _ q w h with
          ⟨h, n1⟩ | ⟨rfl, h, hns⟩ | ⟨rfl, i, rfl, hi⟩ | ⟨rfl, rfl⟩ | ⟨rfl, rfl⟩
        · have h5 := hk (q, w) h
          simp only [fiveKeys, List.mem_cons, List.mem_singleton, List.not_mem_nil,
            or_false] at h5
          rcases h5 with h5 | h5 | h5 | h5 | h5
          · exact absurd h5 n4
          · exact (fits_of_name g w).1 (hg.trans h5) ((ht q w h).1 h5)
          · exact absurd h5 n2
          · exact absurd h5 n3
          · exact absurd h5 n1
        · exact typed_fits m hf ht _ (by simp) g hg w h hns
        · exact hint i hi (by rw [hg]; simp)
        · exact (fits_of_name g _).2.2 (by rw [hg]; simp) rfl
        · exact (fits_of_name g _).2.2 (by rw [hg]; simp) rfl
      · refine typed_fits m hf ht _ (by simp) g hg w ?_ (fun s => g1 ▸ hns s)
        exact (fixInfinity_untouched _ _ _ _ _ _ (by decide) (by decide) (by decide)).mp h
      · exact hint i hi (by rw [hg]; simp)
      · exact (fits_of_name g _).2.2 (by rw [hg]; simp) rfl
      · exact (fits_of_name g _).2.2 (by rw [hg]; simp) rfl
    · refine typed_fits m hf ht _ (by simp) g hg w ?_ (fun s => g2 ▸ hns s)
      exact (fixInfinity_untouched _ _ _ _ _ _ (by decide) (by decide) (by decide)).mp
        ((fixInfinity_untouched _ _ _ _ _ _ (by decide) (by decide) (by decide)).mp h)
    · exact hint i hi (by rw [hg]; simp)
    · exact (fits_of_name g _).2.2 (by rw [hg]; simp) rfl
    · exact (fits_of_name g _).2.2 (by rw [hg]; simp) rfl
  · refine typed_fits m hf ht _ (by simp) g hg w ?_ (fun s => g3 ▸ hns s)
    exact (fixInfinity_untouched _ _ _ _ _ _ (by decide) (by decide) (by decide)).mp
      ((fixInfinity_untouched _ _ _ _ _ _ (by decide) (by decide) (by decide)).mp
        ((fixInfinity_untouched _ _ _ _ _ _ (by decide) (by decide) (by decide)).mp h))
  · exact hint i hi (by rw [hg]; simp)

/-- A typed balance object with distinct keys among the five is normalised without error. -/
theorem fixTypesToStruct_ok (data : String) (objmap : ObjMap)
    (hdec : unmarshalObjmap data = .ok objmap) (hk : ∀ kv ∈ objmap, kv.1 ∈ fiveKeys)
    (hf : Functional objmap) (ht : Typed objmap) :
    ∃ r, fixTypesToStruct data = (r, none) := by
  obtain ⟨r, hr⟩ := decode_ok (sortByKey (fixedMap objmap)) (by
    intro kv hkv g hg
    exact fixedMap_fits objmap hk hf ht kv.1 kv.2 ((mem_sortByKey _ _).mp hkv) g hg) {}
  refine ⟨r, ?_⟩
  simp only [fixTypesToStruct, hdec, marshalUnmarshalUserObj]
  unfold fixedMap at hr
  rw [hr]

/-- A key whose lookup finds nothing has no entry in the map. -/
theorem mapGet_none (m : ObjMap) (k : String) (h : mapGet m k = none) (w : JVal) :
    (k, w) ∉ m := by
  intro hmem
  unfold mapGet at h
  simp only [Option.map_eq_none'] at h
  have := List.find?_eq_none.mp h (k, w) hmem
  simp at this

/-- A block of `fixTypesToStruct` leaves the map as it is when the value of its key is not a
string. -/
theorem fixInfinity_same (m : ObjMap) (key pos neg : String)
    (h : ∀ s, mapGet m key ≠ some (JVal.str s)) : fixInfinity m key pos neg = m := by
  unfold fixInfinity
  split
  · rename_i x hx
    exact absurd hx (h x)
  · rfl

/-- The block for the rank leaves the map as it is when the rank is not a string. -/
theorem fixRank_same (m : ObjMap) (h : ∀ s, mapGet m "rank" ≠ some (JVal.str s)) :
    fixRank m = m := by
  unfold fixRank
  split
  · rename_i x hx
    exact absurd hx (h x)
  · rfl

/-- Storing a value that is read as the integer `n` into an `int` field gives the field the
value `n`. -/
theorem set_int_val (r r1 : UserObj) (f : UserObjField) (v : JVal) (n : Int)
    (hv : intOfJVal v = .ok (some n)) (h : setUserObjField r f v = .ok r1) :
    r1.intAt f = n := by
  have hb : ∀ e, boolOfJVal v ≠ .ok e := by
    intro e
    cases v <;> simp [boolOfJVal, intOfJVal] at hv ⊢
  have hs : ∀ e, stringOfJVal v ≠ .ok e := by
    intro e
    cases v <;> simp [stringOfJVal, intOfJVal] at hv ⊢
  cases f <;> simp only [setUserObjField] at h
  all_goals first
    | (simp [hv, Except.map] at h
       subst h
       simp [UserObj.intAt])
    | (cases hbv : boolOfJVal v with
        | error e => simp [hbv, Except.map] at h
        | ok o => exact absurd hbv (hb o))
    | (cases hsv : stringOfJVal v with
        | error e => simp [hsv, Except.map] at h
        | ok o => exact absurd hsv (hs o))

/-- When every value under the JSON name of an `int` field is read as the integer `n`, and the
field holds `n` before or the name occurs, the decoded record holds `n` in the field. -/
theorem decode_positive_val (f : UserObjField) (n : Int) (es : List (String × JVal)) :
    ∀ r0 r : UserObj, (∀ kv ∈ es, kv.1 ∈ allNames) → decodeUserObj es r0 = .ok r →
      (∀ w, (f.jsonName, w) ∈ es → intOfJVal w = .ok (some n)) →
      (r0.intAt f = n ∨ ∃ w, (f.jsonName, w) ∈ es) → r.intAt f = n := by
  induction es with
  | nil =>
    intro r0 r _ h _ h0
    simp [decodeUserObj] at h
    subst h
    simpa using h0
  | cons e rest ih =>
    intro r0 r hk h hall h0
    obtain ⟨k, v⟩ := e
    have hk' : ∀ kv ∈ rest, kv.1 ∈ allNames := fun kv hkv => hk kv (List.mem_cons_of_mem _ hkv)
    have hall' : ∀ w, (f.jsonName, w) ∈ rest → intOfJVal w = .ok (some n) :=
      fun w hw => hall w (List.mem_cons_of_mem _ hw)
    have hkn := hk (k, v) (List.mem_cons_self _ _)
    unfold decodeUserObj at h
    cases hf : findField UserObjField.jsonName userObjFields k with
    | none =>
      rw [hf] at h
      apply ih r0 r hk' h hall'
      rcases h0 with h0 | ⟨w, hw⟩
      · exact Or.inl h0
      · rcases List.mem_cons.mp hw with hw | hw
        · injection hw with hw1 hw2
          rw [← hw1, findField_jsonName] at hf
          simp at hf
        · exact Or.inr ⟨w, hw⟩
    | some g =>
      rw [hf] at h
      have hn := findField_exact k hkn g hf
      cases hs : setUserObjField r0 g v with
      | error e => simp [hs] at h
      | ok r1 =>
        simp only [hs] at h
        apply ih r1 r hk' h hall'
        by_cases hg : g = f
        · left
          subst hg
          exact set_int_val r0 r1 g v n (hall v (by rw [hn]; exact List.mem_cons_self _ _)) hs
        · rcases h0 with h0 | ⟨w, hw⟩
          · left
            rcases set_intAt r0 r1 g f v hs with h2 | ⟨h2, _⟩
            · exact h2.trans h0
            · exact absurd h2 hg
          · rcases List.mem_cons.mp hw with hw | hw
            · injection hw with hw1 hw2
              rw [← hw1, findField_jsonName] at hf
              injection hf with hf
              exact absurd hf.symm hg
            · exact Or.inr ⟨w, hw⟩

/-- Storing into a field leaves the user id as it is unless the field is the user id, which
takes the string stored. -/
theorem set_userID (r r1 : UserObj) (g : UserObjField) (v : JVal)
    (h : setUserObjField r g v = .ok r1) :
    (g ≠ .UserID → r1.UserID = r.UserID) ∧ (g = .UserID → ∀ s, v = JVal.str s → r1.UserID = s) := by
  cases g <;> simp only [setUserObjField] at h
  all_goals first
    | (cases hv : intOfJVal v with
        | error e => simp [hv, Except.map] at h
        | ok o =>
          simp [hv, Except.map] at h
          subst h
          simp)
    | (cases hv : boolOfJVal v with
        | error e => simp [hv, Except.map] at h
        | ok o =>
          simp [hv, Except.map] at h
          subst h
          simp)
    | (cases hv : stringOfJVal v with
        | error e => simp [hv, Except.map] at h
        | ok o =>
          simp [hv, Except.map] at h
          subst h
          refine ⟨by simp, ?_⟩
          intro _ s hs
          subst hs
          simp [stringOfJVal] at hv
          subst hv
          rfl)

/-- When every value under `user_id` is the string `s`, and the user id is `s` before or the key
occurs, the decoded record has the user id `s`. -/
theorem decode_userID (s : String) (es : List (String × JVal)) :
    ∀ r0 r : UserObj, (∀ kv ∈ es, kv.1 ∈ allNames) → decodeUserObj es r0 = .ok r →
      (∀ w, ("user_id", w) ∈ es → w = JVal.str s) →
      (r0.UserID = s ∨ ∃ w, ("user_id", w) ∈ es) → r.UserID = s := by
  induction es with
  | nil =>
    intro r0 r _ h _ h0
    simp [decodeUserObj] at h
    subst h
    simpa using h0
  | cons e rest ih =>
    intro r0 r hk h hall h0
    obtain ⟨k, v⟩ := e
    have hk' : ∀ kv ∈ rest, kv.1 ∈ allNames := fun kv hkv => hk kv (List.mem_cons_of_mem _ hkv)
    have hall' : ∀ w, ("user_id", w) ∈ rest → w = JVal.str s :=
      fun w hw => hall w (List.mem_cons_of_mem _ hw)
    have hkn := hk (k, v) (List.mem_cons_self _ _)
    have hfu : findField UserObjField.jsonName userObjFields "user_id" = some .UserID :=
      findField_jsonName .UserID
    unfold decodeUserObj at h
    cases hf : findField UserObjField.jsonName userObjFields k with
    | none =>
      rw [hf] at h
      apply ih r0 r hk' h hall'
      rcases h0 with h0 | ⟨w, hw⟩
      · exact Or.inl h0
      · rcases List.mem_cons.mp hw with hw | hw
        · injection hw with hw1 hw2
          rw [← hw1, hfu] at hf
          simp at hf
        · exact Or.inr ⟨w, hw⟩
    | some g =>
      rw [hf] at h
      have hn := findField_exact k hkn g hf
      cases hs : setUserObjField r0 g v with
      | error e => simp [hs] at h
      | ok r1 =>
        simp only [hs] at h
        apply ih r1 r hk' h hall'
        obtain ⟨s1, s2⟩ := set_userID r0 r1 g v hs
        by_cases hg : g = .UserID
        · left
          subst hg
          exact s2 rfl s (hall v (by rw [← hn]; exact List.mem_cons_self _ _))
        · rcases h0 with h0 | ⟨w, hw⟩
          · exact Or.inl ((s1 hg).trans h0)
          · rcases List.mem_cons.mp hw with hw | hw
            · injection hw with hw1 hw2
              rw [← hw1, hfu] at hf
              injection hf with hf
              exact absurd hf.symm hg
            · exact Or.inr ⟨w, hw⟩

/-- Without a member `user_id` the decoded record keeps the user id it had. -/
theorem decode_userID_absent (es : List (String × JVal)) :
    ∀ r0 r : UserObj, (∀ kv ∈ es, kv.1 ∈ allNames) → decodeUserObj es r0 = .ok r →
      (∀ w, ("user_id", w) ∉ es) → r.UserID = r0.UserID := by
  induction es with
  | nil =>
    intro r0 r _ h _
    simp [decodeUserObj] at h
    subst h
    rfl
  | cons e rest ih =>
    intro r0 r hk h hall
    obtain ⟨k, v⟩ := e
    have hk' : ∀ kv ∈ rest, kv.1 ∈ allNames := fun kv hkv => hk kv (List.mem_cons_of_mem _ hkv)
    have hall' : ∀ w, ("user_id", w) ∉ rest :=
      fun w hw => hall w (List.mem_cons_of_mem _ hw)
    have hkn := hk (k, v) (List.mem_cons_self _ _)
    unfold decodeUserObj at h
    cases hf : findField UserObjField.jsonName userObjFields k with
    | none =>
      rw [hf] at h
      exact ih r0 r hk' h hall'
    | some g =>
      rw [hf] at h
      have hn := findField_exact k hkn g hf
      cases hs : setUserObjField r0 g v with
      | error e => simp [hs] at h
      | ok r1 =>
        simp only [hs] at h
        rw [ih r1 r hk' h hall']
        refine (set_userID r0 r1 g v hs).1 ?_
        intro hg
        subst hg
        exact hall v (by rw [← hn]; exact List.mem_cons_self _ _)

/-- For cash, bank or total in a typed balance object: when the block of the key finds the value
of the key as the object has it and no flag of the key before it, the number and the two flags
of the normalised record are the ones `fieldsOfAmount` gives for the value of the key. -/
theorem amount_fields (fk fp fn : UserObjField) (objmap pre : ObjMap) (r : UserObj)
    (hkeys : ∀ kv ∈ objmap, kv.1 ∈ fiveKeys) (hf : Functional objmap) (ht : Typed objmap)
    (hkey : fk.jsonName = "cash" ∨ fk.jsonName = "bank" ∨ fk.jsonName = "total")
    (hdec : decodeUserObj (sortByKey (fixedMap objmap)) {} = .ok r)
    (hget : mapGet pre fk.jsonName = mapGet objmap fk.jsonName)
    (hpre : ∀ w, (fk.jsonName, w) ∈ pre ↔ (fk.jsonName, w) ∈ objmap)
    (hiff : ∀ q w, (q = fk.jsonName ∨ q = fp.jsonName ∨ q = fn.jsonName) →
      ((q, w) ∈ fixedMap objmap ↔ (q, w) ∈ fixInfinity pre fk.jsonName fp.jsonName fn.jsonName))
    (hnp : ∀ w, (fp.jsonName, w) ∉ pre) (hnn : ∀ w, (fn.jsonName, w) ∉ pre)
    (h1 : fk.jsonName ≠ fp.jsonName) (h2 : fk.jsonName ≠ fn.jsonName)
    (h3 : fp.jsonName ≠ fn.jsonName) :
    (r.intAt fk, r.boolAt fp, r.boolAt fn) = fieldsOfAmount (mapGet objmap fk.jsonName) := by
  have hk : ∀ kv ∈ sortByKey (fixedMap objmap), kv.1 ∈ allNames :=
    fun kv h => fixedMap_keys objmap hkeys kv ((mem_sortByKey _ kv).mp h)
  have hmem : ∀ q w, (q = fk.jsonName ∨ q = fp.jsonName ∨ q = fn.jsonName) →
      ((q, w) ∈ sortByKey (fixedMap objmap) ↔
        (q, w) ∈ fixInfinity pre fk.jsonName fp.jsonName fn.jsonName) :=
    fun q w hq => (mem_sortByKey _ _).trans (hiff q w hq)
  have hfl : Flagged (sortByKey (fixedMap objmap)) fk.jsonName fp.jsonName fn.jsonName :=
    Flagged_congr _ _ _ _ _ hmem (fixInfinity_flagged pre _ _ _ hnp hnn h1 h2 h3)
  have horigin := fixInfinity_flag_origin pre fk.jsonName fp.jsonName fn.jsonName
    (JVal.bool true) hnp hnn h1 h2 h3
  have hpos : r.boolAt fp = true → mapGet objmap fk.jsonName = some (JVal.str "Infinity") := by
    intro h
    rcases decode_origin_bool fp _ {} r hk hdec with h' | h'
    · rw [zero_boolAt, h] at h'; simp at h'
    · rw [h] at h'
      exact hget ▸ horigin.1 ((hmem _ _ (Or.inr (Or.inl rfl))).mp h')
  have hneg : r.boolAt fn = true → mapGet objmap fk.jsonName = some (JVal.str "-Infinity") := by
    intro h
    rcases decode_origin_bool fn _ {} r hk hdec with h' | h'
    · rw [zero_boolAt, h] at h'; simp at h'
    · rw [h] at h'
      exact hget ▸ horigin.2 ((hmem _ _ (Or.inr (Or.inr rfl))).mp h')
  have hnoflag : mapGet objmap fk.jsonName ≠ some (JVal.str "Infinity") →
      mapGet objmap fk.jsonName ≠ some (JVal.str "-Infinity") →
      r.boolAt fp = false ∧ r.boolAt fn = false := by
    intro n1 n2
    constructor
    · cases hb : r.boolAt fp
      · rfl
      · exact absurd (hpos hb) n1
    · cases hb : r.boolAt fn
      · rfl
      · exact absurd (hneg hb) n2
  have hval : ∀ n, (∀ w, (fk.jsonName, w) ∈ fixInfinity pre fk.jsonName fp.jsonName fn.jsonName
      → intOfJVal w = .ok (some n)) →
      (∃ w, (fk.jsonName, w) ∈ fixInfinity pre fk.jsonName fp.jsonName fn.jsonName) →
      r.intAt fk = n := by
    intro n ha ⟨w, hw⟩
    refine decode_positive_val fk n _ {} r hk hdec ?_ (Or.inr ⟨w, ?_⟩)
    · intro w' hw'
      exact ha w' ((hmem _ _ (Or.inl rfl)).mp hw')
    · exact (hmem _ _ (Or.inl rfl)).mpr hw
  cases hg : mapGet objmap fk.jsonName with
  | none =>
    have hsame := fixInfinity_same pre fk.jsonName fp.jsonName fn.jsonName
      (fun s => by rw [hget, hg]; simp)
    obtain ⟨f1, f2⟩ := hnoflag (by rw [hg]; simp) (by rw [hg]; simp)
    have hz : r.intAt fk = 0 := by
      rcases decode_origin_int fk _ {} r hk hdec with h' | ⟨v, h', _⟩
      · rw [zero_intAt] at h'; exact h'
      · have := (hmem _ _ (Or.inl rfl)).mp h'
        rw [hsame] at this
        exact absurd ((hpre v).mp this) (mapGet_none objmap _ hg v)
    simp [fieldsOfAmount, hz, f1, f2]
  | some v =>
    have hvmem := mapGet_mem objmap _ v hg
    have hkey' : fk.jsonName = "rank" ∨ fk.jsonName = "cash" ∨ fk.jsonName = "bank" ∨
        fk.jsonName = "total" := Or.inr hkey
    rcases (ht _ v hvmem).2 hkey' with ⟨s, rfl⟩ | ⟨f, n, rfl, hn1, hn2⟩
    · by_cases hs1 : s = "Infinity"
      · subst hs1
        have := flag_set_pos fk fp fn _ r hk hdec hfl
          ((hmem _ _ (Or.inr (Or.inl rfl))).mpr
            (fixInfinity_positive _ _ _ _ (hget.trans hg)))
        simp [fieldsOfAmount, this.1, this.2.1, this.2.2]
      · by_cases hs2 : s = "-Infinity"
        · subst hs2
          have := flag_set_neg fk fp fn _ r hk hdec hfl
            ((hmem _ _ (Or.inr (Or.inr rfl))).mpr
              (fixInfinity_negative _ _ _ _ (hget.trans hg)))
          simp [fieldsOfAmount, this.1, this.2.1, this.2.2]
        · obtain ⟨f1, f2⟩ := hnoflag (by rw [hg]; simpa using hs1) (by rw [hg]; simpa using hs2)
          have hstr := fixInfinity_string pre fk.jsonName fp.jsonName fn.jsonName s
            (hget.trans hg) hs1 hs2
          have hz : r.intAt fk = (ParseInt s 0 64).1 := by
            refine hval _ ?_ ⟨JVal.int (ParseInt s 0 64).1, ?_⟩
            · intro w hw
              rw [hstr, mapSet_entry] at hw
              rw [hw]
              exact intOfJVal_int _ (ParseInt_inInt64 s 0)
            · rw [hstr, mapSet_entry]
          simp [fieldsOfAmount, hs1, hs2, hz, f1, f2]
    · obtain ⟨f1, f2⟩ := hnoflag (by rw [hg]; simp) (by rw [hg]; simp)
      have hsame := fixInfinity_same pre fk.jsonName fp.jsonName fn.jsonName
        (fun s => by rw [hget, hg]; simp)
      have hz : r.intAt fk = n := by
        refine hval n ?_ ⟨JVal.float64 f, ?_⟩
        · intro w hw
          rw [hsame] at hw
          have := hf _ w ((hpre w).mp hw)
          rw [hg] at this
          injection this with this
          rw [← this]
          simp [intOfJVal, hn1, hn2]
        · rw [hsame]
          exact (hpre _).mpr hvmem
      simp [fieldsOfAmount, hn1, hz, f1, f2]

/-- A key outside the five, other than the flags that the earlier blocks set, has no entry in
the object, none after the block for the total and none after the block for the cash. -/
theorem fixedMap_stage_absent (m : ObjMap) (hk : ∀ kv ∈ m, kv.1 ∈ fiveKeys) (q : String)
    (w : JVal) (hq : q ∉ fiveKeys) :
    (q, w) ∉ m ∧
    (q ≠ "infinite_total" → q ≠ "n-infinite_total" →
      (q, w) ∉ fixInfinity m "total" "infinite_total" "n-infinite_total") ∧
    (q ≠ "infinite_total" → q ≠ "n-infinite_total" → q ≠ "infinite_cash" →
      q ≠ "n-infinite_cash" →
      (q, w) ∉ fixInfinity (fixInfinity m "total" "infinite_total" "n-infinite_total")
        "cash" "infinite_cash" "n-infinite_cash") := by
  have no0 : (q, w) ∉ m := fun hm => hq (hk (q, w) hm)
  have no1 : q ≠ "infinite_total" → q ≠ "n-infinite_total" →
      (q, w) ∉ fixInfinity m "total" "infinite_total" "n-infinite_total" := by
    intro h1 h2 hm
    rcases fixInfinity_keys _ _ _ _ _ hm with h | h | h | h
    · exact no0 h
    · simp only at h; subst h; exact hq (by decide)
    · exact h1 h
    · exact h2 h
  refine ⟨no0, no1, ?_⟩
  intro h1 h2 h3 h4 hm
  rcases fixInfinity_keys _ _ _ _ _ hm with h | h | h | h
  · exact no1 h1 h2 h
  · simp only at h; subst h; exact hq (by decide)
  · exact h3 h
  · exact h4 h

/-- The rank of the normalised record of a typed balance object is what `fieldOfRank` gives for
the value of `rank`. -/
theorem rank_field (objmap : ObjMap) (r : UserObj)
    (hkeys : ∀ kv ∈ objmap, kv.1 ∈ fiveKeys) (hf : Functional objmap) (ht : Typed objmap)
    (hdec : decodeUserObj (sortByKey (fixedMap objmap)) {} = .ok r) :
    r.Rank = fieldOfRank (mapGet objmap "rank") := by
  have hk : ∀ kv ∈ sortByKey (fixedMap objmap), kv.1 ∈ allNames :=
    fun kv h => fixedMap_keys objmap hkeys kv ((mem_sortByKey _ kv).mp h)
  obtain ⟨_, _, g3⟩ := mapGet_fixedMap_stages objmap
  have hpre : ∀ w, ("rank", w) ∈ fixInfinity (fixInfinity (fixInfinity objmap "total"
      "infinite_total" "n-infinite_total") "cash" "infinite_cash" "n-infinite_cash")
      "bank" "infinite_bank" "n-infinite_bank" ↔ ("rank", w) ∈ objmap := by
    intro w
    rw [fixInfinity_untouched _ _ _ _ _ _ (by decide) (by decide) (by decide),
      fixInfinity_untouched _ _ _ _ _ _ (by decide) (by decide) (by decide),
      fixInfinity_untouched _ _ _ _ _ _ (by decide) (by decide) (by decide)]
  have hval : ∀ n, (∀ w, ("rank", w) ∈ fixedMap objmap → intOfJVal w = .ok (some n)) →
      (∃ w, ("rank", w) ∈ fixedMap objmap) → r.Rank = n := by
    intro n ha ⟨w, hw⟩
    refine decode_positive_val .Rank n _ {} r hk hdec ?_ (Or.inr ⟨w, ?_⟩)
    · intro w' hw'
      exact ha w' ((mem_sortByKey _ _).mp hw')
    · exact (mem_sortByKey _ _).mpr hw
  cases hg : mapGet objmap "rank" with
  | none =>
    have hsame : fixedMap objmap = _ := fixRank_same _ (fun s => by rw [g3, hg]; simp)
    rcases decode_origin_int .Rank _ {} r hk hdec with h' | ⟨v, h', _⟩
    · simpa [fieldOfRank] using h'
    · have := (mem_sortByKey _ _).mp h'
      rw [hsame] at this
      exact absurd ((hpre v).mp this) (mapGet_none objmap _ hg v)
  | some v =>
    have hvmem := mapGet_mem objmap _ v hg
    rcases (ht _ v hvmem).2 (Or.inl rfl) with ⟨s, rfl⟩ | ⟨f, n, rfl, hn1, hn2⟩
    · have hstr : fixedMap objmap = _ := fixRank_string _ s (g3.trans hg)
      simp only [fieldOfRank]
      refine hval _ ?_ ⟨JVal.int (ParseInt s 0 64).1, ?_⟩
      · intro w hw
        rw [hstr, mapSet_entry] at hw
        rw [hw]
        exact intOfJVal_int _ (ParseInt_inInt64 s 0)
      · rw [hstr, mapSet_entry]
    · have hsame : fixedMap objmap = _ := fixRank_same _ (fun s => by rw [g3, hg]; simp)
      simp only [fieldOfRank, hn1, Option.getD_some]
      refine hval n ?_ ⟨JVal.float64 f, ?_⟩
      · intro w hw
        rw [hsame] at hw
        have := hf _ w ((hpre w).mp hw)
        rw [hg] at this
        injection this with this
        rw [← this]
        simp [intOfJVal, hn1, hn2]
      · rw [hsame]
        exact (hpre _).mpr hvmem

/-- The user id of the normalised record of a typed balance object is what `fieldOfUserID` gives
for the value of `user_id`. -/
theorem userID_field (objmap : ObjMap) (r : UserObj)
    (hkeys : ∀ kv ∈ objmap, kv.1 ∈ fiveKeys) (hf : Functional objmap) (ht : Typed objmap)
    (hdec : decodeUserObj (sortByKey (fixedMap objmap)) {} = .ok r) :
    r.UserID = fieldOfUserID (mapGet objmap "user_id") := by
  have hk : ∀ kv ∈ sortByKey (fixedMap objmap), kv.1 ∈ allNames :=
    fun kv h => fixedMap_keys objmap hkeys kv ((mem_sortByKey _ kv).mp h)
  have hmem : ∀ w, ("user_id", w) ∈ sortByKey (fixedMap objmap) ↔ ("user_id", w) ∈ objmap := by
    intro w
    rw [mem_sortByKey]
    unfold fixedMap
    rw [fixRank_untouched _ _ _ (by decide),
      fixInfinity_untouched _ _ _ _ _ _ (by decide) (by decide) (by decide),
      fixInfinity_untouched _ _ _ _ _ _ (by decide) (by decide) (by decide),
      fixInfinity_untouched _ _ _ _ _ _ (by decide) (by decide) (by decide)]
  cases hg : mapGet objmap "user_id" with
  | none =>
    simp only [fieldOfUserID]
    exact decode_userID_absent _ {} r hk hdec
      (fun w hw => mapGet_none objmap _ hg w ((hmem w).mp hw))
  | some v =>
    have hvmem := mapGet_mem objmap _ v hg
    obtain ⟨s, rfl⟩ := (ht _ v hvmem).1 rfl
    simp only [fieldOfUserID]
    refine decode_userID s _ {} r hk hdec ?_ (Or.inr ⟨_, (hmem _).mpr hvmem⟩)
    intro w hw
    have := hf _ w ((hmem w).mp hw)
    rw [hg] at this
    injection this with this
    exact this.symm

/-- After the assignment `m[k] = v` the lookup of `k` gives `v`. -/
theorem mapGet_mapSet_self (m : ObjMap) (k : String) (v : JVal) :
    mapGet (mapSet m k v) k = some v := by
  unfold mapGet mapSet
  have hnone : List.find? (fun kv => kv.1 == k) (m.filter fun kv => kv.1 != k) = none := by
    rw [List.find?_eq_none]
    intro x hx
    have := (List.mem_filter.mp hx).2
    simpa using this
  rw [List.find?_append, hnone]
  simp [List.find?]

/-- An assignment keeps the keys of a map distinct. -/
theorem mapSet_functional (m : ObjMap) (k : String) (v : JVal) (h : Functional m) :
    Functional (mapSet m k v) := by
  intro q w hmem
  rcases (mem_mapSet m k v (q, w)).mp hmem with ⟨h1, h2⟩ | h1
  · rw [mapGet_mapSet_ne m k q v h2]
    exact h q w h1
  · injection h1 with h1 h2
    subst h1 h2
    exact mapGet_mapSet_self m q w

/-- The map built from the members of an object has distinct keys. -/
theorem mapOfEntries_functional (es : List (String × JVal)) : Functional (mapOfEntries es) := by
  have gen : ∀ (l : List (String × JVal)) (m : ObjMap), Functional m →
      Functional (l.foldl (fun m kv => mapSet m kv.1 kv.2) m) := by
    intro l
    induction l with
    | nil => intro m hm; exact hm
    | cons e t ih =>
      intro m hm
      exact ih _ (mapSet_functional m e.1 e.2 hm)
  exact gen es [] (fun k v hkv => absurd hkv (List.not_mem_nil _))

/-- The map that `json.Unmarshal` stores has distinct keys. -/
theorem unmarshalObjmap_functional (data : String) (objmap : ObjMap)
    (h : unmarshalObjmap data = .ok objmap) : Functional objmap := by
  unfold unmarshalObjmap at h
  split at h
  · cases h
  · injection h with h
    subst h
    exact fun k v hkv => absurd hkv (List.not_mem_nil _)
  · split at h
    · cases h
    · injection h with h
      subst h
      exact mapOfEntries_functional _
  · cases h

/-- What `fixTypesToStruct` returns for a typed balance object with keys among the five: no
error, and the record that `recordOfObject` gives field by field, whatever the other fields
hold. -/
theorem fixTypesToStruct_recordOfObject (data : String) (objmap : ObjMap)
    (hdec : unmarshalObjmap data = .ok objmap) (hkeys : ∀ kv ∈ objmap, kv.1 ∈ fiveKeys)
    (ht : Typed objmap) :
    fixTypesToStruct data = (recordOfObject objmap, none) := by
  have hf := unmarshalObjmap_functional data objmap hdec
  obtain ⟨r, hr⟩ := fixTypesToStruct_ok data objmap hdec hkeys hf ht
  have hd := fixTypesToStruct_eq data objmap r hdec hr
  obtain ⟨g1, g2, _⟩ := mapGet_fixedMap_stages objmap
  have ab := fun q w hq => fixedMap_stage_absent objmap hkeys q w hq
  have hcash := amount_fields .Cash .CashInfinite .CashNinfinite objmap
    (fixInfinity objmap "total" "infinite_total" "n-infinite_total") r hkeys hf ht
    (Or.inl rfl) hd g1
    (fun w => fixInfinity_untouched _ _ _ _ _ _ (by decide) (by decide) (by decide))
    (fun q w hq => fixedMap_cash_iff objmap q w hq)
    (fun w => (ab _ w (by decide)).2.1 (by decide) (by decide))
    (fun w => (ab _ w (by decide)).2.1 (by decide) (by decide))
    (by decide) (by decide) (by decide)
  have hbank := amount_fields .Bank .BankInfinite .BankNinfinite objmap
    (fixInfinity (fixInfinity objmap "total" "infinite_total" "n-infinite_total")
      "cash" "infinite_cash" "n-infinite_cash") r hkeys hf ht
    (Or.inr (Or.inl rfl)) hd g2
    (fun w => by
      rw [fixInfinity_untouched _ _ _ _ _ _ (by decide) (by decide) (by decide),
        fixInfinity_untouched _ _ _ _ _ _ (by decide) (by decide) (by decide)])
    (fun q w hq => fixedMap_bank_iff objmap q w hq)
    (fun w => (ab _ w (by decide)).2.2 (by decide) (by decide) (by decide) (by decide))
    (fun w => (ab _ w (by decide)).2.2 (by decide) (by decide) (by decide) (by decide))
    (by decide) (by decide) (by decide)
  have htotal := amount_fields .Total .Infinite .Ninfinite objmap objmap r hkeys hf ht
    (Or.inr (Or.inr rfl)) hd rfl (fun w => Iff.rfl)
    (fun q w hq => fixedMap_total_iff objmap q w hq)
    (fun w => (ab _ w (by decide)).1)
    (fun w => (ab _ w (by decide)).1)
    (by decide) (by decide) (by decide)
  have hrank := rank_field objmap r hkeys hf ht hd
  have huid := userID_field objmap r hkeys hf ht hd
  rw [hr]
  congr 1
  have c1 := congrArg Prod.fst hcash
  have c2 := congrArg (fun p => p.2.1) hcash
  have c3 := congrArg (fun p => p.2.2) hcash
  have b1 := congrArg Prod.fst hbank
  have b2 := congrArg (fun p => p.2.1) hbank
  have b3 := congrArg (fun p => p.2.2) hbank
  have t1 := congrArg Prod.fst htotal
  have t2 := congrArg (fun p => p.2.1) htotal
  have t3 := congrArg (fun p => p.2.2) htotal
  simp only [UserObj.intAt, UserObj.boolAt, UserObjField.jsonName] at c1 c2 c3 b1 b2 b3 t1 t2 t3
  cases r
  simp only [recordOfObject] at *
  simp only [UserObj.mk.injEq]
  exact ⟨hrank, huid, c1, c2, c3, b1, b2, b3, t1, t2, t3⟩

/-! ## Lemmas: whole numbers under the verb %v -/

/-- The digits that `Nat.toDigitsCore` writes do not depend on the fuel, once it exceeds the
number, and are put in front of the accumulator. -/
theorem toDigitsCore_fuel : ∀ (n fuel1 fuel2 : Nat) (acc : List Char), n < fuel1 → n < fuel2 →
    Nat.toDigitsCore 10 fuel1 n acc = Nat.toDigitsCore 10 fuel2 n [] ++ acc := by
  intro n
  induction n using Nat.strong_induction_on with
  | _ n ih =>
    intro fuel1 fuel2 acc h1 h2
    obtain ⟨f1, rfl⟩ : ∃ f, fuel1 = f + 1 := ⟨fuel1 - 1, by omega⟩
    obtain ⟨f2, rfl⟩ : ∃ f, fuel2 = f + 1 := ⟨fuel2 - 1, by omega⟩
    by_cases h0 : n / 10 = 0
    · simp [Nat.toDigitsCore, h0]
    · have hlt : n / 10 < n := by omega
      simp only [Nat.toDigitsCore, h0, if_false]
      rw [ih (n / 10) hlt f1 f2 _ (by omega) (by omega),
        ih (n / 10) hlt f2 f2 [Nat.digitChar (n % 10)] (by omega) (by omega)]
      simp

/-- The digits of ten times a positive number are the digits of the number and a zero. -/
theorem toDigits_mul_ten (m : Nat) (hm : 1 ≤ m) :
    Nat.toDigits 10 (10 * m) = Nat.toDigits 10 m ++ ['0'] := by
  have e1 : 10 * m / 10 = m := by omega
  have e2 : 10 * m % 10 = 0 := by omega
  have hm0 : m ≠ 0 := by omega
  unfold Nat.toDigits
  rw [Nat.toDigitsCore]
  simp only [e1, e2, hm0, if_false]
  rw [toDigitsCore_fuel m (10 * m) (m + 1) _ (by omega) (by omega)]
  rfl

/-- The digits of a positive number times `10^k` are the digits of the number and `k` zeros. -/
theorem toDigits_mul_pow (N k : Nat) (hN : 1 ≤ N) :
    Nat.toDigits 10 (N * 10 ^ k) = Nat.toDigits 10 N ++ List.replicate k '0' := by
  induction k with
  | zero => simp
  | succ k ih =>
    have e : N * 10 ^ (k + 1) = 10 * (N * 10 ^ k) := by ring
    have hpos : 1 ≤ N * 10 ^ k := Nat.mul_pos hN (by positivity)
    rw [e, toDigits_mul_ten _ hpos, ih, List.replicate_succ', List.append_assoc]

/-- Dropping the leading zeros of a list drops the zeros put in front of it. -/
theorem dropWhile_zeros (k : Nat) (l : List Char) :
    (List.replicate k '0' ++ l).dropWhile (fun c => c == '0') = l.dropWhile fun c => c == '0' := by
  induction k with
  | zero => simp
  | succ k ih => simp [List.replicate_succ, List.dropWhile, ih]

/-- Zeros appended to a string of digits are trimmed with the zeros at its end. -/
theorem trimZeros_append_zeros (ds : List Char) (k : Nat) :
    trimZeros (ds ++ List.replicate k '0') = trimZeros ds := by
  unfold trimZeros
  rw [List.reverse_append, List.reverse_replicate, dropWhile_zeros]

/-- A list is its leading zeros followed by what is left without them. -/
theorem dropWhile_pad (l : List Char) :
    List.replicate (l.length - (l.dropWhile fun c => c == '0').length) '0' ++
      (l.dropWhile fun c => c == '0') = l ∧
    (l.dropWhile fun c => c == '0').length ≤ l.length := by
  induction l with
  | nil => simp
  | cons c t ih =>
    by_cases hc : c = '0'
    · subst hc
      have e : (('0' :: t).dropWhile fun c => c == '0') = t.dropWhile fun c => c == '0' := by
        simp [List.dropWhile]
      rw [e]
      have hs : ('0' :: t).length - (t.dropWhile fun c => c == '0').length
          = (t.length - (t.dropWhile fun c => c == '0').length) + 1 := by
        simp only [List.length_cons]
        omega
      rw [hs, List.replicate_succ, List.cons_append, ih.1]
      exact ⟨rfl, by simp only [List.length_cons]; omega⟩
    · have hb : (c == '0') = false := by simp [hc]
      have e : ((c :: t).dropWhile fun c => c == '0') = c :: t := by
        rw [List.dropWhile, hb]
      rw [e]
      simp

/-- A string of digits is the trimmed string followed by as many zeros as were trimmed. -/
theorem trimZeros_pad (ds : List Char) :
    trimZeros ds ++ List.replicate (ds.length - (trimZeros ds).length) '0' = ds ∧
    (trimZeros ds).length ≤ ds.length := by
  obtain ⟨h1, h2⟩ := dropWhile_pad ds.reverse
  unfold trimZeros
  simp only [List.length_reverse] at h1 h2 ⊢
  refine ⟨?_, h2⟩
  have := congrArg List.reverse h1
  simp only [List.reverse_append, List.reverse_replicate, List.reverse_reverse] at this
  exact this

/-- For a float that is an integer `N`, scaled by `10^k` in `shortestDigits`: the candidate at a
digit position exists only if the position divides `N * 10^k`, and is then that number itself,
because every other multiple of the position is further from it than half the distance to the
next float. -/
theorem intCandidate_scaled (N S k low : Nat) (incl : Bool) (j : Nat)
    (hN : 1 ≤ N) (hS : 4 ≤ S) (hlow : 1 ≤ low ∧ low ≤ 2 * 10 ^ k) :
    intCandidate (N * 10 ^ k * S) (N * 10 ^ k * S - low) (N * 10 ^ k * S + 2 * 10 ^ k) S incl j
      = if N * 10 ^ k % 10 ^ j = 0 then some (N * 10 ^ k) else none := by
  have hT : 0 < 10 ^ j := by positivity
  have hK : 0 < 10 ^ k := by positivity
  have hSpos : 0 < S := by omega
  generalize hM : N * 10 ^ k = M
  have hM1 : 1 ≤ M := by rw [← hM]; exact Nat.mul_pos hN hK
  have hdiv : M * S / (10 ^ j * S) = M / 10 ^ j := Nat.mul_div_mul_right _ _ hSpos
  have hmod : M * S % (10 ^ j * S) = M % 10 ^ j * S := Nat.mul_mod_mul_right _ _ _
  have hdm : M / 10 ^ j * 10 ^ j + M % 10 ^ j = M := Nat.div_add_mod' M (10 ^ j)
  have hv : 4 ≤ M * S := le_trans hS (Nat.le_mul_of_pos_left S hM1)
  unfold intCandidate
  simp only [hdiv, hmod]
  by_cases hb : M % 10 ^ j = 0
  · have hdown : M / 10 ^ j * (10 ^ j * S) = M * S := by
      rw [← Nat.mul_assoc]
      congr 1
      omega
    simp only [hb, Nat.zero_mul, if_true, hdown]
    have hNS : M * S / S = M := Nat.mul_div_cancel _ hSpos
    have h1 : M * S - low ≤ M * S := by omega
    have h3 : M * S - low < M * S := by omega
    cases incl <;> simp [hNS, h1, h3, hK]
  · have hjk : k < j := by
      by_contra hc
      have hd : 10 ^ j ∣ M := by
        rw [← hM]
        exact Dvd.dvd.mul_left (pow_dvd_pow 10 (by omega)) N
      exact hb (Nat.mod_eq_zero_of_dvd hd)
    obtain ⟨d, rfl⟩ : ∃ d, j = k + d := ⟨j - k, by omega⟩
    have hr : M % 10 ^ (k + d) = N % 10 ^ d * 10 ^ k := by
      rw [← hM, pow_add, Nat.mul_comm (10 ^ k) (10 ^ d)]
      exact Nat.mul_mod_mul_right _ _ _
    have hr0 : N % 10 ^ d ≠ 0 := by
      intro h
      rw [hr, h, Nat.zero_mul] at hb
      exact hb rfl
    have hrlt : N % 10 ^ d < 10 ^ d := Nat.mod_lt _ (by positivity)
    have hx1 : 10 ^ k * S ≤ M % 10 ^ (k + d) * S := by
      rw [hr]
      exact Nat.mul_le_mul_right S (Nat.le_mul_of_pos_left _ (Nat.pos_of_ne_zero hr0))
    have hx2 : M % 10 ^ (k + d) * S + 10 ^ k * S ≤ 10 ^ (k + d) * S := by
      rw [hr, ← Nat.add_mul]
      apply Nat.mul_le_mul_right
      have : (N % 10 ^ d + 1) * 10 ^ k ≤ 10 ^ d * 10 ^ k := Nat.mul_le_mul_right _ hrlt
      rw [pow_add, Nat.mul_comm (10 ^ k) (10 ^ d)]
      calc N % 10 ^ d * 10 ^ k + 10 ^ k = (N % 10 ^ d + 1) * 10 ^ k := by ring
        _ ≤ 10 ^ d * 10 ^ k := this
    have hbig : 4 * 10 ^ k ≤ 10 ^ k * S := by
      rw [Nat.mul_comm]
      exact Nat.mul_le_mul_left _ hS
    have hdown : M / 10 ^ (k + d) * (10 ^ (k + d) * S) + M % 10 ^ (k + d) * S = M * S := by
      rw [← Nat.mul_assoc, ← Nat.add_mul, hdm]
    have hx0 : M % 10 ^ (k + d) * S ≠ 0 := by omega
    simp only [hx0, hb, if_false]
    generalize M / 10 ^ (k + d) * (10 ^ (k + d) * S) = D at hdown ⊢
    generalize M % 10 ^ (k + d) * S = x at hx1 hx2 hdown hx0 ⊢
    generalize 10 ^ (k + d) * S = y at hx2 ⊢
    generalize M * S = v at hv hdown ⊢
    generalize 10 ^ k * S = z at hx1 hx2 hbig
    generalize 10 ^ k = T at hlow hbig hK ⊢
    have h1 : ¬ (v - low ≤ D) := by omega
    have h2 : ¬ (D + y ≤ v + 2 * T) := by omega
    have h3 : ¬ (v - low < D) := by omega
    have h4 : ¬ (D + y < v + 2 * T) := by omega
    cases incl <;> simp [h1, h2, h3, h4]

/-- The search of `shortestDigits` for a float that is an integer `N`, scaled by `10^k`, finds
`N * 10^k`. -/
theorem shortestInt_scaled (N S k low : Nat) (incl : Bool) (j : Nat)
    (hN : 1 ≤ N) (hS : 4 ≤ S) (hlow : 1 ≤ low ∧ low ≤ 2 * 10 ^ k) :
    shortestInt (N * 10 ^ k * S) (N * 10 ^ k * S - low) (N * 10 ^ k * S + 2 * 10 ^ k) S incl j
      = some (N * 10 ^ k) := by
  induction j with
  | zero => simp [shortestInt, intCandidate_scaled N S k low incl 0 hN hS hlow, Nat.mod_one]
  | succ j ih =>
    unfold shortestInt
    rw [intCandidate_scaled N S k low incl (j + 1) hN hS hlow]
    by_cases h : N * 10 ^ k % 10 ^ (j + 1) = 0
    · simp [h]
    · simp [h, ih]

/-- The shortest digits of a float that is a positive integer `N` (written with mantissa `N *
2^k` and exponent `-k`) are the digits of `N` without the zeros at the end, with the decimal
point after as many digits as `N` has. -/
theorem shortestDigits_int (N k : Nat) (neg : Bool) (hN : 1 ≤ N) :
    shortestDigits ⟨neg, N * 2 ^ k, -(k : Int)⟩
      = ⟨trimZeros (Nat.toDigits 10 N), ((Nat.toDigits 10 N).length : Int)⟩ := by
  have hpos : 0 < 2 ^ k := by positivity
  have hm : N * 2 ^ k ≠ 0 := by
    have := Nat.mul_pos (show 0 < N by omega) hpos
    omega
  have hK : 0 < 10 ^ k := by positivity
  have e1 : (-(k : Int)).toNat = 0 := by omega
  have e2 : (-(-(k : Int))).toNat = k := by omega
  have hv : 4 * (N * 2 ^ k) * 1 * 10 ^ k = N * 10 ^ k * (4 * 2 ^ k) := by ring
  have hh : 2 * 1 * 10 ^ k = 2 * 10 ^ k := by ring
  have hS : 4 ≤ 4 * 2 ^ k := by omega
  have hfin : (⟨trimZeros (Nat.toDigits 10 (N * 10 ^ k)),
      ((Nat.toDigits 10 (N * 10 ^ k)).length : Int) - (k : Int)⟩ : decimalSlice)
      = ⟨trimZeros (Nat.toDigits 10 N), ((Nat.toDigits 10 N).length : Int)⟩ := by
    rw [toDigits_mul_pow N k hN, trimZeros_append_zeros]
    simp
  unfold shortestDigits
  simp only [hm, if_false, e1, e2, pow_zero, hv, hh, Nat.one_mul]
  by_cases hl : N * 2 ^ k = 2 ^ 52 ∧ -(k : Int) > -1074
  · simp only [hl, and_self, if_true]
    rw [shortestInt_scaled N (4 * 2 ^ k) k (10 ^ k) _ _ hN hS (by omega)]
    exact hfin
  · simp only [hl, if_false]
    rw [shortestInt_scaled N (4 * 2 ^ k) k (2 * 10 ^ k) _ _ hN hS (by omega)]
    exact hfin

/-- A number below a million has at most six digits. -/
theorem toDigits_length_six (N : Nat) (h : N < 10 ^ 6) : (Nat.toDigits 10 N).length ≤ 6 := by
  unfold Nat.toDigits
  exact Nat.toDigitsCore_length 10 (by decide) (N + 1) N 6 h (by decide)

/-- Format `g` with the shortest digits writes a float that is an integer of magnitude from 1 to
999999 as the decimal numeral of the integer: the decimal exponent is below 6, so the layout is
`%f`, without a fraction. -/
theorem FormatFloat_int (N k : Nat) (neg : Bool) (hN : 1 ≤ N) (h6 : N < 10 ^ 6) :
    FormatFloat ⟨neg, N * 2 ^ k, -(k : Int)⟩ 'g'
      = (if neg then ['-'] else []) ++ Nat.toDigits 10 N := by
  obtain ⟨_, _, ⟨c, t, hct, _⟩, _⟩ := toDigits_spec N
  have hlen := toDigits_length_six N h6
  obtain ⟨hpad, hle⟩ := trimZeros_pad (Nat.toDigits 10 N)
  have hpos : 0 < (Nat.toDigits 10 N).length := by rw [hct]; simp
  unfold FormatFloat
  rw [shortestDigits_int N k neg hN]
  have hg1 : ('g' = 'e') = False := by decide
  have hg2 : ('g' = 'f') = False := by decide
  have hexp : ¬ (((Nat.toDigits 10 N).length : Int) - 1 < -4 ∨
      ((Nat.toDigits 10 N).length : Int) - 1 ≥ 6) := by omega
  have hprec : max (((trimZeros (Nat.toDigits 10 N)).length : Int) -
      ((Nat.toDigits 10 N).length : Int)) 0 = 0 := by omega
  simp only [hg1, hg2, if_false, hexp, hprec]
  unfold fmtF
  have hdp : ((Nat.toDigits 10 N).length : Int) > 0 := by omega
  simp only [hdp, if_true, lt_self_iff_false, if_false, Int.toNat_ofNat, List.append_nil]
  rw [List.take_of_length_le hle, hpad]

/-- The verb `%v` writes the float that the numeral of an integer of magnitude below a million
is read as, as that numeral. -/
theorem formatV_small_int (n : Int) (f : F64) (h : -(10 : Int) ^ 6 < n ∧ n < (10 : Int) ^ 6)
    (hf : ParseFloat (decimalNumeral n) = some f) :
    formatV (JVal.float64 f) = (decimalNumeral n).data := by
  by_cases h0 : n = 0
  · subst h0
    have : ParseFloat (decimalNumeral 0) = some ⟨false, 0, 0⟩ := by rfl
    rw [this] at hf
    injection hf with hf
    subst hf
    rfl
  · rw [ParseFloat_decimalNumeral n h0 (by constructor <;> [skip; skip] <;> omega)] at hf
    injection hf with hf
    subst hf
    rw [formatV, FormatFloat_int _ _ _ (by omega) (by omega)]
    unfold decimalNumeral
    by_cases hneg : n < 0
    · simp [hneg]
    · have : n.toNat = n.natAbs := by omega
      simp [hneg, this]

/-! ## Lemmas: where the leaderboard agrees with GetBalance -/

/-- Decimal digits are written by `json.Marshal` without an escape. -/
theorem encodeChars_digits (ds : List Char) (h : AllDigits ds) : encodeChars ds = ds := by
  induction ds with
  | nil => rfl
  | cons c t ih =>
    have hc := h c (List.mem_cons_self _ _)
    have ht : AllDigits t := fun x hx => h x (List.mem_cons_of_mem _ hx)
    have e : encodeChar c = [c] := by
      have n1 : c ≠ '\\' := by rintro rfl; revert hc; decide
      have n2 : c ≠ '"' := by rintro rfl; revert hc; decide
      have n3 : c ≠ '\n' := by rintro rfl; revert hc; decide
      have n4 : c ≠ '\r' := by rintro rfl; revert hc; decide
      have n5 : c ≠ '\t' := by rintro rfl; revert hc; decide
      have n6 : c ≠ '<' := by rintro rfl; revert hc; decide
      have n7 : c ≠ '>' := by rintro rfl; revert hc; decide
      have n8 : c ≠ '&' := by rintro rfl; revert hc; decide
      have n9 : ¬ c.toNat < 0x20 := by omega
      have n10 : ¬ c.toNat = 0x2028 := by omega
      have n11 : ¬ c.toNat = 0x2029 := by omega
      simp [encodeChar, n1, n2, n3, n4, n5, n6, n7, n8, n9, n10, n11]
    rw [encodeChars, e, ih ht]
    rfl

/-- The decimal numeral of an integer is written by `json.Marshal` without an escape. -/
theorem encodeChars_numeral (n : Int) :
    encodeChars (decimalNumeral n).data = (decimalNumeral n).data := by
  unfold decimalNumeral
  by_cases hneg : n < 0
  · simp only [hneg, if_true]
    rw [encodeChars, encodeChars_digits _ (toDigits_spec n.natAbs).1]
    rfl
  · simp only [hneg, if_false]
    exact encodeChars_digits _ (toDigits_spec n.toNat).1

/-- The text `%v` writes for a faithful field has no character that `json.Marshal` escapes. -/
theorem formatV_faithful (x : JVal) (h : Faithful x) :
    encodeChars (formatV x) = formatV x := by
  rcases h with ⟨n, f, hn, hf, rfl⟩ | ⟨s, rfl, hs⟩
  · rw [formatV_small_int n f hn hf]
    exact encodeChars_numeral n
  · rw [formatV]
    exact hs

/-- An integer of magnitude below a million, read as a float from its numeral: the marshalled
literal of the float denotes the integer, the integer is in the range of `int64`, and `ParseInt`
reads the numeral as the integer. -/
theorem faithful_number (n : Int) (f : F64) (hn : -(10 : Int) ^ 6 < n ∧ n < (10 : Int) ^ 6)
    (hf : ParseFloat (decimalNumeral n) = some f) :
    float64AsInt f = some n ∧ inInt64 n = true ∧ ParseInt (decimalNumeral n) 0 64 = (n, none) := by
  obtain ⟨f1, h1, h2⟩ := float_of_decimalNumeral n (by constructor <;> [skip; skip] <;> omega)
  rw [hf] at h1
  injection h1 with h1
  subst h1
  refine ⟨h2, ?_, ParseInt_decimalNumeral n 0 (by constructor <;> [skip; skip] <;> omega)
    (Or.inl rfl)⟩
  unfold inInt64
  simp only [decide_eq_true_eq]
  constructor <;> [skip; skip] <;> omega

/-- For a faithful field, the string that `%v` makes of it gives the same number and flags as
the field itself. -/
theorem fieldsOfAmount_faithful (x : JVal) (h : Faithful x) :
    fieldsOfAmount (some (JVal.str (String.mk (formatV x)))) = fieldsOfAmount (some x) := by
  rcases h with ⟨n, f, hn, hf, rfl⟩ | ⟨s, rfl, _⟩
  · obtain ⟨h1, _, h3⟩ := faithful_number n f hn hf
    obtain ⟨e1, e2⟩ := decimalNumeral_ne_infinity n
    rw [formatV_small_int n f hn hf]
    simp only [fieldsOfAmount, e1, e2, if_false, h3, h1, Option.getD_some]
  · rw [formatV]

/-- For a faithful field, the string that `%v` makes of it gives the same rank as the field
itself. -/
theorem fieldOfRank_faithful (x : JVal) (h : Faithful x) :
    fieldOfRank (some (JVal.str (String.mk (formatV x)))) = fieldOfRank (some x) := by
  rcases h with ⟨n, f, hn, hf, rfl⟩ | ⟨s, rfl, _⟩
  · obtain ⟨h1, _, h3⟩ := faithful_number n f hn hf
    rw [formatV_small_int n f hn hf]
    simp only [fieldOfRank, h3, h1, Option.getD_some]
  · rw [formatV]

/-- The text of line 308 parses to the object of the five keys, in the order of the format
string, each with the string that `%v` wrote, when none of these strings has a character that
needs an escape. -/
theorem parseJSON_rawValue (v : userObjRaw)
    (h1 : encodeChars (formatV v.Rank) = formatV v.Rank)
    (h2 : encodeChars (formatV v.UserID) = formatV v.UserID)
    (h3 : encodeChars (formatV v.Cash) = formatV v.Cash)
    (h4 : encodeChars (formatV v.Bank) = formatV v.Bank)
    (h5 : encodeChars (formatV v.Total) = formatV v.Total) :
    parseJSON (rawValue v) = some (JSON.obj
      [("rank", JSON.str (String.mk (formatV v.Rank))),
       ("user_id", JSON.str (String.mk (formatV v.UserID))),
       ("cash", JSON.str (String.mk (formatV v.Cash))),
       ("bank", JSON.str (String.mk (formatV v.Bank))),
       ("total", JSON.str (String.mk (formatV v.Total)))]) := by
  have h := parseJSON_object
    [("rank", Sum.inl (String.mk (formatV v.Rank))),
     ("user_id", Sum.inl (String.mk (formatV v.UserID))),
     ("cash", Sum.inl (String.mk (formatV v.Cash))),
     ("bank", Sum.inl (String.mk (formatV v.Bank))),
     ("total", Sum.inl (String.mk (formatV v.Total)))]
  have k1 : encodeString "rank" = "\"rank\"".data := by rfl
  have k2 : encodeString "user_id" = "\"user_id\"".data := by rfl
  have k3 : encodeString "cash" = "\"cash\"".data := by rfl
  have k4 : encodeString "bank" = "\"bank\"".data := by rfl
  have k5 : encodeString "total" = "\"total\"".data := by rfl
  simp only [List.map, entryText, simpleVal, marshalValue, joinWith, simpleJSON, k1, k2, k3, k4,
    k5] at h
  simp only [encodeString, h1, h2, h3, h4, h5] at h
  rw [← h]
  congr 1
  unfold rawValue
  congr 1
  simp

/-- The text of line 308 decodes to the map of the five keys, each with the string that `%v`
wrote, when none of these strings has a character that needs an escape. -/
theorem unmarshalObjmap_rawValue (v : userObjRaw)
    (h1 : encodeChars (formatV v.Rank) = formatV v.Rank)
    (h2 : encodeChars (formatV v.UserID) = formatV v.UserID)
    (h3 : encodeChars (formatV v.Cash) = formatV v.Cash)
    (h4 : encodeChars (formatV v.Bank) = formatV v.Bank)
    (h5 : encodeChars (formatV v.Total) = formatV v.Total) :
    unmarshalObjmap (rawValue v) = .ok
      [("rank", JVal.str (String.mk (formatV v.Rank))),
       ("user_id", JVal.str (String.mk (formatV v.UserID))),
       ("cash", JVal.str (String.mk (formatV v.Cash))),
       ("bank", JVal.str (String.mk (formatV v.Bank))),
       ("total", JVal.str (String.mk (formatV v.Total)))] := by
  unfold unmarshalObjmap
  rw [parseJSON_rawValue v h1 h2 h3 h4 h5]
  rfl

/-- Where the leaderboard agrees with `GetBalance`: for a raw record with all five fields, whose
rank, cash, bank and total are each an integer JSON number of magnitude below a million or a
string without a character that needs an escape, and whose user id is such a string, the entry
that `Leaderboard` makes from the text of line 308 is the record that `fixTypesToStruct` returns
for any document of the same object. -/
theorem leaderboard_entry_agrees (v : userObjRaw) (data : String) (objmap : ObjMap)
    (hdec : unmarshalObjmap data = .ok objmap) (hkeys : ∀ kv ∈ objmap, kv.1 ∈ fiveKeys)
    (grank : mapGet objmap "rank" = some v.Rank)
    (guser : mapGet objmap "user_id" = some v.UserID)
    (gcash : mapGet objmap "cash" = some v.Cash)
    (gbank : mapGet objmap "bank" = some v.Bank)
    (gtotal : mapGet objmap "total" = some v.Total)
    (frank : Faithful v.Rank) (fcash : Faithful v.Cash) (fbank : Faithful v.Bank)
    (ftotal : Faithful v.Total)
    (fuser : ∃ s, v.UserID = JVal.str s ∧ encodeChars s.data = s.data) :
    fixTypesToStruct (rawValue v) = fixTypesToStruct data := by
  have hf := unmarshalObjmap_functional data objmap hdec
  have fuser1 : Faithful v.UserID := Or.inr fuser
  have hraw := unmarshalObjmap_rawValue v (formatV_faithful _ frank) (formatV_faithful _ fuser1)
    (formatV_faithful _ fcash) (formatV_faithful _ fbank) (formatV_faithful _ ftotal)
  have good : ∀ x, Faithful x → (∃ s, x = JVal.str s) ∨ GoodNumber x := by
    intro x hx
    rcases hx with ⟨n, f, hn, hpf, rfl⟩ | ⟨s, rfl, _⟩
    · obtain ⟨a, b, _⟩ := faithful_number n f hn hpf
      exact Or.inr ⟨f, n, rfl, a, b⟩
    · exact Or.inl ⟨s, rfl⟩
  have ht : Typed objmap := by
    intro k w hmem
    have hg := hf k w hmem
    constructor
    · intro hk
      subst hk
      rw [guser] at hg
      injection hg with hg
      obtain ⟨s, hs, _⟩ := fuser
      exact ⟨s, by rw [← hg, hs]⟩
    · intro hk
      rcases hk with hk | hk | hk | hk <;> subst hk
      · rw [grank] at hg; injection hg with hg; rw [← hg]; exact good _ frank
      · rw [gcash] at hg; injection hg with hg; rw [← hg]; exact good _ fcash
      · rw [gbank] at hg; injection hg with hg; rw [← hg]; exact good _ fbank
      · rw [gtotal] at hg; injection hg with hg; rw [← hg]; exact good _ ftotal
  rw [fixTypesToStruct_recordOfObject data objmap hdec hkeys ht]
  rw [fixTypesToStruct_recordOfObject (rawValue v) _ hraw
    (by
      intro kv hkv
      simp only [List.mem_cons, List.mem_singleton, List.not_mem_nil, or_false] at hkv
      rcases hkv with h | h | h | h | h <;> subst h <;> simp [fiveKeys])
    (by
      intro k w hkv
      simp only [List.mem_cons, List.mem_singleton, List.not_mem_nil, or_false,
        Prod.mk.injEq] at hkv
      rcases hkv with ⟨h, h'⟩ | ⟨h, h'⟩ | ⟨h, h'⟩ | ⟨h, h'⟩ | ⟨h, h'⟩ <;> subst h <;> subst h' <;>
        exact ⟨fun _ => ⟨_, rfl⟩, fun _ => Or.inl ⟨_, rfl⟩⟩)]
  congr 1
  obtain ⟨s, hs, _⟩ := fuser
  have m1 : ∀ a b c d e : JVal, mapGet [("rank", a), ("user_id", b), ("cash", c), ("bank", d),
      ("total", e)] "rank" = some a := fun _ _ _ _ _ => rfl
  have m2 : ∀ a b c d e : JVal, mapGet [("rank", a), ("user_id", b), ("cash", c), ("bank", d),
      ("total", e)] "user_id" = some b := fun _ _ _ _ _ => rfl
  have m3 : ∀ a b c d e : JVal, mapGet [("rank", a), ("user_id", b), ("cash", c), ("bank", d),
      ("total", e)] "cash" = some c := fun _ _ _ _ _ => rfl
  have m4 : ∀ a b c d e : JVal, mapGet [("rank", a), ("user_id", b), ("cash", c), ("bank", d),
      ("total", e)] "bank" = some d := fun _ _ _ _ _ => rfl
  have m5 : ∀ a b c d e : JVal, mapGet [("rank", a), ("user_id", b), ("cash", c), ("bank", d),
      ("total", e)] "total" = some e := fun _ _ _ _ _ => rfl
  have hu : fieldOfUserID (some (JVal.str (String.mk (formatV v.UserID))))
      = fieldOfUserID (some v.UserID) := by
    rw [hs, formatV]
  unfold recordOfObject
  rw [m1, m2, m3, m4, m5, grank, guser, gcash, gbank, gtotal, fieldOfRank_faithful _ frank,
    fieldsOfAmount_faithful _ fcash, fieldsOfAmount_faithful _ fbank, fieldsOfAmount_faithful _ ftotal, hu]

set_option maxRecDepth 10000 in
/-- The agreement at a record with numbers of up to six digits and an infinite total: the record
is what `Leaderboard` decodes from the array with this one element, its entry is the record of
`fixTypesToStruct`, and that record has rank 3, cash 999999, bank -250 and the total infinite.
-/
theorem leaderboard_entry_agrees_sample :
    unmarshalLeaderboardRaw ("[" ++ smallRecord ++ "]") = .ok [smallRaw] ∧
    fixTypesToStruct (rawValue smallRaw) = fixTypesToStruct smallRecord ∧
    fixTypesToStruct smallRecord =
      ({ Rank := 3, UserID := "77", Cash := 999999, Bank := -250, Infinite := true }, none) :=
  ⟨by rfl,
   leaderboard_entry_agrees smallRaw smallRecord smallObjmap (by rfl) (by decide) rfl rfl rfl rfl
     rfl (Or.inl ⟨3, _, by decide, by rfl, rfl⟩) (Or.inl ⟨999999, _, by decide, by rfl, rfl⟩)
     (Or.inl ⟨-250, _, by decide, by rfl, rfl⟩) (Or.inr ⟨_, rfl, by rfl⟩) ⟨_, rfl, by rfl⟩,
   by rfl⟩

/-! ## C1: strings that are not integers -/

/-- C2, the code at the failing input: the JSON number 9007199254740993 (`2^53 + 1`) is
normalised to `Cash` 9007199254740992, the same value as a decimal string to `Cash`
9007199254740993, and the JSON number 9223372036854775807 to an error; 42 is normalised to 42 in
both encodings. -/
theorem fixTypesToStruct_number_loses_precision :
    fixTypesToStruct "\x7b\"cash\":9007199254740993\x7d" = ({ Cash := 9007199254740992 }, none) ∧
    fixTypesToStruct "\x7b\"cash\":\"9007199254740993\"\x7d"
      = ({ Cash := 9007199254740993 }, none) ∧
    fixTypesToStruct "\x7b\"cash\":9223372036854775807\x7d"
      = ({}, some JsonError.UnmarshalTypeError) ∧
    fixTypesToStruct "\x7b\"cash\":42\x7d" = ({ Cash := 42 }, none) ∧
    fixTypesToStruct "\x7b\"cash\":\"42\"\x7d" = ({ Cash := 42 }, none) := by
  refine ⟨by rfl, by rfl, by rfl, by rfl, by rfl⟩

/-- C2 within `2^53`: for every integer n of magnitude at most `2^53` the numeric and the string
encoding of n as cash (bank, total) are normalised to the same record, with the field equal to
n. This is the part of C2 that the code meets: the integers that a `float64` holds exactly. -/
theorem fixTypesToStruct_number_eq_string (n : Int)
    (h : -(2 : Int) ^ 53 ≤ n ∧ n ≤ (2 : Int) ^ 53) :
    (∀ data, parseJSON data = some (JSON.obj [("cash", JSON.num (decimalNumeral n))]) →
      fixTypesToStruct data = ({ Cash := n }, none)) ∧
    (∀ data, parseJSON data = some (JSON.obj [("cash", JSON.str (decimalNumeral n))]) →
      fixTypesToStruct data = ({ Cash := n }, none)) ∧
    (∀ data, parseJSON data = some (JSON.obj [("bank", JSON.num (decimalNumeral n))]) →
      fixTypesToStruct data = ({ Bank := n }, none)) ∧
    (∀ data, parseJSON data = some (JSON.obj [("bank", JSON.str (decimalNumeral n))]) →
      fixTypesToStruct data = ({ Bank := n }, none)) ∧
    (∀ data, parseJSON data = some (JSON.obj [("total", JSON.num (decimalNumeral n))]) →
      fixTypesToStruct data = ({ Total := n }, none)) ∧
    (∀ data, parseJSON data = some (JSON.obj [("total", JSON.str (decimalNumeral n))]) →
      fixTypesToStruct data = ({ Total := n }, none)) := by
  obtain ⟨f, hf, hi⟩ := float_of_decimalNumeral n h
  have h64 : -(2 : Int) ^ 63 ≤ n ∧ n < (2 : Int) ^ 63 := by omega
  have hr : inInt64 n = true := by simp [inInt64]; omega
  have hp := ParseInt_decimalNumeral n 0 h64 (Or.inl rfl)
  have hne := decimalNumeral_ne_infinity n
  refine ⟨fun data hd => fixTypesToStruct_cash_number _ data f n hd hf hi hr, ?_,
    fun data hd => fixTypesToStruct_bank_number _ data f n hd hf hi hr, ?_,
    fun data hd => fixTypesToStruct_total_number _ data f n hd hf hi hr, ?_⟩
  · intro data hd
    have := fixTypesToStruct_cash_string _ data hne.1 hne.2 hd
    rw [hp] at this
    exact this
  · intro data hd
    have := fixTypesToStruct_bank_string _ data hne.1 hne.2 hd
    rw [hp] at this
    exact this
  · intro data hd
    have := fixTypesToStruct_total_string _ data hne.1 hne.2 hd
    rw [hp] at this
    exact this

/-- The integer 42 of C2 in both encodings. -/
theorem fixTypesToStruct_number_eq_string_witness :
    fixTypesToStruct "\x7b\"cash\":42\x7d" = ({ Cash := 42 }, none) ∧
    fixTypesToStruct "\x7b\"cash\":\"42\"\x7d" = ({ Cash := 42 }, none) :=
  ⟨(fixTypesToStruct_number_eq_string 42 (by decide)).1 "\x7b\"cash\":42\x7d" (by rfl),
   (fixTypesToStruct_number_eq_string 42 (by decide)).2.1 "\x7b\"cash\":\"42\"\x7d" (by rfl)⟩

/-! ## C3: decimal strings -/

/-- C3: for every integer n of the `int64` range, a body that is the object whose only member is
cash with the canonical decimal numeral of n as a string is normalised without error to the
record with `Cash` n, both cash flags false and every other field zero. -/
theorem fixTypesToStruct_decimal_string (n : Int)
    (hn : -(2 : Int) ^ 63 ≤ n ∧ n < (2 : Int) ^ 63) (data : String)
    (hd : parseJSON data = some (JSON.obj [("cash", JSON.str (decimalNumeral n))])) :
    fixTypesToStruct data =
      ({ Rank := 0, UserID := "", Cash := n, CashInfinite := false, CashNinfinite := false,
         Bank := 0, BankInfinite := false, BankNinfinite := false,
         Total := 0, Infinite := false, Ninfinite := false }, none) := by
  have h := fixTypesToStruct_cash_string (decimalNumeral n) data
    (decimalNumeral_ne_infinity n).1 (decimalNumeral_ne_infinity n).2 hd
  rw [ParseInt_decimalNumeral n 0 hn (Or.inl rfl)] at h
  exact h

/-- Witness of C3: the least `int64`. -/
theorem fixTypesToStruct_decimal_string_witness :
    (-(2 : Int) ^ 63 ≤ -9223372036854775808 ∧ (-9223372036854775808 : Int) < (2 : Int) ^ 63) ∧
    parseJSON "\x7b\"cash\":\"-9223372036854775808\"\x7d"
      = some (JSON.obj [("cash", JSON.str (decimalNumeral (-9223372036854775808)))]) ∧
    fixTypesToStruct "\x7b\"cash\":\"-9223372036854775808\"\x7d" =
      ({ Rank := 0, UserID := "", Cash := -9223372036854775808, CashInfinite := false,
         CashNinfinite := false, Bank := 0, BankInfinite := false, BankNinfinite := false,
         Total := 0, Infinite := false, Ninfinite := false }, none) :=
  ⟨by decide, by rfl,
   fixTypesToStruct_decimal_string (-9223372036854775808) (by decide)
     "\x7b\"cash\":\"-9223372036854775808\"\x7d" (by rfl)⟩

/-! ## C4: the infinity literals -/

/-- C4, counterexample: the object with cash the string Infinity and user_id the number 5 has
keys among the five and its cash is the string Infinity, yet normalising it returns the zero
record next to a type error, so `CashInfinite` of the returned record is false. -/
theorem fixTypesToStruct_infinity_with_bad_field :
    unmarshalObjmap "\x7b\"cash\":\"Infinity\",\"user_id\":5\x7d"
      = .ok [("cash", JVal.str "Infinity"),
             ("user_id", JVal.float64 ⟨false, 5629499534213120, -50⟩)] ∧
    (∀ kv ∈ [("cash", JVal.str "Infinity"),
             ("user_id", JVal.float64 ⟨false, 5629499534213120, -50⟩)], kv.1 ∈ fiveKeys) ∧
    mapGet [("cash", JVal.str "Infinity"),
            ("user_id", JVal.float64 ⟨false, 5629499534213120, -50⟩)] "cash"
      = some (JVal.str "Infinity") ∧
    fixTypesToStruct "\x7b\"cash\":\"Infinity\",\"user_id\":5\x7d"
      = ({}, some JsonError.UnmarshalTypeError) ∧
    (fixTypesToStruct "\x7b\"cash\":\"Infinity\",\"user_id\":5\x7d").1.CashInfinite
      = false := by
  refine ⟨by rfl, by decide, by rfl, by rfl, by rfl⟩

/-- C4 as amended: for every body that decodes to an object with keys among rank, user_id, cash,
bank, total, whenever `fixTypesToStruct` returns a record without error, a cash field that is
the string Infinity gives `Cash` 0, `CashInfinite` true and `CashNinfinite` false, the string
-Infinity gives `Cash` 0, `CashInfinite` false and `CashNinfinite` true, and likewise for bank
and total. -/
theorem fixTypesToStruct_infinity (data : String) (objmap : ObjMap) (r : UserObj)
    (hdec : unmarshalObjmap data = .ok objmap)
    (hkeys : ∀ kv ∈ objmap, kv.1 ∈ fiveKeys)
    (hok : fixTypesToStruct data = (r, none)) :
    (mapGet objmap "cash" = some (JVal.str "Infinity") →
      r.Cash = 0 ∧ r.CashInfinite = true ∧ r.CashNinfinite = false) ∧
    (mapGet objmap "cash" = some (JVal.str "-Infinity") →
      r.Cash = 0 ∧ r.CashInfinite = false ∧ r.CashNinfinite = true) ∧
    (mapGet objmap "bank" = some (JVal.str "Infinity") →
      r.Bank = 0 ∧ r.BankInfinite = true ∧ r.BankNinfinite = false) ∧
    (mapGet objmap "bank" = some (JVal.str "-Infinity") →
      r.Bank = 0 ∧ r.BankInfinite = false ∧ r.BankNinfinite = true) ∧
    (mapGet objmap "total" = some (JVal.str "Infinity") →
      r.Total = 0 ∧ r.Infinite = true ∧ r.Ninfinite = false) ∧
    (mapGet objmap "total" = some (JVal.str "-Infinity") →
      r.Total = 0 ∧ r.Infinite = false ∧ r.Ninfinite = true) := by
  replace hok := fixTypesToStruct_eq data objmap r hdec hok
  have hk : ∀ kv ∈ sortByKey (fixedMap objmap), kv.1 ∈ allNames :=
    fun kv h => fixedMap_keys objmap hkeys kv ((mem_sortByKey _ kv).mp h)
  obtain ⟨ft, fc, fb⟩ := fixedMap_flagged objmap hkeys
  have hcash : mapGet (fixInfinity objmap "total" "infinite_total" "n-infinite_total") "cash"
      = mapGet objmap "cash" :=
    mapGet_fixInfinity_ne _ _ _ _ _ (by decide) (by decide) (by decide)
  have hbank : mapGet (fixInfinity (fixInfinity objmap "total" "infinite_total"
      "n-infinite_total") "cash" "infinite_cash" "n-infinite_cash") "bank"
      = mapGet objmap "bank" := by
    rw [mapGet_fixInfinity_ne _ _ _ _ _ (by decide) (by decide) (by decide),
      mapGet_fixInfinity_ne _ _ _ _ _ (by decide) (by decide) (by decide)]
  refine ⟨?_, ?_, ?_, ?_, ?_, ?_⟩
  · intro h
    exact flag_set_pos .Cash .CashInfinite .CashNinfinite _ r hk hok
      (Flagged_sortByKey _ _ _ _ fc)
      ((mem_sortByKey _ _).mpr (fixedMap_cash_flag _ _ _ (Or.inl rfl)
        (fixInfinity_positive _ _ _ _ (hcash.trans h))))
  · intro h
    exact flag_set_neg .Cash .CashInfinite .CashNinfinite _ r hk hok
      (Flagged_sortByKey _ _ _ _ fc)
      ((mem_sortByKey _ _).mpr (fixedMap_cash_flag _ _ _ (Or.inr rfl)
        (fixInfinity_negative _ _ _ _ (hcash.trans h))))
  · intro h
    exact flag_set_pos .Bank .BankInfinite .BankNinfinite _ r hk hok
      (Flagged_sortByKey _ _ _ _ fb)
      ((mem_sortByKey _ _).mpr (fixedMap_bank_flag _ _ _ (Or.inl rfl)
        (fixInfinity_positive _ _ _ _ (hbank.trans h))))
  · intro h
    exact flag_set_neg .Bank .BankInfinite .BankNinfinite _ r hk hok
      (Flagged_sortByKey _ _ _ _ fb)
      ((mem_sortByKey _ _).mpr (fixedMap_bank_flag _ _ _ (Or.inr rfl)
        (fixInfinity_negative _ _ _ _ (hbank.trans h))))
  · intro h
    exact flag_set_pos .Total .Infinite .Ninfinite _ r hk hok
      (Flagged_sortByKey _ _ _ _ ft)
      ((mem_sortByKey _ _).mpr (fixedMap_total_flag _ _ _ (Or.inl rfl)
        (fixInfinity_positive _ _ _ _ h)))
  · intro h
    exact flag_set_neg .Total .Infinite .Ninfinite _ r hk hok
      (Flagged_sortByKey _ _ _ _ ft)
      ((mem_sortByKey _ _).mpr (fixedMap_total_flag _ _ _ (Or.inr rfl)
        (fixInfinity_negative _ _ _ _ h)))

/-- Witness of C4 as amended: `sampleBody`, a full balance object with infinite cash and
negative infinite bank. -/
theorem fixTypesToStruct_infinity_witness :
    unmarshalObjmap sampleBody = .ok sampleObjmap ∧
    (∀ kv ∈ sampleObjmap, kv.1 ∈ fiveKeys) ∧
    fixTypesToStruct sampleBody = (sampleRecord, none) ∧
    mapGet sampleObjmap "cash" = some (JVal.str "Infinity") ∧
    (sampleRecord.Cash = 0 ∧ sampleRecord.CashInfinite = true ∧
      sampleRecord.CashNinfinite = false) ∧
    mapGet sampleObjmap "bank" = some (JVal.str "-Infinity") ∧
    (sampleRecord.Bank = 0 ∧ sampleRecord.BankInfinite = false ∧
      sampleRecord.BankNinfinite = true) :=
  ⟨by rfl, by decide, by rfl, by rfl,
   (fixTypesToStruct_infinity sampleBody sampleObjmap sampleRecord
      (by rfl) (by decide) (by rfl)).1 (by rfl),
   by rfl,
   (fixTypesToStruct_infinity sampleBody sampleObjmap sampleRecord
      (by rfl) (by decide) (by rfl)).2.2.2.1 (by rfl)⟩

/-! ## C5: the invariant of balance records -/

/-- C5, counterexample: a body that carries the flag keys itself is normalised without error to
a record with both cash flags set and `Cash` 5. -/
theorem fixTypesToStruct_flags_from_body :
    fixTypesToStruct "\x7b\"cash\":5,\"infinite_cash\":true,\"n-infinite_cash\":true\x7d"
      = ({ Cash := 5, CashInfinite := true, CashNinfinite := true }, none) ∧
    ¬ BalanceInvariant { Cash := 5, CashInfinite := true, CashNinfinite := true } := by
  refine ⟨by rfl, ?_⟩
  simp [BalanceInvariant]

/-- C5 as amended: every record that `fixTypesToStruct` returns without error for a body that
decodes to an object with keys among rank, user_id, cash, bank, total satisfies the invariant of
balance records. -/
theorem fixTypesToStruct_invariant (data : String) (objmap : ObjMap) (r : UserObj)
    (hdec : unmarshalObjmap data = .ok objmap)
    (hkeys : ∀ kv ∈ objmap, kv.1 ∈ fiveKeys)
    (hok : fixTypesToStruct data = (r, none)) : BalanceInvariant r := by
  replace hok := fixTypesToStruct_eq data objmap r hdec hok
  have hk : ∀ kv ∈ sortByKey (fixedMap objmap), kv.1 ∈ allNames :=
    fun kv h => fixedMap_keys objmap hkeys kv ((mem_sortByKey _ kv).mp h)
  obtain ⟨ft, fc, fb⟩ := fixedMap_flagged objmap hkeys
  exact ⟨flags_of_flagged .Cash .CashInfinite .CashNinfinite _ r hk hok
      (Flagged_sortByKey _ _ _ _ fc),
    flags_of_flagged .Bank .BankInfinite .BankNinfinite _ r hk hok
      (Flagged_sortByKey _ _ _ _ fb),
    flags_of_flagged .Total .Infinite .Ninfinite _ r hk hok
      (Flagged_sortByKey _ _ _ _ ft)⟩

/-- Witness of C5 as amended: `sampleBody`, a full balance object with infinite cash and
negative infinite bank. -/
theorem fixTypesToStruct_invariant_witness :
    unmarshalObjmap sampleBody = .ok sampleObjmap ∧
    (∀ kv ∈ sampleObjmap, kv.1 ∈ fiveKeys) ∧
    fixTypesToStruct sampleBody = (sampleRecord, none) ∧
    BalanceInvariant sampleRecord :=
  ⟨by rfl, by decide, by rfl,
   fixTypesToStruct_invariant sampleBody sampleObjmap sampleRecord
     (by rfl) (by decide) (by rfl)⟩

/-! ## C6: success -/

/-- C6: a response with a 2xx status whose body does not contain the text error makes `Request`
return the body unchanged with a nil error. -/
theorem Request_success (u : UserData) (protocol url payload : String) (resp : Response)
    (hresp : u.client protocol ("https://unbelievable.pizza/api/v1" ++ url) u.token payload
      = .ok resp)
    (hstatus : 200 ≤ resp.StatusCode ∧ resp.StatusCode ≤ 299)
    (hbody : Contains resp.Body "error" = false) :
    Request u protocol url payload = .ret (resp.Body, none) := by
  have h429 : resp.StatusCode ≠ 429 := by omega
  simp [Request, hresp, h429, hbody]

/-- Witness of C6: status 200 with a balance object as body. -/
theorem Request_success_witness :
    (200 ≤ (200 : Int) ∧ (200 : Int) ≤ 299) ∧
    Contains "\x7b\"cash\":1\x7d" "error" = false ∧
    Request (fixedResponse 200 "\x7b\"cash\":1\x7d") "GET" "/guilds/1/users/2" ""
      = .ret ("\x7b\"cash\":1\x7d", none) :=
  ⟨by decide, by decide,
    Request_success (fixedResponse 200 "\x7b\"cash\":1\x7d") "GET" "/guilds/1/users/2" ""
      ⟨200, "\x7b\"cash\":1\x7d"⟩ rfl (by decide) (by decide)⟩

/-! ## C7: panics -/

/-- C7, counterexample: status 200 with the body error, which contains the text error and is not
a JSON document, makes `Request` panic. -/
theorem Request_panics_on_200 :
    Request (fixedResponse 200 "error") "GET" "" "" = .panic := by
  decide

/-- C7 as amended: `Request` returns one outcome or panics, and it panics exactly when a
response was received and either the status is 429 and the body does not decode as a
`timeoutResponse`, or the status is not 429, the body contains the text error and does not
decode as an `errorResponse`. -/
theorem Request_panic_iff (u : UserData) (protocol url payload : String) :
    (Request u protocol url payload = .panic ∨
      ∃ body err, Request u protocol url payload = .ret (body, err)) ∧
    (Request u protocol url payload = .panic ↔
      ∃ resp, u.client protocol ("https://unbelievable.pizza/api/v1" ++ url) u.token payload
          = .ok resp ∧
        ((resp.StatusCode = 429 ∧ ∃ e, unmarshalTimeoutResponse resp.Body = .error e) ∨
         (resp.StatusCode ≠ 429 ∧ Contains resp.Body "error" = true ∧
           ∃ e, unmarshalErrorResponse resp.Body = .error e))) := by
  unfold Request
  cases hc : u.client protocol ("https://unbelievable.pizza/api/v1" ++ url) u.token payload with
  | error e => simp
  | ok resp =>
    by_cases h429 : resp.StatusCode = 429
    · cases ht : unmarshalTimeoutResponse resp.Body <;> simp [h429, ht]
    · by_cases hb : Contains resp.Body "error" = true
      · cases he : unmarshalErrorResponse resp.Body <;> simp [h429, hb, he]
      · simp [h429, hb]

/-! ## C8: rate limiting -/

/-- C8: for a response with status 429, a body that decodes as a `timeoutResponse` makes
`Request` return the body with the rate-limit error that carries the decoded message and
retry-after value; for the body with members message m and retry_after n these are m and n; and
whatever the body, a 429 that returns has a non-nil error that is not the API error of line 107.
-/
theorem Request_rate_limited (u : UserData) (protocol url payload : String) (resp : Response)
    (hresp : u.client protocol ("https://unbelievable.pizza/api/v1" ++ url) u.token payload
      = .ok resp)
    (h429 : resp.StatusCode = 429) :
    (∀ t, unmarshalTimeoutResponse resp.Body = .ok t →
      Request u protocol url payload
        = .ret (resp.Body, some (GoError.rateLimited t.Message t.RetryAfter))) ∧
    (∀ (m : String) (n : Int), -(2 : Int) ^ 63 ≤ n ∧ n < (2 : Int) ^ 63 →
      parseJSON resp.Body
        = some (JSON.obj [("message", JSON.str m), ("retry_after", JSON.num (decimalNumeral n))]) →
      Request u protocol url payload = .ret (resp.Body, some (GoError.rateLimited m n))) ∧
    (∀ body err, Request u protocol url payload = .ret (body, err) →
      err ≠ none ∧ ∀ e msg, err ≠ some (GoError.api e msg)) := by
  refine ⟨?_, ?_, ?_⟩
  · intro t ht
    simp [Request, hresp, h429, ht]
  · intro m n hn hp
    have ht : unmarshalTimeoutResponse resp.Body = .ok ⟨m, n⟩ := by
      simp [unmarshalTimeoutResponse, hp, decodeTimeout_pair m n hn]
    simp [Request, hresp, h429, ht]
  · intro body err h
    cases ht : unmarshalTimeoutResponse resp.Body with
    | error e => simp [Request, hresp, h429, ht] at h
    | ok t =>
      simp [Request, hresp, h429, ht] at h
      rw [← h.2]
      simp

/-- Witness of C8: the rate-limit body of the specification, with retry-after 30. -/
theorem Request_rate_limited_witness :
    (429 : Int) = 429 ∧
    Request (fixedResponse 429 "\x7b\"message\":\"rate limited\",\"retry_after\":30\x7d")
        "GET" "/guilds/1/users" ""
      = .ret ("\x7b\"message\":\"rate limited\",\"retry_after\":30\x7d",
          some (GoError.rateLimited "rate limited" 30)) :=
  ⟨rfl,
   (Request_rate_limited
      (fixedResponse 429 "\x7b\"message\":\"rate limited\",\"retry_after\":30\x7d")
      "GET" "/guilds/1/users" ""
      ⟨429, "\x7b\"message\":\"rate limited\",\"retry_after\":30\x7d"⟩ rfl rfl).2.1
      "rate limited" 30 (by decide) (by rfl)⟩

/-! ## C9: the literal error bodies -/

/-- C9: for every status code, the body of the literal 401 error makes `Check` report up with
the credential error, and the body of the literal 404 error makes it report up with a nil error.
-/
theorem Check_literal_bodies (u : UserData) (status elapsed sinceNow : Int) (body : String)
    (hbody : body = "\x7b\"error\":\"401: Unauthorized\"\x7d" ∨
      body = "\x7b\"error\":\"404: Not found\"\x7d")
    (hresp : u.client "GET" ("https://unbelievable.pizza/api/v1" ++ "") u.token ""
      = .ok ⟨status, body⟩) :
    Check u elapsed sinceNow = .ret (⟨elapsed, true⟩,
      if body = "\x7b\"error\":\"401: Unauthorized\"\x7d"
      then some (GoError.new "401 Unauthorized (Check your token)") else none) := by
  have t1 : unmarshalTimeoutResponse "\x7b\"error\":\"401: Unauthorized\"\x7d" = .ok {} := by
    rfl
  have t2 : unmarshalTimeoutResponse "\x7b\"error\":\"404: Not found\"\x7d" = .ok {} := by rfl
  have e1 : unmarshalErrorResponse "\x7b\"error\":\"401: Unauthorized\"\x7d"
      = .ok ⟨"401: Unauthorized", ""⟩ := by rfl
  have e2 : unmarshalErrorResponse "\x7b\"error\":\"404: Not found\"\x7d"
      = .ok ⟨"404: Not found", ""⟩ := by rfl
  have c1 : Contains "\x7b\"error\":\"401: Unauthorized\"\x7d" "error" = true := by decide
  have c2 : Contains "\x7b\"error\":\"404: Not found\"\x7d" "error" = true := by decide
  have r1 : Contains "\x7b\"error\":\"401: Unauthorized\"\x7d"
      "\x7b\"message\":\"You are being rate limited.\",\"retry_after\"" = false := by decide
  have r2 : Contains "\x7b\"error\":\"404: Not found\"\x7d"
      "\x7b\"message\":\"You are being rate limited.\",\"retry_after\"" = false := by decide
  have d1 : ("\x7b\"error\":\"401: Unauthorized\"\x7d" : String)
      ≠ "\x7b\"error\":\"404: Not found\"\x7d" := by decide
  have d2 : ("\x7b\"error\":\"404: Not found\"\x7d" : String)
      ≠ "\x7b\"error\":\"401: Unauthorized\"\x7d" := by decide
  unfold Check Request
  rw [hresp]
  rcases hbody with hb | hb <;> subst hb <;> by_cases h429 : status = 429 <;>
    simp [h429, t1, t2, e1, e2, c1, c2, r1, r2, d1, d2]

/-- Witness of C9: the 404 body under status 429. -/
theorem Check_literal_bodies_witness :
    Check (fixedResponse 429 "\x7b\"error\":\"404: Not found\"\x7d") 7 0
      = .ret (⟨7, true⟩, none) :=
  Check_literal_bodies (fixedResponse 429 "\x7b\"error\":\"404: Not found\"\x7d") 429 7 0
    "\x7b\"error\":\"404: Not found\"\x7d" (Or.inr rfl) rfl

/-! ## C10: Check on a rate-limited response -/

/-- C10, counterexample: the rate-limit body of the specification is classified as rate limited
by `Request`, and `Check` reports it as not up. -/
theorem Check_rate_limited_other_message :
    Request (fixedResponse 429 "\x7b\"message\":\"rate limited\",\"retry_after\":30\x7d")
        "GET" "" ""
      = .ret ("\x7b\"message\":\"rate limited\",\"retry_after\":30\x7d",
          some (GoError.rateLimited "rate limited" 30)) ∧
    Check (fixedResponse 429 "\x7b\"message\":\"rate limited\",\"retry_after\":30\x7d") 7 0
      = .ret (⟨0, false⟩, some (GoError.rateLimited "rate limited" 30)) := by
  constructor <;> decide

/-- C10 as amended: for a response with status 429 whose body decodes as a `timeoutResponse` and
contains the text of line 194, `Request` returns the rate-limit error and `Check` reports up
together with that error. -/
theorem Check_rate_limited (u : UserData) (elapsed sinceNow : Int) (resp : Response)
    (t : timeoutResponse)
    (hresp : u.client "GET" ("https://unbelievable.pizza/api/v1" ++ "") u.token "" = .ok resp)
    (h429 : resp.StatusCode = 429)
    (hdec : unmarshalTimeoutResponse resp.Body = .ok t)
    (hlit : Contains resp.Body
      "\x7b\"message\":\"You are being rate limited.\",\"retry_after\"" = true) :
    Request u "GET" "" "" = .ret (resp.Body, some (GoError.rateLimited t.Message t.RetryAfter)) ∧
    Check u elapsed sinceNow
      = .ret (⟨sinceNow, true⟩, some (GoError.rateLimited t.Message t.RetryAfter)) := by
  have hr : Request u "GET" "" ""
      = .ret (resp.Body, some (GoError.rateLimited t.Message t.RetryAfter)) := by
    unfold Request
    rw [hresp]
    simp [h429, hdec]
  refine ⟨hr, ?_⟩
  unfold Check
  rw [hr]
  simp [hlit]

/-- Witness of C10 as amended: the rate-limit body with the message of line 194. -/
theorem Check_rate_limited_witness :
    Check (fixedResponse 429
        "\x7b\"message\":\"You are being rate limited.\",\"retry_after\":1500\x7d") 7 0
      = .ret (⟨0, true⟩, some (GoError.rateLimited "You are being rate limited." 1500)) :=
  (Check_rate_limited (fixedResponse 429
      "\x7b\"message\":\"You are being rate limited.\",\"retry_after\":1500\x7d") 7 0
    ⟨429, "\x7b\"message\":\"You are being rate limited.\",\"retry_after\":1500\x7d"⟩
    ⟨"You are being rate limited.", 1500⟩ rfl rfl (by rfl) (by decide)).2

/-! ## C11: the payload of SetBalance -/

/-- C11: for all arguments cash, bank and reason (nil, a string, an `int`, or a value of another
type), the payload of `SetBalance` is a JSON document that parses to the object the
specification describes: cash (likewise bank) is a member exactly when the argument is an `int`
or one of the two infinity strings, with that value, and reason is the given string or the
default text for nil. This payload is what the client is sent by PUT to the path of the user:
when the client fails, `SetBalance` returns the client's error, and when it answers with a
success, the response is normalised as in `GetBalance`; no argument makes building the payload
fail. -/
theorem SetBalance_payload (u : UserData) (guild user : String) (cash bank reason : Arg) :
    parseJSON (Marshal (setPayloadTypes cash bank reason))
      = some (JSON.obj (expectedPayload cash bank reason)) ∧
    (∀ e, u.client "PUT" ("https://unbelievable.pizza/api/v1" ++ userPath guild user) u.token
        (Marshal (setPayloadTypes cash bank reason)) = .error e →
      SetBalance u guild user cash bank reason = .ret ({}, some e)) ∧
    (∀ resp, u.client "PUT" ("https://unbelievable.pizza/api/v1" ++ userPath guild user) u.token
        (Marshal (setPayloadTypes cash bank reason)) = .ok resp →
      resp.StatusCode ≠ 429 → Contains resp.Body "error" = false →
      SetBalance u guild user cash bank reason = balanceOf (.ret (resp.Body, none))) := by
  refine ⟨?_, ?_, ?_⟩
  · rw [Marshal_setPayloadTypes, parseJSON_object]
    rfl
  · intro e he
    simp [SetBalance, Request, he, balanceOf]
  · intro resp he h1 h2
    simp [SetBalance, Request, he, h1, h2]

/-- Witness of C11: with cash nil, bank the string Infinity and reason nil the payload is
exactly the object of bank and the default reason, which is what the client receives; a string
that is no infinity string is omitted, a reason is escaped as JSON, and values of other types
such as `int64` are omitted. -/
theorem SetBalance_payload_witness :
    Marshal (setPayloadTypes Arg.nil (Arg.string "Infinity") Arg.nil)
      = "\x7b\"bank\":\"Infinity\",\"reason\":\"No reason provided.\"\x7d" ∧
    parseJSON (Marshal (setPayloadTypes Arg.nil (Arg.string "Infinity") Arg.nil))
      = some (JSON.obj [("bank", JSON.str "Infinity"),
          ("reason", JSON.str "No reason provided.")]) ∧
    SetBalance failingClient "1" "5" Arg.nil (Arg.string "Infinity") Arg.nil
      = .ret ({}, some (GoError.transport
          ("PUT https://unbelievable.pizza/api/v1/guilds/1/users/5 " ++
            "\x7b\"bank\":\"Infinity\",\"reason\":\"No reason provided.\"\x7d"))) ∧
    Marshal (setPayloadTypes (Arg.int (-5)) (Arg.string "10") (Arg.string "a \"gift\" <3"))
      = "\x7b\"cash\":-5,\"reason\":\"a \\\"gift\\\" \\u003c3\"\x7d" ∧
    Marshal (setPayloadTypes (Arg.other "int64") (Arg.other "float64") (Arg.other "bool"))
      = "\x7b\x7d" :=
  ⟨by rfl,
   (SetBalance_payload failingClient "1" "5" Arg.nil (Arg.string "Infinity") Arg.nil).1,
   (SetBalance_payload failingClient "1" "5" Arg.nil (Arg.string "Infinity") Arg.nil).2.1 _
     (by rfl),
   by rfl, by rfl⟩

/-! ## C12: the order of the leaderboard -/

/-- C12: when `Request` returns a body without error, the body is a JSON array and `Leaderboard`
returns a list without error, the list has as many entries as the array has elements, and the
entry at each index is the record that `fixTypesToStruct` returns, without error, for the text
of line 308 made from the element at that index. -/
theorem Leaderboard_order (u : UserData) (guild body : String) (elems : List JSON)
    (l : List UserObj)
    (hreq : Request u "GET" ("/guilds/" ++ guild ++ "/users") "" = .ret (body, none))
    (hbody : parseJSON body = some (JSON.arr elems))
    (hret : Leaderboard u guild = .ret (l, none)) :
    l.length = elems.length ∧
    ∀ (i : Nat) (x : JSON), elems[i]? = some x →
      ∃ raw, rawOfJSON x = .ok raw ∧
        fixTypesToStruct (rawValue raw) = ((fixTypesToStruct (rawValue raw)).1, none) ∧
        l[i]? = some (fixTypesToStruct (rawValue raw)).1 := by
  unfold Leaderboard at hret
  rw [hreq] at hret
  simp only [unmarshalLeaderboardRaw, hbody] at hret
  cases hrs : rawsOfJSON elems with
  | error e => simp [hrs] at hret
  | ok rs =>
    simp only [hrs] at hret
    have hl : leaderboardLoop rs [] = (l, none) := by
      simpa using hret
    obtain ⟨h1, h2⟩ := leaderboardLoop_ok rs [] l hl
    obtain ⟨h3, h4⟩ := rawsOfJSON_ok elems rs hrs
    simp at h1
    refine ⟨by rw [h1]; simp [h3], ?_⟩
    intro i x hx
    obtain ⟨raw, hr1, hr2⟩ := h4 i x hx
    have hmem : raw ∈ rs := by
      obtain ⟨hi, hr3⟩ := List.getElem?_eq_some.mp hr2
      exact hr3 ▸ List.getElem_mem hi
    refine ⟨raw, hr1, ?_, ?_⟩
    · have := h2 raw hmem
      exact Prod.ext rfl this
    · rw [h1]
      simp [hr2]

set_option maxRecDepth 10000 in
/-- Witness of C12: `leaderboardBody`, an array of two records, gives the two records in the
order of the body. -/
theorem Leaderboard_order_witness :
    Request (fixedResponse 200 leaderboardBody) "GET" ("/guilds/" ++ "1" ++ "/users") ""
      = .ret (leaderboardBody, none) ∧
    parseJSON leaderboardBody = some (JSON.arr leaderboardElems) ∧
    Leaderboard (fixedResponse 200 leaderboardBody) "1"
      = .ret ([{ Rank := 1, UserID := "77", Cash := 0, CashInfinite := true, Bank := 5,
                 Total := 0, Infinite := true },
               { Rank := 2, UserID := "78", Cash := 16, Bank := -3, Total := 13 }], none) ∧
    leaderboardElems.length = 2 := by
  have hreq : Request (fixedResponse 200 leaderboardBody) "GET" ("/guilds/" ++ "1" ++ "/users") ""
      = .ret (leaderboardBody, none) := by rfl
  have hbody : parseJSON leaderboardBody = some (JSON.arr leaderboardElems) := by rfl
  have hraw : rawsOfJSON leaderboardElems = .ok leaderboardRaws := by rfl
  have h1 : fixTypesToStruct (rawValue (leaderboardRaws.getD 0 {}))
      = ({ Rank := 1, UserID := "77", Cash := 0, CashInfinite := true, Bank := 5,
           Total := 0, Infinite := true }, none) := by rfl
  have h2 : fixTypesToStruct (rawValue (leaderboardRaws.getD 1 {}))
      = ({ Rank := 2, UserID := "78", Cash := 16, Bank := -3, Total := 13 }, none) := by rfl
  have hl : Leaderboard (fixedResponse 200 leaderboardBody) "1"
      = .ret ([{ Rank := 1, UserID := "77", Cash := 0, CashInfinite := true, Bank := 5,
                 Total := 0, Infinite := true },
               { Rank := 2, UserID := "78", Cash := 16, Bank := -3, Total := 13 }], none) := by
    unfold Leaderboard
    rw [hreq]
    simp only [unmarshalLeaderboardRaw, hbody, hraw]
    rw [show leaderboardRaws = [leaderboardRaws.getD 0 {}, leaderboardRaws.getD 1 {}] from rfl]
    rw [leaderboardLoop, h1]
    simp only []
    rw [leaderboardLoop, h2]
    simp only [leaderboardLoop]
    rfl
  have h := Leaderboard_order (fixedResponse 200 leaderboardBody) "1" leaderboardBody
    leaderboardElems _ hreq hbody hl
  exact ⟨hreq, hbody, hl, h.1.symm⟩

/-! ## C13: the leaderboard and GetBalance -/

set_option maxRecDepth 10000 in
/-- C13, the code at the failing input: `GetBalance` normalises the record whose cash and total
are the JSON number 1000000 to `Cash` 1000000 and `Total` 1000000, but in `Leaderboard` the same
record is decoded to the `float64` 1000000, which `%v` writes as 1e+06, a text that `ParseInt`
rejects, and the entry has `Cash` 0 and `Total` 0. -/
theorem Leaderboard_number_million :
    GetBalance (fixedResponse 200 millionRecord) "1" "77"
      = .ret ({ Rank := 1, UserID := "77", Cash := 1000000, Bank := 0, Total := 1000000 }, none) ∧
    unmarshalLeaderboardRaw ("[" ++ millionRecord ++ "]") = .ok [millionRaw] ∧
    rawValue millionRaw
      = "\x7b\"rank\":\"1\",\"user_id\":\"77\",\"cash\":\"1e+06\",\"bank\":\"0\"," ++
        "\"total\":\"1e+06\"\x7d" ∧
    ParseInt "1e+06" 0 64 = (0, some NumError.ErrSyntax) ∧
    Leaderboard (fixedResponse 200 ("[" ++ millionRecord ++ "]")) "1"
      = .ret ([{ Rank := 1, UserID := "77", Cash := 0, Bank := 0, Total := 0 }], none) := by
  have hraw : unmarshalLeaderboardRaw ("[" ++ millionRecord ++ "]") = .ok [millionRaw] := by rfl
  have hfix : fixTypesToStruct (rawValue millionRaw)
      = ({ Rank := 1, UserID := "77", Cash := 0, Bank := 0, Total := 0 }, none) := by rfl
  refine ⟨by rfl, hraw, by rfl, by rfl, ?_⟩
  unfold Leaderboard
  rw [show Request (fixedResponse 200 ("[" ++ millionRecord ++ "]")) "GET"
      ("/guilds/" ++ "1" ++ "/users") "" = .ret ("[" ++ millionRecord ++ "]", none) from rfl]
  simp only [hraw]
  rw [leaderboardLoop, hfix]
  simp only [leaderboardLoop]
  rfl

/-! ## C14: no partial results -/

/-- C14: whenever `GetBalance`, `SetBalance` or `UpdateBalance` returns an error the record next
to it is the zero `UserObj`, and whenever `Leaderboard` returns an error the list next to it is
empty. -/
theorem error_returns_zero (u : UserData) (guild user : String) (cash bank reason : Arg)
    (c b : Int) :
    (∀ r e, GetBalance u guild user = .ret (r, some e) → r = {}) ∧
    (∀ r e, SetBalance u guild user cash bank reason = .ret (r, some e) → r = {}) ∧
    (∀ r e, UpdateBalance u guild user c b reason = .ret (r, some e) → r = {}) ∧
    (∀ l e, Leaderboard u guild = .ret (l, some e) → l = []) := by
  refine ⟨fun r e h => balanceOf_error _ r e h, fun r e h => balanceOf_error _ r e h,
    fun r e h => balanceOf_error _ r e h, ?_⟩
  intro l e h
  unfold Leaderboard at h
  cases hreq : Request u "GET" ("/guilds/" ++ guild ++ "/users") "" with
  | panic => simp [hreq] at h
  | ret p =>
    obtain ⟨data, err⟩ := p
    rw [hreq] at h
    cases err with
    | some err =>
      simp at h
      exact h.1
    | none =>
      simp only at h
      cases hraw : unmarshalLeaderboardRaw data with
      | error err =>
        simp [hraw] at h
        exact h.1
      | ok rs =>
        simp only [hraw] at h
        cases hloop : leaderboardLoop rs [] with
        | mk l1 e1 =>
        rw [hloop] at h
        simp at h
        obtain ⟨h1, h2⟩ := h
        subst h1 h2
        exact leaderboardLoop_error rs [] _ e hloop

set_option maxRecDepth 10000 in
/-- Witness of C14: a body that does not decode for `GetBalance`, a rate-limited `SetBalance`,
an API error for `UpdateBalance`, and a leaderboard whose first record is normalised and whose
second record (a user id with a quote in it) is rejected, so that the list returned with the
error is empty. -/
theorem error_returns_zero_witness :
    GetBalance (fixedResponse 200 "\x7b\"cash\":\"Infinity\",\"user_id\":5\x7d") "1" "5"
      = .ret ({}, some (GoError.json JsonError.UnmarshalTypeError)) ∧
    SetBalance (fixedResponse 429 "\x7b\"message\":\"slow down\",\"retry_after\":3\x7d")
        "1" "5" (Arg.int 7) Arg.nil Arg.nil
      = .ret ({}, some (GoError.rateLimited "slow down" 3)) ∧
    UpdateBalance (fixedResponse 404 "\x7b\"error\":\"404: Not found\"\x7d")
        "1" "5" 7 0 Arg.nil
      = .ret ({}, some (GoError.api "404: Not found" "")) ∧
    fixTypesToStruct (rawValue { UserID := JVal.str "1" }) = ({ UserID := "1" }, none) ∧
    Leaderboard
        (fixedResponse 200 "[\x7b\"user_id\":\"1\"\x7d,\x7b\"user_id\":\"a\\\"b\"\x7d]") "1"
      = .ret ([], some (GoError.json JsonError.SyntaxError)) := by
  have h1 : GetBalance (fixedResponse 200 "\x7b\"cash\":\"Infinity\",\"user_id\":5\x7d") "1" "5"
      = .ret ({}, some (GoError.json JsonError.UnmarshalTypeError)) := by rfl
  have h2 : SetBalance
      (fixedResponse 429 "\x7b\"message\":\"slow down\",\"retry_after\":3\x7d")
        "1" "5" (Arg.int 7) Arg.nil Arg.nil
      = .ret ({}, some (GoError.rateLimited "slow down" 3)) := by rfl
  have h3 : UpdateBalance (fixedResponse 404 "\x7b\"error\":\"404: Not found\"\x7d")
        "1" "5" 7 0 Arg.nil
      = .ret ({}, some (GoError.api "404: Not found" "")) := by rfl
  have h4 : Leaderboard
        (fixedResponse 200 "[\x7b\"user_id\":\"1\"\x7d,\x7b\"user_id\":\"a\\\"b\"\x7d]") "1"
      = .ret ([], some (GoError.json JsonError.SyntaxError)) := by rfl
  have h := error_returns_zero
    (fixedResponse 200 "[\x7b\"user_id\":\"1\"\x7d,\x7b\"user_id\":\"a\\\"b\"\x7d]")
    "1" "5" Arg.nil Arg.nil Arg.nil 0 0
  exact ⟨h1, h2, h3, by rfl, (h.2.2.2 [] _ h4) ▸ h4⟩

/-! ## C15: numerals in strings -/

/-- C15, counterexample: the string 010 is a base-10 numeral with value 10, but as cash it is
normalised to 8 (base 0 of `ParseInt` reads a leading zero as octal); 09 as rank gives 0, and
the numeral 9223372036854775808 as bank gives the largest `int64`. -/
theorem fixTypesToStruct_leading_zero :
    base10Value "010" = some 10 ∧ "010" ≠ "Infinity" ∧ "010" ≠ "-Infinity" ∧
    fixTypesToStruct "\x7b\"cash\":\"010\"\x7d" = ({ Cash := 8 }, none) ∧
    base10Value "09" = some 9 ∧
    fixTypesToStruct "\x7b\"rank\":\"09\"\x7d" = ({ Rank := 0 }, none) ∧
    base10Value "9223372036854775808" = some 9223372036854775808 ∧
    fixTypesToStruct "\x7b\"bank\":\"9223372036854775808\"\x7d"
      = ({ Bank := 9223372036854775807 }, none) := by
  refine ⟨by decide, by decide, by decide, by rfl, by decide, by rfl, by decide, by rfl⟩

/-- C15 as amended: for every body that decodes to an object with keys among rank, user_id,
cash, bank, total and that is normalised without error, and every string given as cash, bank,
total or rank. First, a base-10 numeral without a leading zero, or a hexadecimal numeral with
the prefix 0x, with a value in the range of `int64`, makes the field equal to that value.
Second, a numeral with a leading zero whose digits after the zero are all below 8 is read in
base 8: the field equals its base-8 value when that is in the range of `int64`. Third, a numeral
of one of these three forms whose value is out of the range of `int64` makes the field the
nearest bound of `int64`. Fourth, a base-10 numeral with a leading zero that has a digit 8 or 9,
of at most 22 digits, makes the field 0. Last, each infinite flag is set only when its own field
(cash, bank or total) is the matching infinity string, so that rank sets none. -/
theorem fixTypesToStruct_numeral (data : String) (objmap : ObjMap) (r : UserObj)
    (hdec : unmarshalObjmap data = .ok objmap)
    (hkeys : ∀ kv ∈ objmap, kv.1 ∈ fiveKeys)
    (hok : fixTypesToStruct data = (r, none)) :
    (∀ (s : String) (n : Int),
      (base10Value s = some n ∧ hasLeadingZero s = false) ∨ base16Value s = some n →
      -(2 : Int) ^ 63 ≤ n ∧ n < (2 : Int) ^ 63 →
      (mapGet objmap "cash" = some (JVal.str s) → r.Cash = n) ∧
      (mapGet objmap "bank" = some (JVal.str s) → r.Bank = n) ∧
      (mapGet objmap "total" = some (JVal.str s) → r.Total = n) ∧
      (mapGet objmap "rank" = some (JVal.str s) → r.Rank = n)) ∧
    (∀ (s : String) (n : Int), base8Value s = some n →
      -(2 : Int) ^ 63 ≤ n ∧ n < (2 : Int) ^ 63 →
      (mapGet objmap "cash" = some (JVal.str s) → r.Cash = n) ∧
      (mapGet objmap "bank" = some (JVal.str s) → r.Bank = n) ∧
      (mapGet objmap "total" = some (JVal.str s) → r.Total = n) ∧
      (mapGet objmap "rank" = some (JVal.str s) → r.Rank = n)) ∧
    (∀ (s : String) (n : Int),
      (base10Value s = some n ∧ hasLeadingZero s = false) ∨ base16Value s = some n ∨
        base8Value s = some n →
      ¬ (-(2 : Int) ^ 63 ≤ n ∧ n < (2 : Int) ^ 63) →
      (mapGet objmap "cash" = some (JVal.str s) →
        r.Cash = if n < 0 then -(2 : Int) ^ 63 else (2 : Int) ^ 63 - 1) ∧
      (mapGet objmap "bank" = some (JVal.str s) →
        r.Bank = if n < 0 then -(2 : Int) ^ 63 else (2 : Int) ^ 63 - 1) ∧
      (mapGet objmap "total" = some (JVal.str s) →
        r.Total = if n < 0 then -(2 : Int) ^ 63 else (2 : Int) ^ 63 - 1) ∧
      (mapGet objmap "rank" = some (JVal.str s) →
        r.Rank = if n < 0 then -(2 : Int) ^ 63 else (2 : Int) ^ 63 - 1)) ∧
    (∀ (s : String) (n : Int),
      base10Value s = some n → hasLeadingZero s = true → base8Value s = none →
      (splitSign s.data).2.length ≤ 22 →
      (mapGet objmap "cash" = some (JVal.str s) → r.Cash = 0) ∧
      (mapGet objmap "bank" = some (JVal.str s) → r.Bank = 0) ∧
      (mapGet objmap "total" = some (JVal.str s) → r.Total = 0) ∧
      (mapGet objmap "rank" = some (JVal.str s) → r.Rank = 0)) ∧
    ((r.CashInfinite = true → mapGet objmap "cash" = some (JVal.str "Infinity")) ∧
     (r.CashNinfinite = true → mapGet objmap "cash" = some (JVal.str "-Infinity")) ∧
     (r.BankInfinite = true → mapGet objmap "bank" = some (JVal.str "Infinity")) ∧
     (r.BankNinfinite = true → mapGet objmap "bank" = some (JVal.str "-Infinity")) ∧
     (r.Infinite = true → mapGet objmap "total" = some (JVal.str "Infinity")) ∧
     (r.Ninfinite = true → mapGet objmap "total" = some (JVal.str "-Infinity"))) := by
  have hne : ∀ (s : String) (n : Int),
      (base10Value s = some n ∧ hasLeadingZero s = false) ∨ base16Value s = some n ∨
        base8Value s = some n → s ≠ "Infinity" ∧ s ≠ "-Infinity" := by
    intro s n hs
    rcases hs with ⟨h1, _⟩ | h1 | h1
    · exact numeral_ne_infinity s n (Or.inl h1)
    · exact numeral_ne_infinity s n (Or.inr h1)
    · exact octal_ne_infinity s n h1
  refine ⟨?_, ?_, ?_, ?_, fixTypesToStruct_flag_origin data objmap r hdec hkeys hok⟩
  · intro s n hs hn
    have hs3 : (base10Value s = some n ∧ hasLeadingZero s = false) ∨ base16Value s = some n ∨
        base8Value s = some n := by
      rcases hs with h | h
      · exact Or.inl h
      · exact Or.inr (Or.inl h)
    exact fixTypesToStruct_parsed_fields data objmap r hdec hkeys hok s n
      (by rw [ParseInt_numeral s n hs3, if_pos hn]) (hne s n hs3)
  · intro s n hs hn
    have hs3 : (base10Value s = some n ∧ hasLeadingZero s = false) ∨ base16Value s = some n ∨
        base8Value s = some n := Or.inr (Or.inr hs)
    exact fixTypesToStruct_parsed_fields data objmap r hdec hkeys hok s n
      (by rw [ParseInt_numeral s n hs3, if_pos hn]) (hne s n hs3)
  · intro s n hs hn
    exact fixTypesToStruct_parsed_fields data objmap r hdec hkeys hok s _
      (by rw [ParseInt_numeral s n hs, if_neg hn]) (hne s n hs)
  · intro s n h10 hz h8 hlen
    exact fixTypesToStruct_parsed_fields data objmap r hdec hkeys hok s 0
      (by rw [ParseInt_leading_zero_bad s n h10 hz h8 hlen])
      (numeral_ne_infinity s n (Or.inl h10))

/-- Witness of C15 as amended: `numeralBody`, with cash 0x1F, bank -12, total +7 and rank the
string Infinity, is normalised to `Cash` 31, `Bank` -12, `Total` 7 and `Rank` 0 with no flag
set; and `octalBody`, with cash 010, bank 9223372036854775808, total -0x8000000000000001 and
rank 09, is normalised to `Cash` 8, `Bank` the largest `int64`, `Total` the smallest `int64` and
`Rank` 0. -/
theorem fixTypesToStruct_numeral_witness :
    unmarshalObjmap numeralBody = .ok numeralObjmap ∧
    (∀ kv ∈ numeralObjmap, kv.1 ∈ fiveKeys) ∧
    fixTypesToStruct numeralBody
      = ({ Rank := 0, UserID := "77", Cash := 31, Bank := -12, Total := 7 }, none) ∧
    base16Value "0x1F" = some 31 ∧
    ({ Rank := 0, UserID := "77", Cash := 31, Bank := -12, Total := 7 } : UserObj).Cash = 31 ∧
    (base10Value "-12" = some (-12) ∧ hasLeadingZero "-12" = false) ∧
    ({ Rank := 0, UserID := "77", Cash := 31, Bank := -12, Total := 7 } : UserObj).Bank = -12 ∧
    (base10Value "+7" = some 7 ∧ hasLeadingZero "+7" = false) ∧
    ({ Rank := 0, UserID := "77", Cash := 31, Bank := -12, Total := 7 } : UserObj).Total = 7 ∧
    unmarshalObjmap octalBody = .ok octalObjmap ∧
    (∀ kv ∈ octalObjmap, kv.1 ∈ fiveKeys) ∧
    fixTypesToStruct octalBody
      = ({ Rank := 0, UserID := "77", Cash := 8, Bank := 9223372036854775807,
           Total := -9223372036854775808 }, none) ∧
    base8Value "010" = some 8 ∧
    ({ Rank := 0, UserID := "77", Cash := 8, Bank := 9223372036854775807,
       Total := -9223372036854775808 } : UserObj).Cash = 8 ∧
    (base10Value "9223372036854775808" = some 9223372036854775808 ∧
      hasLeadingZero "9223372036854775808" = false) ∧
    ({ Rank := 0, UserID := "77", Cash := 8, Bank := 9223372036854775807,
       Total := -9223372036854775808 } : UserObj).Bank
      = (if (9223372036854775808 : Int) < 0 then -(2 : Int) ^ 63 else (2 : Int) ^ 63 - 1) ∧
    base16Value "-0x8000000000000001" = some (-9223372036854775809) ∧
    ({ Rank := 0, UserID := "77", Cash := 8, Bank := 9223372036854775807,
       Total := -9223372036854775808 } : UserObj).Total
      = (if (-9223372036854775809 : Int) < 0 then -(2 : Int) ^ 63 else (2 : Int) ^ 63 - 1) ∧
    (base10Value "09" = some 9 ∧ hasLeadingZero "09" = true ∧ base8Value "09" = none) ∧
    ({ Rank := 0, UserID := "77", Cash := 8, Bank := 9223372036854775807,
       Total := -9223372036854775808 } : UserObj).Rank = 0 :=
  ⟨by rfl, by decide, by rfl, by decide,
   ((fixTypesToStruct_numeral numeralBody numeralObjmap _ (by rfl) (by decide) (by rfl)).1
      "0x1F" 31 (Or.inr (by decide)) (by decide)).1 (by rfl),
   by decide,
   ((fixTypesToStruct_numeral numeralBody numeralObjmap _ (by rfl) (by decide) (by rfl)).1
      "-12" (-12) (Or.inl (by decide)) (by decide)).2.1 (by rfl),
   by decide,
   ((fixTypesToStruct_numeral numeralBody numeralObjmap _ (by rfl) (by decide) (by rfl)).1
      "+7" 7 (Or.inl (by decide)) (by decide)).2.2.1 (by rfl),
   by rfl, by decide, by rfl, by decide,
   ((fixTypesToStruct_numeral octalBody octalObjmap _ (by rfl) (by decide) (by rfl)).2.1
      "010" 8 (by decide) (by decide)).1 (by rfl),
   by decide,
   ((fixTypesToStruct_numeral octalBody octalObjmap _ (by rfl) (by decide) (by rfl)).2.2.1
      "9223372036854775808" 9223372036854775808 (Or.inl (by decide)) (by decide)).2.1 (by rfl),
   by decide,
   ((fixTypesToStruct_numeral octalBody octalObjmap _ (by rfl) (by decide) (by rfl)).2.2.1
      "-0x8000000000000001" (-9223372036854775809) (Or.inr (Or.inl (by decide)))
      (by decide)).2.2.1 (by rfl),
   by decide,
   ((fixTypesToStruct_numeral octalBody octalObjmap _ (by rfl) (by decide) (by rfl)).2.2.2.1
      "09" 9 (by decide) (by decide) (by decide) (by decide)).2.2.2 (by rfl)⟩

/-! ## C16: success and the status code -/

/-- C16: once the client has returned a response, `Request` returns the body with a nil error
exactly when the status is not 429 and the body does not contain the text error; a nil error
always comes with the body of the response; and two calls whose responses have statuses other
than 429 and the same body have the same outcome. -/
theorem Request_success_iff (u : UserData) (protocol url payload : String) (resp : Response)
    (hresp : u.client protocol ("https://unbelievable.pizza/api/v1" ++ url) u.token payload
      = .ok resp) :
    (Request u protocol url payload = .ret (resp.Body, none) ↔
      (resp.StatusCode ≠ 429 ∧ Contains resp.Body "error" = false)) ∧
    (∀ body, Request u protocol url payload = .ret (body, none) →
      body = resp.Body ∧ resp.StatusCode ≠ 429 ∧ Contains resp.Body "error" = false) ∧
    (∀ (u2 : UserData) (protocol2 url2 payload2 : String) (resp2 : Response),
      u2.client protocol2 ("https://unbelievable.pizza/api/v1" ++ url2) u2.token payload2
        = .ok resp2 →
      resp.StatusCode ≠ 429 → resp2.StatusCode ≠ 429 → resp2.Body = resp.Body →
      Request u2 protocol2 url2 payload2 = Request u protocol url payload) := by
  refine ⟨?_, ?_, ?_⟩
  · unfold Request
    rw [hresp]
    by_cases h429 : resp.StatusCode = 429
    · cases ht : unmarshalTimeoutResponse resp.Body <;> simp [h429, ht]
    · by_cases hb : Contains resp.Body "error" = true
      · cases he : unmarshalErrorResponse resp.Body <;> simp [h429, hb, he]
      · simp [h429, hb]
  · intro body
    unfold Request
    rw [hresp]
    by_cases h429 : resp.StatusCode = 429
    · cases ht : unmarshalTimeoutResponse resp.Body <;> simp [h429, ht]
    · by_cases hb : Contains resp.Body "error" = true
      · cases he : unmarshalErrorResponse resp.Body <;> simp [h429, hb, he]
      · simp [h429, hb]
        intro h
        exact h.symm
  · intro u2 protocol2 url2 payload2 resp2 hresp2 h1 h2 hbody
    unfold Request
    rw [hresp, hresp2]
    simp [h1, h2, hbody]

/-- Witness of C16: status 500 with a body without the text error is a success, the same as
status 200 with this body, and status 429 is not. -/
theorem Request_success_iff_witness :
    Request (fixedResponse 500 "internal failure") "GET" "/guilds/1/users" ""
      = .ret ("internal failure", none) ∧
    Request (fixedResponse 200 "internal failure") "PUT" "/guilds/1/users/2" "\x7b\x7d"
      = Request (fixedResponse 500 "internal failure") "GET" "/guilds/1/users" "" ∧
    Request (fixedResponse 429 "\x7b\x7d") "GET" "/guilds/1/users" ""
      ≠ .ret ("\x7b\x7d", none) :=
  ⟨(Request_success_iff (fixedResponse 500 "internal failure") "GET" "/guilds/1/users" ""
      ⟨500, "internal failure"⟩ rfl).1.mpr ⟨by decide, by decide⟩,
   (Request_success_iff (fixedResponse 500 "internal failure") "GET" "/guilds/1/users" ""
      ⟨500, "internal failure"⟩ rfl).2.2 (fixedResponse 200 "internal failure")
      "PUT" "/guilds/1/users/2" "\x7b\x7d" ⟨200, "internal failure"⟩ rfl
      (by decide) (by decide) rfl,
   fun h => ((Request_success_iff (fixedResponse 429 "\x7b\x7d") "GET" "/guilds/1/users" ""
      ⟨429, "\x7b\x7d"⟩ rfl).1.mp h).1 rfl⟩

/-! ## C17: the nil error of Check -/

/-- C17: once the client has returned a response, `Check` returns a nil error exactly when the
body is the literal 404 error, and then it reports up with the elapsed time; and whenever
`Request` returns a nil error, `Check` reports not up with the error Cannot connect to API url.
-/
theorem Check_nil_error_iff (u : UserData) (elapsed sinceNow : Int) (resp : Response)
    (hresp : u.client "GET" ("https://unbelievable.pizza/api/v1" ++ "") u.token "" = .ok resp) :
    ((∃ c, Check u elapsed sinceNow = .ret (c, none)) ↔
      resp.Body = "\x7b\"error\":\"404: Not found\"\x7d") ∧
    (resp.Body = "\x7b\"error\":\"404: Not found\"\x7d" →
      Check u elapsed sinceNow = .ret (⟨elapsed, true⟩, none)) ∧
    (∀ body, Request u "GET" "" "" = .ret (body, none) →
      Check u elapsed sinceNow
        = .ret (⟨sinceNow, false⟩, some (GoError.new "Cannot connect to API url"))) := by
  have t2 : unmarshalTimeoutResponse "\x7b\"error\":\"404: Not found\"\x7d" = .ok {} := by rfl
  have e2 : unmarshalErrorResponse "\x7b\"error\":\"404: Not found\"\x7d"
      = .ok ⟨"404: Not found", ""⟩ := by rfl
  have c2 : Contains "\x7b\"error\":\"404: Not found\"\x7d" "error" = true := by decide
  have r2 : Contains "\x7b\"error\":\"404: Not found\"\x7d"
      "\x7b\"message\":\"You are being rate limited.\",\"retry_after\"" = false := by decide
  have hlit : resp.Body = "\x7b\"error\":\"404: Not found\"\x7d" →
      Check u elapsed sinceNow = .ret (⟨elapsed, true⟩, none) := by
    intro hb
    unfold Check Request
    rw [hresp]
    by_cases h429 : resp.StatusCode = 429 <;> simp [h429, hb, t2, e2, c2, r2]
  refine ⟨⟨?_, fun hb => ⟨_, hlit hb⟩⟩, hlit, ?_⟩
  · rintro ⟨c, hc⟩
    unfold Check Request at hc
    rw [hresp] at hc
    by_cases h429 : resp.StatusCode = 429
    · cases ht : unmarshalTimeoutResponse resp.Body with
      | error e => simp [h429, ht] at hc
      | ok t =>
        simp [h429, ht] at hc
        split_ifs at hc with h1 h2 h3 <;> simp_all
    · by_cases hb : Contains resp.Body "error" = true
      · cases he : unmarshalErrorResponse resp.Body with
        | error e => simp [h429, hb, he] at hc
        | ok t =>
          simp [h429, hb, he] at hc
          split_ifs at hc with h1 h2 h3 <;> simp_all
      · simp [h429, hb] at hc
  · intro body hreq
    unfold Check
    rw [hreq]
    simp

/-- Witness of C17: the literal 404 body under status 200, and a balance object that `Request`
classifies as a success. -/
theorem Check_nil_error_iff_witness :
    Check (fixedResponse 200 "\x7b\"error\":\"404: Not found\"\x7d") 7 0
      = .ret (⟨7, true⟩, none) ∧
    Request (fixedResponse 200 "\x7b\"cash\":1\x7d") "GET" "" ""
      = .ret ("\x7b\"cash\":1\x7d", none) ∧
    Check (fixedResponse 200 "\x7b\"cash\":1\x7d") 7 0
      = .ret (⟨0, false⟩, some (GoError.new "Cannot connect to API url")) :=
  ⟨(Check_nil_error_iff (fixedResponse 200 "\x7b\"error\":\"404: Not found\"\x7d") 7 0
      ⟨200, "\x7b\"error\":\"404: Not found\"\x7d"⟩ rfl).2.1 rfl,
   by decide,
   (Check_nil_error_iff (fixedResponse 200 "\x7b\"cash\":1\x7d") 7 0
      ⟨200, "\x7b\"cash\":1\x7d"⟩ rfl).2.2 "\x7b\"cash\":1\x7d" (by decide)⟩

end Apiv1
